import Mathlib

/-! A shallow embedding of the `serializer` package.

The package turns Go values into a tagged little-endian byte stream (`Encode`) and back
(`Decode`), resolving record types and field names through a registry (`RegisterType`).

The embedding follows `serializer.go` function by function.  Go values are represented by
the type `Value`, their `reflect.Type` by `GoType`.  The universe covers the kinds bool,
the ten integer kinds, string, array, slice, map, pointer and struct; IEEE-754 values
(`float32`, `float64`) are not part of it, and a decoder that meets one of the two float
tags reports `Fault.unmodelled`.

The byte buffer of package `little_endian_buffer` is not part of the repository; it is
modelled from its description in the specification.
-/

namespace Serializer

/-! ## Bytes and little-endian numbers -/

/-- One octet. -/
abbrev Byte := Fin 256

/-- The low eight bits of a number, the Go conversion `uint8(n)`. -/
def Byte.ofNat (n : Nat) : Byte := ⟨n % 256, Nat.mod_lt n (by decide)⟩

/-- The `w` low-order bytes of `v`, least significant byte first. -/
def leBytes : Nat → Nat → List Byte
  | 0, _ => []
  | w + 1, v => Byte.ofNat v :: leBytes w (v / 256)

/-- The number a little-endian byte sequence stands for. -/
def leNat : List Byte → Nat
  | [] => 0
  | b :: rest => b.val + 256 * leNat rest

/-- The two's-complement bit pattern of `v` in `w` bytes, as an unsigned number. -/
def twosComplement (w : Nat) (v : Int) : Nat := (v % (2 : Int) ^ (8 * w)).toNat

/-- The signed reading of a `w`-byte unsigned bit pattern. -/
def signedOf (w : Nat) (u : Nat) : Int :=
  if u < 2 ^ (8 * w - 1) then (u : Int) else (u : Int) - (2 : Int) ^ (8 * w)

/-- The Go conversion of an integer to a signed type of `w` bytes (wrap-around). -/
def wrapSigned (w : Nat) (v : Int) : Int := signedOf w (twosComplement w v)

/-- The Go conversion of an integer to an unsigned type of `w` bytes (wrap-around). -/
def wrapUnsigned (w : Nat) (v : Int) : Nat := twosComplement w v

/-! ## Platform -/

/-- The machine word of the platform the program is compiled for; it fixes the size of the
Go types `int` and `uint`. -/
inductive Platform
  | bits32
  | bits64
deriving DecidableEq

/-- The size in bytes of `int` and `uint`: `reflect.Type.Size()` for these two kinds. -/
def Platform.intSize : Platform → Nat
  | .bits32 => 4
  | .bits64 => 8

/-! ## Types and values -/

/-- The five signed integer kinds. -/
inductive IntKind
  | int | int8 | int16 | int32 | int64
deriving DecidableEq

/-- The five unsigned integer kinds. -/
inductive UintKind
  | uint | uint8 | uint16 | uint32 | uint64
deriving DecidableEq

/-- The result of `reflect.Type.Size()` for a signed integer kind. -/
def IntKind.size (p : Platform) : IntKind → Nat
  | .int => p.intSize
  | .int8 => 1
  | .int16 => 2
  | .int32 => 4
  | .int64 => 8

/-- The result of `reflect.Type.Size()` for an unsigned integer kind. -/
def UintKind.size (p : Platform) : UintKind → Nat
  | .uint => p.intSize
  | .uint8 => 1
  | .uint16 => 2
  | .uint32 => 4
  | .uint64 => 8

mutual
/-- The run-time type of a value (`reflect.Type`).  A struct type is given by its name and
its fields in declaration order. -/
inductive GoType
  | bool
  | int (k : IntKind)
  | uint (k : UintKind)
  | string
  | array (len : Nat) (elem : GoType)
  | slice (elem : GoType)
  | map (key : GoType) (elem : GoType)
  | pointer (elem : GoType)
  | struct (name : String) (fields : FieldList)
/-- The fields of a struct type: name, whether the field is exported, and type. -/
inductive FieldList
  | nil
  | cons (name : String) (exported : Bool) (type : GoType) (rest : FieldList)
end

deriving instance DecidableEq for GoType
deriving instance DecidableEq for FieldList

/-- The kinds of `reflect.Kind` that occur in the embedding. -/
inductive Kind
  | Bool | Int | Int8 | Int16 | Int32 | Int64
  | Uint | Uint8 | Uint16 | Uint32 | Uint64
  | Array | Map | Slice | String | Pointer | Struct
deriving DecidableEq

/-- The kind of a type: `reflect.Type.Kind()`. -/
def GoType.Kind : GoType → Kind
  | .bool => .Bool
  | .int .int => .Int
  | .int .int8 => .Int8
  | .int .int16 => .Int16
  | .int .int32 => .Int32
  | .int .int64 => .Int64
  | .uint .uint => .Uint
  | .uint .uint8 => .Uint8
  | .uint .uint16 => .Uint16
  | .uint .uint32 => .Uint32
  | .uint .uint64 => .Uint64
  | .string => .String
  | .array _ _ => .Array
  | .slice _ => .Slice
  | .map _ _ => .Map
  | .pointer _ => .Pointer
  | .struct _ _ => .Struct

/-- The number of fields of a struct type. -/
def FieldList.length : FieldList → Nat
  | .nil => 0
  | .cons _ _ _ rest => rest.length + 1

/-- A Go value together with its dynamic type.  A string is its byte sequence; a slice,
map or pointer may be nil. -/
inductive Value
  | bool (b : Bool)
  | int (k : IntKind) (v : Int)
  | uint (k : UintKind) (v : Nat)
  | string (s : List Byte)
  | array (elem : GoType) (items : List Value)
  | slice (elem : GoType) (items : List Value)
  | nilSlice (elem : GoType)
  | map (key : GoType) (elem : GoType) (entries : List (Value × Value))
  | nilMap (key : GoType) (elem : GoType)
  | ptr (elem : GoType) (target : Value)
  | nilPtr (elem : GoType)
  | struct (name : String) (fields : FieldList) (vals : List Value)

/-- The dynamic type of a value: `reflect.TypeOf`. -/
def Value.typeOf : Value → GoType
  | .bool _ => .bool
  | .int k _ => .int k
  | .uint k _ => .uint k
  | .string _ => .string
  | .array elem items => .array items.length elem
  | .slice elem _ => .slice elem
  | .nilSlice elem => .slice elem
  | .map key elem _ => .map key elem
  | .nilMap key elem => .map key elem
  | .ptr elem _ => .pointer elem
  | .nilPtr elem => .pointer elem
  | .struct name fields _ => .struct name fields

mutual
/-- The zero value of a type: what `reflect.New(t).Elem()` holds. -/
def zeroValue : GoType → Value
  | .bool => .bool false
  | .int k => .int k 0
  | .uint k => .uint k 0
  | .string => .string []
  | .array len elem => .array elem (List.replicate len (zeroValue elem))
  | .slice elem => .nilSlice elem
  | .map key elem => .nilMap key elem
  | .pointer elem => .nilPtr elem
  | .struct name fields => .struct name fields (zeroFields fields)
/-- The zero values of the fields of a struct type. -/
def zeroFields : FieldList → List Value
  | .nil => []
  | .cons _ _ type rest => zeroValue type :: zeroFields rest
end

mutual
/-- The method `reflect.Value.IsZero`: whether a value is the zero value of its type. -/
def Value.IsZero : Value → Bool
  | .bool b => !b
  | .int _ v => v == 0
  | .uint _ v => v == 0
  | .string s => s.isEmpty
  | .array _ items => allZero items
  | .slice _ _ => false
  | .nilSlice _ => true
  | .map _ _ _ => false
  | .nilMap _ _ => true
  | .ptr _ _ => false
  | .nilPtr _ => true
  | .struct _ _ vals => allZero vals
/-- Whether every value of a list is a zero value. -/
def allZero : List Value → Bool
  | [] => true
  | v :: rest => v.IsZero && allZero rest
end

/-! ## The byte buffer -/

/-- Modelled from the spec: the buffer of package `little_endian_buffer`, which is not in
the repository.  The specification describes it as a little-endian cursor over a growable
byte sequence with fixed-width reads and writes, raw byte reads and writes, a length query
and a cursor that can be read and set. -/
structure Buffer where
  bytes : List Byte
  pointer : Nat
deriving DecidableEq

/-- Modelled from the spec: a buffer over the given bytes with the cursor at the start. -/
def BufferFromBytes (b : List Byte) : Buffer := ⟨b, 0⟩

/-- Modelled from the spec: the whole content of the buffer. -/
def Buffer.Bytes (b : Buffer) : List Byte := b.bytes

/-- Modelled from the spec: the number of bytes between the cursor and the end. -/
def Buffer.LeftToRead (b : Buffer) : Nat := b.bytes.length - b.pointer

/-- Modelled from the spec: the cursor position. -/
def Buffer.Pointer (b : Buffer) : Nat := b.pointer

/-- Modelled from the spec: moves the cursor. -/
def Buffer.SetPointer (b : Buffer) (pointer : Nat) : Buffer := ⟨b.bytes, pointer⟩

/-- Modelled from the spec: writes raw bytes at the cursor, over what is stored there and
growing the sequence past its end, and advances the cursor. -/
def Buffer.WriteBytes (b : Buffer) (data : List Byte) : Buffer :=
  ⟨b.bytes.take b.pointer ++ data ++ b.bytes.drop (b.pointer + data.length),
    b.pointer + data.length⟩

/-- Modelled from the spec: reads `n` raw bytes at the cursor and advances it.  The result
is `none` when fewer than `n` bytes are left; what the primitive does then is not
described. -/
def Buffer.ReadBytes (b : Buffer) (n : Nat) : Option (List Byte × Buffer) :=
  if b.pointer + n ≤ b.bytes.length then
    some ((b.bytes.drop b.pointer).take n, ⟨b.bytes, b.pointer + n⟩)
  else none

/-- Modelled from the spec: writes an unsigned number in `w` little-endian bytes. -/
def Buffer.writeLE (b : Buffer) (w : Nat) (v : Nat) : Buffer := b.WriteBytes (leBytes w v)

/-- Modelled from the spec: reads an unsigned number of `w` little-endian bytes. -/
def Buffer.readLE (b : Buffer) (w : Nat) : Option (Nat × Buffer) :=
  match b.ReadBytes w with
  | some (data, b1) => some (leNat data, b1)
  | none => none

/-- Modelled from the spec: writes a boolean as one byte, 1 for true and 0 for false. -/
def Buffer.WriteBool (b : Buffer) (v : Bool) : Buffer := b.writeLE 1 (if v then 1 else 0)

/-- Modelled from the spec: `WriteUint8`. -/
def Buffer.WriteUint8 (b : Buffer) (v : Nat) : Buffer := b.writeLE 1 v

/-- Modelled from the spec: `WriteUint16`. -/
def Buffer.WriteUint16 (b : Buffer) (v : Nat) : Buffer := b.writeLE 2 v

/-- Modelled from the spec: `WriteUint32`. -/
def Buffer.WriteUint32 (b : Buffer) (v : Nat) : Buffer := b.writeLE 4 v

/-- Modelled from the spec: `WriteUint64`. -/
def Buffer.WriteUint64 (b : Buffer) (v : Nat) : Buffer := b.writeLE 8 v

/-- Modelled from the spec: `WriteInt8`, two's complement. -/
def Buffer.WriteInt8 (b : Buffer) (v : Int) : Buffer := b.writeLE 1 (twosComplement 1 v)

/-- Modelled from the spec: `WriteInt16`, two's complement. -/
def Buffer.WriteInt16 (b : Buffer) (v : Int) : Buffer := b.writeLE 2 (twosComplement 2 v)

/-- Modelled from the spec: `WriteInt32`, two's complement. -/
def Buffer.WriteInt32 (b : Buffer) (v : Int) : Buffer := b.writeLE 4 (twosComplement 4 v)

/-- Modelled from the spec: `WriteInt64`, two's complement. -/
def Buffer.WriteInt64 (b : Buffer) (v : Int) : Buffer := b.writeLE 8 (twosComplement 8 v)

/-- Modelled from the spec: reads one byte as a boolean, any non-zero byte being true. -/
def Buffer.ReadBool (b : Buffer) : Option (Bool × Buffer) :=
  match b.readLE 1 with
  | some (v, b1) => some (v != 0, b1)
  | none => none

/-- Modelled from the spec: `ReadUint8`. -/
def Buffer.ReadUint8 (b : Buffer) : Option (Nat × Buffer) := b.readLE 1

/-- Modelled from the spec: `ReadUint16`. -/
def Buffer.ReadUint16 (b : Buffer) : Option (Nat × Buffer) := b.readLE 2

/-- Modelled from the spec: `ReadUint32`. -/
def Buffer.ReadUint32 (b : Buffer) : Option (Nat × Buffer) := b.readLE 4

/-- Modelled from the spec: `ReadUint64`. -/
def Buffer.ReadUint64 (b : Buffer) : Option (Nat × Buffer) := b.readLE 8

/-- Modelled from the spec: reads a two's-complement number of `w` bytes. -/
def Buffer.readSigned (b : Buffer) (w : Nat) : Option (Int × Buffer) :=
  match b.readLE w with
  | some (v, b1) => some (signedOf w v, b1)
  | none => none

/-- Modelled from the spec: `ReadInt8`. -/
def Buffer.ReadInt8 (b : Buffer) : Option (Int × Buffer) := b.readSigned 1

/-- Modelled from the spec: `ReadInt16`. -/
def Buffer.ReadInt16 (b : Buffer) : Option (Int × Buffer) := b.readSigned 2

/-- Modelled from the spec: `ReadInt32`. -/
def Buffer.ReadInt32 (b : Buffer) : Option (Int × Buffer) := b.readSigned 4

/-- Modelled from the spec: `ReadInt64`. -/
def Buffer.ReadInt64 (b : Buffer) : Option (Int × Buffer) := b.readSigned 8

/-- The buffer with bytes appended and the cursor at the new end. -/
def Buffer.push (b : Buffer) (out : List Byte) : Buffer :=
  ⟨b.bytes ++ out, b.bytes.length + out.length⟩

/-- The cursor of a buffer stands at its end. -/
def Buffer.AtEnd (b : Buffer) : Prop := b.pointer = b.bytes.length

/-- The cursor of a buffer stands before the bytes `rest`, which run to its end. -/
def Buffer.At (b : Buffer) (rest : List Byte) : Prop :=
  b.pointer ≤ b.bytes.length ∧ b.bytes.drop b.pointer = rest

/-- The buffer with the cursor moved forward. -/
def Buffer.skip (b : Buffer) (n : Nat) : Buffer := ⟨b.bytes, b.pointer + n⟩

/-! ## Type identifiers and the registry -/

/-- The wire identifier of a type, a `uint16`. -/
abbrev TypeId := Nat

def TypeIdUnknown : TypeId := 0
def TypeIdBool : TypeId := 1
def TypeIdInt : TypeId := 2
def TypeIdInt8 : TypeId := 3
def TypeIdInt16 : TypeId := 4
def TypeIdInt32 : TypeId := 5
def TypeIdInt64 : TypeId := 6
def TypeIdUint : TypeId := 7
def TypeIdUint8 : TypeId := 8
def TypeIdUint16 : TypeId := 9
def TypeIdUint32 : TypeId := 10
def TypeIdUint64 : TypeId := 11
def TypeIdFloat32 : TypeId := 12
def TypeIdFloat64 : TypeId := 13
def TypeIdArray : TypeId := 14
def TypeIdMap : TypeId := 15
def TypeIdSlice : TypeId := 16
def TypeIdString : TypeId := 17

/-- The UTF-8 encoding of a code point, as Go's `string(rune)` produces it: a code point
that is negative, a surrogate or above U+10FFFF becomes U+FFFD. -/
def encodeRune (r : Int) : List Byte :=
  if r < 0 ∨ 0x10FFFF < r ∨ (0xD800 ≤ r ∧ r ≤ 0xDFFF) then [0xEF, 0xBF, 0xBD]
  else
    let n := r.toNat
    if n < 0x80 then [Byte.ofNat n]
    else if n < 0x800 then [Byte.ofNat (0xC0 + n / 64), Byte.ofNat (0x80 + n % 64)]
    else if n < 0x10000 then
      [Byte.ofNat (0xE0 + n / 4096), Byte.ofNat (0x80 + n / 64 % 64), Byte.ofNat (0x80 + n % 64)]
    else
      [Byte.ofNat (0xF0 + n / 262144), Byte.ofNat (0x80 + n / 4096 % 64),
        Byte.ofNat (0x80 + n / 64 % 64), Byte.ofNat (0x80 + n % 64)]

/-- The concatenated UTF-8 encodings of a list of code points: `string([]rune)`. -/
def encodeRunes : List Int → List Byte
  | [] => []
  | r :: rest => encodeRune r ++ encodeRunes rest

/-- The bytes of a Go identifier: `[]byte(name)`. -/
def nameBytes (name : String) : List Byte :=
  encodeRunes (name.data.map (fun c => (c.toNat : Int)))

/-- The 32-bit FNV-1a hash of a byte sequence: `fnv.New32a`, `Write`, `Sum32`. -/
def fnv32a (data : List Byte) : Nat :=
  data.foldl (fun h b => (Nat.xor h b.val * 16777619) % 4294967296) 2166136261

/-- The hash of a field name, as `RegisterType` and `encodeInternal` both compute it. -/
def nameHash (name : String) : Nat := fnv32a (nameBytes name)

/-- The four package-level maps.  A key that is absent is `none`; Go reads the zero value
of the element type for it. -/
structure Registry where
  typeToTypeIdMapping : GoType → Option TypeId
  typeIdToTypeMapping : TypeId → Option GoType
  typeIdNameHashMapping : TypeId → Option (String → Option Nat)
  typeIdHashNameMapping : TypeId → Option (Nat → Option String)

/-- The four maps before `init` has run. -/
def Registry.empty : Registry :=
  ⟨fun _ => none, fun _ => none, fun _ => none, fun _ => none⟩

/-- The name and hash maps of a struct type, filled field by field as the loop of
`RegisterType` does: a later field overwrites an earlier one with the same key. -/
def registerFields : FieldList → (String → Option Nat) × (Nat → Option String) →
    (String → Option Nat) × (Nat → Option String)
  | .nil, maps => maps
  | .cons name _ _ rest, maps =>
    registerFields rest
      (Function.update maps.1 name (some (nameHash name)),
        Function.update maps.2 (nameHash name) (some name))

/-- The function `RegisterType`: it stores the type under the id in both directions,
without any check, and for a struct type replaces the two field maps of the id. -/
def RegisterType (reg : Registry) (value : Value) (typeId : TypeId) : Registry :=
  let typeOf := value.typeOf
  let t2i := Function.update reg.typeToTypeIdMapping typeOf (some typeId)
  let i2t := Function.update reg.typeIdToTypeMapping typeId (some typeOf)
  match typeOf with
  | .struct _ fields =>
    let maps := registerFields fields (fun _ => none, fun _ => none)
    ⟨t2i, i2t, Function.update reg.typeIdNameHashMapping typeId (some maps.1),
      Function.update reg.typeIdHashNameMapping typeId (some maps.2)⟩
  | _ => ⟨t2i, i2t, reg.typeIdNameHashMapping, reg.typeIdHashNameMapping⟩

/-- The registry after the package's `init` function; the two registrations of the float
types are left out, floats being outside the embedding. -/
def initRegistry : Registry :=
  [(Value.bool false, TypeIdBool), (Value.int .int 0, TypeIdInt),
    (Value.int .int8 0, TypeIdInt8), (Value.int .int16 0, TypeIdInt16),
    (Value.int .int32 0, TypeIdInt32), (Value.int .int64 0, TypeIdInt64),
    (Value.uint .uint 0, TypeIdUint), (Value.uint .uint8 0, TypeIdUint8),
    (Value.uint .uint16 0, TypeIdUint16), (Value.uint .uint32 0, TypeIdUint32),
    (Value.uint .uint64 0, TypeIdUint64), (Value.string [], TypeIdString)].foldl
    (fun reg entry => RegisterType reg entry.1 entry.2) Registry.empty

/-- The function `writeTypeIdFixed`: the tag of the kind, and for any other kind the id
the registry holds for the type (0 when it holds none). -/
def writeTypeIdFixed (reg : Registry) (b : Buffer) (typeOf : GoType) : Buffer :=
  match typeOf with
  | .bool => b.WriteUint16 TypeIdBool
  | .int .int => b.WriteUint16 TypeIdInt
  | .int .int8 => b.WriteUint16 TypeIdInt8
  | .int .int16 => b.WriteUint16 TypeIdInt16
  | .int .int32 => b.WriteUint16 TypeIdInt32
  | .int .int64 => b.WriteUint16 TypeIdInt64
  | .uint .uint => b.WriteUint16 TypeIdUint
  | .uint .uint8 => b.WriteUint16 TypeIdUint8
  | .uint .uint16 => b.WriteUint16 TypeIdUint16
  | .uint .uint32 => b.WriteUint16 TypeIdUint32
  | .uint .uint64 => b.WriteUint16 TypeIdUint64
  | .array _ _ => b.WriteUint16 TypeIdArray
  | .map _ _ => b.WriteUint16 TypeIdMap
  | .slice _ => b.WriteUint16 TypeIdSlice
  | .string => b.WriteUint16 TypeIdString
  | t => b.WriteUint16 ((reg.typeToTypeIdMapping t).getD 0)

/-! ## Encoding -/

/-- The ways a run of the embedded code can end without a result. -/
inductive Fault
  /-- A Go run-time panic: an index out of range, a nil dereference, a `reflect` call on
  an invalid or non-settable value, a failed conversion. -/
  | panic
  /-- A read of more bytes than are left in the buffer; the description of the buffer
  primitive does not say what happens then. -/
  | pastEnd
  /-- The run left the embedding: a float payload, or a slice field grown a second time. -/
  | unmodelled
  /-- The recursion budget of the model ran out. -/
  | fuel
deriving DecidableEq

/-- The list `types` that `encodeInternal` builds for a container whose element type is
`itemTypeOf`: the element type, then the element type of each array, slice or map met on
the way down. -/
def elemTypes : GoType → List GoType
  | .array len elem => .array len elem :: elemTypes elem
  | .slice elem => .slice elem :: elemTypes elem
  | .map key elem => .map key elem :: elemTypes elem
  | t => [t]

/-- The loop `for _, typeOf := range types { writeTypeIdFixed(buf, typeOf) }`. -/
def writeTypeIds (reg : Registry) : Buffer → List GoType → Buffer
  | b, [] => b
  | b, t :: rest => writeTypeIds reg (writeTypeIdFixed reg b t) rest

/-- The branch of `encodeInternal` for the signed integer kinds. -/
def encodeInt (p : Platform) (buf : Buffer) (k : IntKind) (v : Int) : Buffer :=
  let size := k.size p
  let buf := if k = .int then buf.WriteUint8 (size % 256) else buf
  if size = 1 then buf.WriteInt8 (wrapSigned 1 v)
  else if size = 2 then buf.WriteInt16 (wrapSigned 2 v)
  else if size = 4 then buf.WriteInt32 (wrapSigned 4 v)
  else if size = 8 then buf.WriteInt64 (wrapSigned 8 v)
  else buf

/-- The branch of `encodeInternal` for the unsigned integer kinds. -/
def encodeUint (p : Platform) (buf : Buffer) (k : UintKind) (v : Nat) : Buffer :=
  let size := k.size p
  let buf := if k = .uint then buf.WriteUint8 (size % 256) else buf
  if size = 1 then buf.WriteUint8 (wrapUnsigned 1 v)
  else if size = 2 then buf.WriteUint16 (wrapUnsigned 2 v)
  else if size = 4 then buf.WriteUint32 (wrapUnsigned 4 v)
  else if size = 8 then buf.WriteUint64 (wrapUnsigned 8 v)
  else buf

/-- The part of the array and slice branch of `encodeInternal` before the element loop:
the element count and, with a header, the list of element type tags. -/
def encodeLength (reg : Registry) (buf : Buffer) (elem : GoType) (length : Nat)
    (header : Bool) : Buffer :=
  let buf := buf.WriteUint16 (length % 65536)
  if header then
    let types := elemTypes elem
    writeTypeIds reg (buf.WriteUint16 (types.length % 65536)) types
  else buf

mutual
/-- The function `encodeInternal`.  The first argument tells whether the pointer step at
the head of the function has been taken already: the function dereferences a pointer
once, and a value that still has pointer kind afterwards gets its type id and no payload. -/
def encodeValue (p : Platform) (reg : Registry) :
    Bool → Buffer → Value → Bool → Except Fault Buffer
  | false, buf, .ptr _ target, header => encodeValue p reg true buf target header
  | false, _, .nilPtr _, _ => .error .panic
  | true, buf, .ptr elem _, header =>
    .ok (if header then writeTypeIdFixed reg buf (.pointer elem) else buf)
  | true, buf, .nilPtr elem, header =>
    .ok (if header then writeTypeIdFixed reg buf (.pointer elem) else buf)
  | _, buf, .bool b, header =>
    let buf := if header then writeTypeIdFixed reg buf .bool else buf
    .ok (buf.WriteBool b)
  | _, buf, .int k v, header =>
    let buf := if header then writeTypeIdFixed reg buf (.int k) else buf
    .ok (encodeInt p buf k v)
  | _, buf, .uint k v, header =>
    let buf := if header then writeTypeIdFixed reg buf (.uint k) else buf
    .ok (encodeUint p buf k v)
  | _, buf, .string s, header =>
    let buf := if header then writeTypeIdFixed reg buf .string else buf
    let buf := buf.WriteUint16 (s.length % 65536)
    .ok (buf.WriteBytes s)
  | _, buf, .array elem items, header =>
    let buf := if header then writeTypeIdFixed reg buf (.array items.length elem) else buf
    encodeItems p reg (encodeLength reg buf elem items.length header) items
  | _, buf, .slice elem items, header =>
    let buf := if header then writeTypeIdFixed reg buf (.slice elem) else buf
    encodeItems p reg (encodeLength reg buf elem items.length header) items
  | _, buf, .nilSlice elem, header =>
    let buf := if header then writeTypeIdFixed reg buf (.slice elem) else buf
    .ok (encodeLength reg buf elem 0 header)
  | _, buf, .map key elem _, header =>
    .ok (if header then writeTypeIdFixed reg buf (.map key elem) else buf)
  | _, buf, .nilMap key elem, header =>
    .ok (if header then writeTypeIdFixed reg buf (.map key elem) else buf)
  | _, buf, .struct name fields vals, header =>
    let buf := if header then writeTypeIdFixed reg buf (.struct name fields) else buf
    let savedPointer := buf.Pointer
    let buf := buf.WriteUint16 0
    match encodeFields p reg buf 0 fields vals with
    | .error e => .error e
    | .ok (buf, encodedFields) =>
      let restoredPointer := buf.Pointer
      let buf := buf.SetPointer savedPointer
      let buf := buf.WriteUint16 (encodedFields % 65536)
      .ok (buf.SetPointer restoredPointer)
/-- The element loop of the array and slice branch: every element without a header. -/
def encodeItems (p : Platform) (reg : Registry) : Buffer → List Value → Except Fault Buffer
  | buf, [] => .ok buf
  | buf, item :: rest =>
    match encodeValue p reg false buf item false with
    | .error e => .error e
    | .ok buf => encodeItems p reg buf rest
/-- The field loop of the struct branch.  A zero field and an unexported field are passed
over; any other field is written as the hash of its name and its value with a header.
The number counts the fields written. -/
def encodeFields (p : Platform) (reg : Registry) :
    Buffer → Nat → FieldList → List Value → Except Fault (Buffer × Nat)
  | buf, encodedFields, .cons name exported _ rest, fieldValue :: vals =>
    if fieldValue.IsZero then encodeFields p reg buf encodedFields rest vals
    else if !exported then encodeFields p reg buf encodedFields rest vals
    else
      match encodeValue p reg false (buf.WriteUint32 (nameHash name)) fieldValue true with
      | .error e => .error e
      | .ok buf => encodeFields p reg buf (encodedFields + 1) rest vals
  | buf, encodedFields, _, _ => .ok (buf, encodedFields)
end

/-- The function `encodeInternal`, entered with a value as it is passed in. -/
def encodeInternal (p : Platform) (reg : Registry) (buf : Buffer) (value : Value)
    (header : Bool) : Except Fault Buffer :=
  encodeValue p reg false buf value header

/-- The function `Encode`. -/
def Encode (p : Platform) (reg : Registry) (value : Value) : Except Fault (List Byte) :=
  match encodeInternal p reg (BufferFromBytes []) value true with
  | .error e => .error e
  | .ok buf => .ok buf.Bytes

/-! ## Assignment and conversion of decoded values -/

/-- The first code point of a byte string and its width, as Go decodes UTF-8: a byte
that starts no well-formed sequence is U+FFFD of width 1. -/
def decodeRune : List Byte → Int × Nat
  | [] => (0xFFFD, 0)
  | b0 :: rest =>
    if b0.val < 0x80 then ((b0.val : Int), 1)
    else if b0.val < 0xC2 ∨ 0xF4 < b0.val then (0xFFFD, 1)
    else
      let lo := if b0.val = 0xE0 then 0xA0 else if b0.val = 0xF0 then 0x90 else 0x80
      let hi := if b0.val = 0xED then 0x9F else if b0.val = 0xF4 then 0x8F else 0xBF
      match rest with
      | [] => (0xFFFD, 1)
      | b1 :: rest1 =>
        if b1.val < lo ∨ hi < b1.val then (0xFFFD, 1)
        else if b0.val < 0xE0 then (((b0.val % 32 * 64 + b1.val % 64 : Nat) : Int), 2)
        else
          match rest1 with
          | [] => (0xFFFD, 1)
          | b2 :: rest2 =>
            if b2.val < 0x80 ∨ 0xBF < b2.val then (0xFFFD, 1)
            else if b0.val < 0xF0 then
              (((b0.val % 16 * 4096 + b1.val % 64 * 64 + b2.val % 64 : Nat) : Int), 3)
            else
              match rest2 with
              | [] => (0xFFFD, 1)
              | b3 :: _ =>
                if b3.val < 0x80 ∨ 0xBF < b3.val then (0xFFFD, 1)
                else
                  (((b0.val % 8 * 262144 + b1.val % 64 * 4096 + b2.val % 64 * 64
                    + b3.val % 64 : Nat) : Int), 4)

/-- The code points of a byte string: the Go conversion `[]rune(s)`.  The first argument
bounds the number of code points and is the length of the string where it is used. -/
def decodeRunes : Nat → List Byte → List Int
  | 0, _ => []
  | _ + 1, [] => []
  | n + 1, b :: rest =>
    let r := decodeRune (b :: rest)
    r.1 :: decodeRunes n ((b :: rest).drop r.2)

/-- Whether two types have identical underlying types: they are the same type, or struct
types with the same fields. -/
def identicalUnderlying (t v : GoType) : Bool :=
  t == v ||
    match t, v with
    | .struct _ f1, .struct _ f2 => f1 == f2
    | _, _ => false

/-- The method `Type.AssignableTo` with the receiver first.  The types are identical, or
they are struct types with the same fields of which at least one has no name. -/
def assignableTo (src dst : GoType) : Bool :=
  src == dst ||
    match src, dst with
    | .struct n1 f1, .struct n2 f2 => (n1 == "" || n2 == "") && f1 == f2
    | _, _ => false

/-- The method `Type.ConvertibleTo` with the receiver first, for the types of the
embedding. -/
def convertibleTo (src dst : GoType) : Bool :=
  match src, dst with
  | .int _, .int _ => true
  | .int _, .uint _ => true
  | .int _, .string => true
  | .uint _, .int _ => true
  | .uint _, .uint _ => true
  | .uint _, .string => true
  | .string, .slice (.uint .uint8) => true
  | .string, .slice (.int .int32) => true
  | .slice (.uint .uint8), .string => true
  | .slice (.int .int32), .string => true
  | .slice e1, .array _ e2 => e1 == e2
  | .slice e1, .pointer (.array _ e2) => e1 == e2
  | .pointer e1, .pointer e2 => identicalUnderlying e1 e2
  | _, _ => identicalUnderlying src dst

/-- The value seen at a type with the same underlying type: a struct value takes the name
of the struct type, any other value is unchanged. -/
def Value.withType (dst : GoType) (v : Value) : Value :=
  match dst, v with
  | .struct name _, .struct _ fields vals => .struct name fields vals
  | .pointer (.struct name _), .ptr _ (.struct _ fields vals) =>
    .ptr (.struct name fields) (.struct name fields vals)
  | .pointer elem, .nilPtr _ => .nilPtr elem
  | _, v => v

/-- The elements of an array or slice value; a nil slice has none. -/
def Value.elems : Value → List Value
  | .array _ items => items
  | .slice _ items => items
  | _ => []

/-- The number a value of integer kind holds. -/
def Value.toInt : Value → Int
  | .int _ v => v
  | .uint _ v => (v : Int)
  | _ => 0

/-- The method `Value.Convert` for the types of the embedding; it panics where
`convertibleTo` is false, and where a slice is shorter than the array it is converted to. -/
def convert (p : Platform) (dst : GoType) (v : Value) : Except Fault Value :=
  match v, dst with
  | .int _ x, .int k => .ok (.int k (wrapSigned (k.size p) x))
  | .int _ x, .uint k => .ok (.uint k (wrapUnsigned (k.size p) x))
  | .int _ x, .string => .ok (.string (encodeRune x))
  | .uint _ x, .int k => .ok (.int k (wrapSigned (k.size p) (x : Int)))
  | .uint _ x, .uint k => .ok (.uint k (wrapUnsigned (k.size p) (x : Int)))
  | .uint _ x, .string => .ok (.string (encodeRune (x : Int)))
  | .string s, .slice (.uint .uint8) =>
    .ok (.slice (.uint .uint8) (s.map (fun b => Value.uint .uint8 b.val)))
  | .string s, .slice (.int .int32) =>
    .ok (.slice (.int .int32) ((decodeRunes s.length s).map (fun r => Value.int .int32 r)))
  | .slice (.uint .uint8) items, .string =>
    .ok (.string (items.map (fun x => Byte.ofNat x.toInt.toNat)))
  | .nilSlice (.uint .uint8), .string => .ok (.string [])
  | .slice (.int .int32) items, .string =>
    .ok (.string (encodeRunes (items.map (fun x => x.toInt))))
  | .nilSlice (.int .int32), .string => .ok (.string [])
  | .slice e1 items, .array n e2 =>
    if e1 = e2 then
      if items.length < n then .error .panic else .ok (.array e2 (items.take n))
    else .error .panic
  | .nilSlice e1, .array n e2 =>
    if e1 = e2 then
      if 0 < n then .error .panic else .ok (.array e2 [])
    else .error .panic
  | .slice e1 items, .pointer (.array n e2) =>
    if e1 = e2 then
      if items.length < n then .error .panic
      else .ok (.ptr (.array n e2) (.array e2 (items.take n)))
    else .error .panic
  | .nilSlice e1, .pointer (.array n e2) =>
    if e1 = e2 then
      if 0 < n then .error .panic else .ok (.nilPtr (.array n e2))
    else .error .panic
  | .ptr e1 target, .pointer e2 =>
    if identicalUnderlying e1 e2 then .ok (Value.withType (.pointer e2) (.ptr e1 target))
    else .error .panic
  | .nilPtr e1, .pointer e2 =>
    if identicalUnderlying e1 e2 then .ok (.nilPtr e2) else .error .panic
  | v, dst =>
    if identicalUnderlying v.typeOf dst then .ok (v.withType dst) else .error .panic

/-- The method `FieldByName` restricted to the fields a struct type declares itself: the
position, the export flag and the type of the first field with the name. -/
def FieldList.find (name : String) : FieldList → Option (Nat × Bool × GoType)
  | .nil => none
  | .cons n exported type rest =>
    if n = name then some (0, exported, type)
    else
      match rest.find name with
      | some (i, e, t) => some (i + 1, e, t)
      | none => none

/-- The loop over `j` at the end of the field assignment, for an element type that is
assignable or convertible to the element type of the field: `Index(j)` panics past the
last element of the destination, `Set` panics on a field that is not exported. -/
def assignElems (p : Platform) (t ft : GoType) (exported : Bool) :
    List Value → List Value → Except Fault (List Value)
  | dest, [] => .ok dest
  | [], _ :: _ => .error .panic
  | _ :: dest, s :: src =>
    let converted :=
      if assignableTo t ft then .ok (s.withType ft) else convert p ft s
    match converted with
    | .error e => .error e
    | .ok c =>
      if exported then
        match assignElems p t ft exported dest src with
        | .error e => .error e
        | .ok rest => .ok (c :: rest)
      else .error .panic

/-- The element type of an array or slice type: `Type.Elem()`. -/
def GoType.Elem : GoType → GoType
  | .array _ elem => elem
  | .slice elem => elem
  | .map _ elem => elem
  | .pointer elem => elem
  | t => t

/-- Whether a type has kind array or slice. -/
def GoType.isArrayOrSlice : GoType → Bool
  | .array _ _ => true
  | .slice _ => true
  | _ => false

/-- Lines 328 to 364 of `decodeInternal`: the assignment of a decoded field value to the
field `name` of the struct value under construction.  The value is assigned when its type
is assignable to the type of the field, converted when it is convertible, copied element
by element when both are arrays or slices, and dropped otherwise. -/
def assignField (p : Platform) (created : Value) (name : String) (field : Value) :
    Except Fault Value :=
  match created with
  | .struct sname fields vals =>
    match fields.find name with
    | none => .error .panic
    | some (i, exported, ftype) =>
      let fieldType := field.typeOf
      if assignableTo fieldType ftype then
        if exported then .ok (.struct sname fields (vals.set i (field.withType ftype)))
        else .error .panic
      else if convertibleTo fieldType ftype then
        match convert p ftype field with
        | .error e => .error e
        | .ok c =>
          if exported then .ok (.struct sname fields (vals.set i c)) else .error .panic
      else if fieldType.isArrayOrSlice && ftype.isArrayOrSlice then
        let src := field.elems
        let t := fieldType.Elem
        let ft := ftype.Elem
        let grown : Except Fault (List Value) :=
          match ftype with
          | .slice _ =>
            if exported then
              match vals.getD i (.nilSlice ft) with
              | .nilSlice _ => .ok (List.replicate src.length (zeroValue ft))
              | _ => .error .unmodelled
            else .error .panic
          | _ => .ok (vals.getD i (.nilSlice ft)).elems
        match grown with
        | .error e => .error e
        | .ok dest =>
          let copied :=
            if assignableTo t ft || convertibleTo t ft then assignElems p t ft exported dest src
            else .ok dest
          match copied with
          | .error e => .error e
          | .ok items =>
            match ftype with
            | .slice _ =>
              if src.length = 0 then .ok (.struct sname fields vals)
              else .ok (.struct sname fields (vals.set i (.slice ft items)))
            | _ => .ok (.struct sname fields (vals.set i (.array ft items)))
      else .ok (.struct sname fields vals)
  | _ => .error .panic

/-! ## Decoding -/

/-- What a call of `decodeInternal` leaves: the value returned, `none` for a nil
interface, and the buffer with its cursor moved. -/
abbrev Decoded := Except Fault (Option Value × Buffer)

/-- The loop that reads the list of element type tags of an outermost container. -/
def readTypeIds : Nat → Buffer → List TypeId → Except Fault (List TypeId × Buffer)
  | 0, buf, typeIds => .ok (typeIds, buf)
  | n + 1, buf, typeIds =>
    match buf.ReadUint16 with
    | none => .error .pastEnd
    | some (typeId, buf) => readTypeIds n buf (typeIds ++ [typeId])

/-- The loop `items[i] = decodeInternal(buf, typeIds[1:], typeIds[0])`, given the decoder
of one element.  Indexing an empty tag list panics. -/
def decodeItems (decodeItem : Buffer → List TypeId → TypeId → Decoded)
    (typeIds : List TypeId) : Nat → Buffer → Except Fault (List (Option Value) × Buffer)
  | 0, buf => .ok ([], buf)
  | n + 1, buf =>
    match typeIds with
    | [] => .error .panic
    | typeId :: rest =>
      match decodeItem buf rest typeId with
      | .error e => .error e
      | .ok (item, buf) =>
        match decodeItems decodeItem typeIds n buf with
        | .error e => .error e
        | .ok (items, buf) => .ok (item :: items, buf)

/-- The loop `created.Index(i).Set(reflect.ValueOf(items[i]))`: it panics on a nil item
and on an item whose type is not assignable to the element type. -/
def setItems (typeOf : GoType) : List (Option Value) → Except Fault (List Value)
  | [] => .ok []
  | none :: _ => .error .panic
  | some item :: rest =>
    if assignableTo item.typeOf typeOf then
      match setItems typeOf rest with
      | .error e => .error e
      | .ok items => .ok (item.withType typeOf :: items)
    else .error .panic

/-- Lines 246 to 271 of `decodeInternal`: the container made of the decoded items.  The
element type is the type of the first item; without a first item, or with a nil one, the
result is nil. -/
def makeContainer (typeId : TypeId) (items : List (Option Value)) :
    Except Fault (Option Value) :=
  match items with
  | [] => .ok none
  | none :: _ => .ok none
  | some first :: _ =>
    match setItems first.typeOf items with
    | .error e => .error e
    | .ok vals =>
      if typeId = TypeIdArray then .ok (some (.array first.typeOf vals))
      else .ok (some (.slice first.typeOf vals))

/-- The name stored for a hash in the field map of a type id; the empty string when the
id has no field map or the map has no such hash. -/
def Registry.hashName (reg : Registry) (typeId : TypeId) (nameHash : Nat) : String :=
  match reg.typeIdHashNameMapping typeId with
  | none => ""
  | some names => (names nameHash).getD ""

/-- The field loop of the record branch of `decodeInternal`, given the decoder of one
field value.  A hash without a name ends the iteration at once, before any byte of the
value is read; so does a value that decodes to nil, after it has been read. -/
def decodeFields (p : Platform) (reg : Registry) (decodeField : Buffer → Decoded)
    (typeId : TypeId) : Nat → Buffer → Value → Except Fault (Value × Buffer)
  | 0, buf, created => .ok (created, buf)
  | n + 1, buf, created =>
    match buf.ReadUint32 with
    | none => .error .pastEnd
    | some (nameHash, buf) =>
      let name := reg.hashName typeId nameHash
      if name = "" then decodeFields p reg decodeField typeId n buf created
      else
        match decodeField buf with
        | .error e => .error e
        | .ok (none, buf) => decodeFields p reg decodeField typeId n buf created
        | .ok (some field, buf) =>
          match assignField p created name field with
          | .error e => .error e
          | .ok created => decodeFields p reg decodeField typeId n buf created

/-- The branch of `decodeInternal` for the tag of `int`: the width selector, then the
value at that width, converted to `int`.  Any other selector leaves the switch, and the
function returns nil. -/
def decodeInt (p : Platform) (buf : Buffer) : Decoded :=
  match buf.ReadUint8 with
  | none => .error .pastEnd
  | some (size, buf) =>
    if size = 1 ∨ size = 2 ∨ size = 4 ∨ size = 8 then
      match buf.readSigned size with
      | none => .error .pastEnd
      | some (v, buf) => .ok (some (.int .int (wrapSigned p.intSize v)), buf)
    else .ok (none, buf)

/-- The branch of `decodeInternal` for the tag of `uint`. -/
def decodeUint (p : Platform) (buf : Buffer) : Decoded :=
  match buf.ReadUint8 with
  | none => .error .pastEnd
  | some (size, buf) =>
    if size = 1 ∨ size = 2 ∨ size = 4 ∨ size = 8 then
      match buf.readLE size with
      | none => .error .pastEnd
      | some (v, buf) => .ok (some (.uint .uint (wrapUnsigned p.intSize (v : Int))), buf)
    else .ok (none, buf)

/-- A fixed-width signed integer read from the buffer. -/
def decodeSigned (buf : Buffer) (k : IntKind) (w : Nat) : Decoded :=
  match buf.readSigned w with
  | none => .error .pastEnd
  | some (v, buf) => .ok (some (.int k v), buf)

/-- A fixed-width unsigned integer read from the buffer. -/
def decodeUnsigned (buf : Buffer) (k : UintKind) (w : Nat) : Decoded :=
  match buf.readLE w with
  | none => .error .pastEnd
  | some (v, buf) => .ok (some (.uint k v), buf)

/-- The statement `switch typeId` of `decodeInternal`, given the function that stands for
the recursive calls. -/
def decodeSwitch (p : Platform) (reg : Registry)
    (recur : Buffer → List TypeId → TypeId → Decoded) (buf : Buffer) (typeIds : List TypeId)
    (typeId : TypeId) : Decoded :=
  if typeId = TypeIdBool then
    match buf.ReadBool with
    | none => .error .pastEnd
    | some (b, buf) => .ok (some (.bool b), buf)
  else if typeId = TypeIdInt then decodeInt p buf
  else if typeId = TypeIdInt8 then decodeSigned buf .int8 1
  else if typeId = TypeIdInt16 then decodeSigned buf .int16 2
  else if typeId = TypeIdInt32 then decodeSigned buf .int32 4
  else if typeId = TypeIdInt64 then decodeSigned buf .int64 8
  else if typeId = TypeIdUint then decodeUint p buf
  else if typeId = TypeIdUint8 then decodeUnsigned buf .uint8 1
  else if typeId = TypeIdUint16 then decodeUnsigned buf .uint16 2
  else if typeId = TypeIdUint32 then decodeUnsigned buf .uint32 4
  else if typeId = TypeIdUint64 then decodeUnsigned buf .uint64 8
  else if typeId = TypeIdFloat32 ∨ typeId = TypeIdFloat64 then .error .unmodelled
  else if typeId = TypeIdString then
    match buf.ReadUint16 with
    | none => .error .pastEnd
    | some (len, buf) =>
      match buf.ReadBytes len with
      | none => .error .pastEnd
      | some (s, buf) => .ok (some (.string s), buf)
  else if typeId = TypeIdArray ∨ typeId = TypeIdSlice then
    match buf.ReadUint16 with
    | none => .error .pastEnd
    | some (length, buf) =>
      let readTypes : Except Fault (List TypeId × Buffer) :=
        if typeIds.length = 0 then
          match buf.ReadUint16 with
          | none => .error .pastEnd
          | some (typesLength, buf) => readTypeIds typesLength buf typeIds
        else .ok (typeIds, buf)
      match readTypes with
      | .error e => .error e
      | .ok (typeIds, buf) =>
        match decodeItems recur typeIds length buf with
        | .error e => .error e
        | .ok (items, buf) =>
          match makeContainer typeId items with
          | .error e => .error e
          | .ok created => .ok (created, buf)
  else if typeId = TypeIdMap then .ok (none, buf)
  else
    match reg.typeIdToTypeMapping typeId with
    | none => .ok (none, buf)
    | some typeOf =>
      match buf.ReadUint16 with
      | none => .error .pastEnd
      | some (numberOfFields, buf) =>
        match decodeFields p reg (fun buf => recur buf [] TypeIdUnknown) typeId
          numberOfFields buf (zeroValue typeOf) with
        | .error e => .error e
        | .ok (created, buf) => .ok (some created, buf)

/-- The function `decodeInternal`.  The first argument bounds the depth of the recursion;
`Decode` passes more than any input can use. -/
def decodeInternal (p : Platform) (reg : Registry) :
    Nat → Buffer → List TypeId → TypeId → Decoded
  | 0, _, _, _ => .error .fuel
  | fuel + 1, buf, typeIds, typeId =>
    if buf.LeftToRead = 0 then .ok (none, buf)
    else if typeId = TypeIdUnknown then
      match buf.ReadUint16 with
      | none => .error .pastEnd
      | some (typeId, buf) =>
        decodeSwitch p reg (decodeInternal p reg fuel) buf typeIds typeId
    else decodeSwitch p reg (decodeInternal p reg fuel) buf typeIds typeId

/-- The function `Decode`.  A call of `decodeInternal` that goes one level down has read
at least two bytes before, so the depth of the recursion stays below the length of the
input. -/
def Decode (p : Platform) (reg : Registry) (b : List Byte) : Except Fault (Option Value) :=
  match decodeInternal p reg (b.length + 1) (BufferFromBytes b) [] TypeIdUnknown with
  | .error e => .error e
  | .ok (value, _) => .ok value

/-! ## The bytes an encoding appends

`encodeInternal` works on a buffer whose cursor stands at its end, except for the moment
in which the field count of a record is written back.  The functions of this section give
the bytes a call appends, without the buffer; `encodeValue_eq` below shows that they
agree with the encoder. -/

/-- The number `writeTypeIdFixed` writes for a type. -/
def typeTag (reg : Registry) : GoType → Nat
  | .bool => TypeIdBool
  | .int .int => TypeIdInt
  | .int .int8 => TypeIdInt8
  | .int .int16 => TypeIdInt16
  | .int .int32 => TypeIdInt32
  | .int .int64 => TypeIdInt64
  | .uint .uint => TypeIdUint
  | .uint .uint8 => TypeIdUint8
  | .uint .uint16 => TypeIdUint16
  | .uint .uint32 => TypeIdUint32
  | .uint .uint64 => TypeIdUint64
  | .array _ _ => TypeIdArray
  | .map _ _ => TypeIdMap
  | .slice _ => TypeIdSlice
  | .string => TypeIdString
  | t => (reg.typeToTypeIdMapping t).getD 0

/-- The bytes of a header: the tag of the type when a header is asked for. -/
def headerBytes (reg : Registry) (header : Bool) (t : GoType) : List Byte :=
  if header then leBytes 2 (typeTag reg t) else []

/-- The tags of a list of types, two bytes each. -/
def tagListBytes (reg : Registry) : List GoType → List Byte
  | [] => []
  | t :: rest => leBytes 2 (typeTag reg t) ++ tagListBytes reg rest

/-- The payload of a signed integer: the width selector for `int`, then the value. -/
def intBytes (p : Platform) (k : IntKind) (v : Int) : List Byte :=
  (if k = .int then leBytes 1 (k.size p) else []) ++
    leBytes (k.size p) (twosComplement (k.size p) v)

/-- The payload of an unsigned integer: the width selector for `uint`, then the value. -/
def uintBytes (p : Platform) (k : UintKind) (v : Nat) : List Byte :=
  (if k = .uint then leBytes 1 (k.size p) else []) ++ leBytes (k.size p) v

/-- The element count of an array or slice and, with a header, the list of the tags of
its element types preceded by its length. -/
def lengthBytes (reg : Registry) (elem : GoType) (length : Nat) (header : Bool) :
    List Byte :=
  leBytes 2 length ++
    (if header then
      leBytes 2 (elemTypes elem).length ++ tagListBytes reg (elemTypes elem)
    else [])

mutual
/-- The bytes `encodeValue` appends for a value. -/
def encBytes (p : Platform) (reg : Registry) : Bool → Value → Bool → Except Fault (List Byte)
  | false, .ptr _ target, header => encBytes p reg true target header
  | false, .nilPtr _, _ => .error .panic
  | true, .ptr elem _, header => .ok (headerBytes reg header (.pointer elem))
  | true, .nilPtr elem, header => .ok (headerBytes reg header (.pointer elem))
  | _, .bool b, header => .ok (headerBytes reg header .bool ++ leBytes 1 (if b then 1 else 0))
  | _, .int k v, header => .ok (headerBytes reg header (.int k) ++ intBytes p k v)
  | _, .uint k v, header => .ok (headerBytes reg header (.uint k) ++ uintBytes p k v)
  | _, .string s, header =>
    .ok (headerBytes reg header .string ++ (leBytes 2 s.length ++ s))
  | _, .array elem items, header =>
    match encItems p reg items with
    | .error e => .error e
    | .ok bs =>
      .ok (headerBytes reg header (.array items.length elem) ++
        (lengthBytes reg elem items.length header ++ bs))
  | _, .slice elem items, header =>
    match encItems p reg items with
    | .error e => .error e
    | .ok bs =>
      .ok (headerBytes reg header (.slice elem) ++
        (lengthBytes reg elem items.length header ++ bs))
  | _, .nilSlice elem, header =>
    .ok (headerBytes reg header (.slice elem) ++ lengthBytes reg elem 0 header)
  | _, .map key elem _, header => .ok (headerBytes reg header (.map key elem))
  | _, .nilMap key elem, header => .ok (headerBytes reg header (.map key elem))
  | _, .struct name fields vals, header =>
    match encFields p reg fields vals with
    | .error e => .error e
    | .ok (bs, encodedFields) =>
      .ok (headerBytes reg header (.struct name fields) ++ (leBytes 2 encodedFields ++ bs))
/-- The bytes `encodeItems` appends for the elements of a container. -/
def encItems (p : Platform) (reg : Registry) : List Value → Except Fault (List Byte)
  | [] => .ok []
  | item :: rest =>
    match encBytes p reg false item false with
    | .error e => .error e
    | .ok b =>
      match encItems p reg rest with
      | .error e => .error e
      | .ok bs => .ok (b ++ bs)
/-- The bytes `encodeFields` appends for the fields of a record, and how many fields
they hold. -/
def encFields (p : Platform) (reg : Registry) :
    FieldList → List Value → Except Fault (List Byte × Nat)
  | .cons name exported _ rest, fieldValue :: vals =>
    if fieldValue.IsZero then encFields p reg rest vals
    else if !exported then encFields p reg rest vals
    else
      match encBytes p reg false fieldValue true with
      | .error e => .error e
      | .ok b =>
        match encFields p reg rest vals with
        | .error e => .error e
        | .ok (bs, encodedFields) =>
          .ok (leBytes 4 (nameHash name) ++ (b ++ bs), encodedFields + 1)
  | _, _ => .ok ([], 0)
end

/-! ## Predicates used in the statements -/

/-- The number lies in the range of the signed integer kind. -/
def IntKind.InRange (p : Platform) (k : IntKind) (v : Int) : Prop :=
  -(2 : Int) ^ (8 * k.size p - 1) ≤ v ∧ v < (2 : Int) ^ (8 * k.size p - 1)

/-- The number lies in the range of the unsigned integer kind. -/
def UintKind.InRange (p : Platform) (k : UintKind) (v : Nat) : Prop :=
  v < 2 ^ (8 * k.size p)

/-- A value of kind bool or of one of the ten integer kinds, within the range of its
type. -/
def Value.IsScalar (p : Platform) : Value → Prop
  | .bool _ => True
  | .int k v => k.InRange p v
  | .uint k v => k.InRange p v
  | _ => False

/-- A scalar value or a string of at most 65535 bytes. -/
def Value.IsSimple (p : Platform) : Value → Prop
  | .string s => s.length ≤ 65535
  | v => v.IsScalar p

/-- A value of one of the eight integer kinds of fixed width, within the range of its
type. -/
def Value.IsFixedInt (p : Platform) : Value → Prop
  | .int k v => k ≠ .int ∧ k.InRange p v
  | .uint k v => k ≠ .uint ∧ k.InRange p v
  | _ => False

mutual
/-- A container as claim C3 describes it: an array or a slice that is not empty, has at
most 65535 elements, and whose elements all have its element type and are either
fixed-width integers or containers of the same sort. -/
def Value.IsNested (p : Platform) : Value → Prop
  | .array elem items => items ≠ [] ∧ items.length ≤ 65535 ∧ AreNested p elem items
  | .slice elem items => items ≠ [] ∧ items.length ≤ 65535 ∧ AreNested p elem items
  | _ => False
/-- The elements of such a container. -/
def AreNested (p : Platform) (elem : GoType) : List Value → Prop
  | [] => True
  | item :: rest =>
    item.typeOf = elem ∧ (item.IsFixedInt p ∨ item.IsNested p) ∧ AreNested p elem rest
end

/-- The two tag bytes `writeTypeIdFixed` writes for a type. -/
def tagBytes (reg : Registry) (t : GoType) : List Byte :=
  (writeTypeIdFixed reg (BufferFromBytes []) t).Bytes

/-- The tags of the list `types` of a container with the given element type, in the order
in which `encodeInternal` writes them. -/
def nestedTagList (reg : Registry) (elem : GoType) : List (List Byte) :=
  (elemTypes elem).map (tagBytes reg)

mutual
/-- The header-less form of claim C10: for an array or slice its 2-byte element count
followed by the header-less forms of its elements, for any other value what
`encodeInternal` writes for it without a header. -/
def headerless (p : Platform) (reg : Registry) : Value → Except Fault (List Byte)
  | .array _ items =>
    match headerlessAll p reg items with
    | .error e => .error e
    | .ok body => .ok (leBytes 2 items.length ++ body)
  | .slice _ items =>
    match headerlessAll p reg items with
    | .error e => .error e
    | .ok body => .ok (leBytes 2 items.length ++ body)
  | .nilSlice _ => .ok (leBytes 2 0)
  | v =>
    match encodeInternal p reg (BufferFromBytes []) v false with
    | .error e => .error e
    | .ok buf => .ok buf.Bytes
/-- The header-less forms of the elements of a container, one after the other. -/
def headerlessAll (p : Platform) (reg : Registry) : List Value → Except Fault (List Byte)
  | [] => .ok []
  | item :: rest =>
    match headerless p reg item with
    | .error e => .error e
    | .ok b =>
      match headerlessAll p reg rest with
      | .error e => .error e
      | .ok bs => .ok (b ++ bs)
end

/-- The nesting depth of a type: the number of array and slice levels above its first type
that is neither. -/
def GoType.depth : GoType → Nat
  | .array _ elem => elem.depth + 1
  | .slice elem => elem.depth + 1
  | _ => 0

/-- The field entries of claim C9: for every exported field whose value is not the zero
value of its type, in declaration order, the four little-endian bytes of the hash of the
field name followed by the encoding of the value with its header. -/
def writtenFields (p : Platform) (reg : Registry) :
    FieldList → List Value → Except Fault (List (List Byte))
  | .cons name exported _ rest, v :: vals =>
    if exported && !v.IsZero then
      match Encode p reg v with
      | .error e => .error e
      | .ok enc =>
        match writtenFields p reg rest vals with
        | .error e => .error e
        | .ok entries => .ok ((leBytes 4 (nameHash name) ++ enc) :: entries)
    else writtenFields p reg rest vals
  | _, _ => .ok []

/-- The names of the fields of a struct type, in declaration order. -/
def FieldList.names : FieldList → List String
  | .nil => []
  | .cons name _ _ rest => name :: rest.names

/-- The struct type declares a field with this name, export flag and type. -/
def FieldList.Has (name : String) (exported : Bool) (type : GoType) : FieldList → Prop
  | .nil => False
  | .cons n e t rest => (n = name ∧ e = exported ∧ t = type) ∨ rest.Has name exported type

/-- The value a record, given by its fields and their values, holds in the field `name`. -/
def fieldValue (name : String) : FieldList → List Value → Option Value
  | .cons n _ _ rest, v :: vals => if n = name then some v else fieldValue name rest vals
  | _, _ => none

/-- A record whose fields are all exported and named, each holding a value of the type
the field declares that satisfies `good`. -/
def RecordOf (good : Value → Prop) : FieldList → List Value → Prop
  | .cons name exported type rest, v :: vals =>
    exported = true ∧ name ≠ "" ∧ good v ∧ v.typeOf = type ∧ RecordOf good rest vals
  | .nil, [] => True
  | _, _ => False

/-- The decoder, under the registry `regB`, reads the value back from the encoding made
under the registry `regA`: entered without a type id at the start of the encoding, with
any bytes after it and a recursion budget of at least the length of the encoding,
`decodeInternal` returns the value and leaves the cursor behind the encoding. -/
def ReadsBack (p : Platform) (regA regB : Registry) (v : Value) : Prop :=
  v.withType v.typeOf = v ∧
    ∃ enc, Encode p regA v = .ok enc ∧
      ∀ (fuel : Nat) (b : Buffer) (rest : List Byte), enc.length ≤ fuel →
        b.At (enc ++ rest) →
        decodeInternal p regB fuel b [] TypeIdUnknown = .ok (some v, b.skip enc.length)

/-- A field value that passes from an encoded record to a decoded one: it is the zero
value of its type, which the encoder leaves out and the decoder never touches, or a value
the decoder reads back. -/
def Transfers (p : Platform) (regA regB : Registry) (v : Value) : Prop :=
  (v.IsZero = true → v = zeroValue v.typeOf) ∧
    (v.IsZero = false → ReadsBack p regA regB v)

/-- The number of values of a list that are not zero values. -/
def nonZeroCount : List Value → Nat
  | [] => 0
  | v :: rest => (if v.IsZero then 0 else 1) + nonZeroCount rest

/-- The registry holds a struct type under an id as `RegisterType` leaves it: the type
maps to the id, the id to the type, and the hash map of the id is the one built from the
fields of the type. -/
def Registry.Holds (reg : Registry) (name : String) (fields : FieldList) (id : Nat) : Prop :=
  reg.typeToTypeIdMapping (.struct name fields) = some id ∧
    reg.typeIdToTypeMapping id = some (.struct name fields) ∧
    reg.typeIdHashNameMapping id =
      some (registerFields fields (fun _ => none, fun _ => none)).2

/-- The values of a record under construction after the written fields of an encoded
record have been assigned to it, one after the other, each at the position of its name. -/
def applyFields (target : FieldList) : FieldList → List Value → List Value → List Value
  | .cons name _ _ rest, v :: vals, cur =>
    if v.IsZero then applyFields target rest vals cur
    else
      match target.find name with
      | some (i, _, _) => applyFields target rest vals (cur.set i v)
      | none => applyFields target rest vals cur
  | _, _, cur => cur

/-- The fields of the record type `Foo` of the concrete scenarios: one exported field
`Bar` of type int32. -/
def fooFields : FieldList := .cons "Bar" true (.int .int32) .nil

/-- The value `Foo{Bar: bar}`. -/
def Foo (bar : Int) : Value := .struct "Foo" fooFields [.int .int32 bar]

/-- The registry after `init` and `RegisterType(Foo{}, 50)`. -/
def fooRegistry : Registry := RegisterType initRegistry (Foo 0) 50

/-- The fields of the layout `A` of the schema scenarios: two exported int32 fields `X`
and `Y`. -/
def layoutA : FieldList := .cons "X" true (.int .int32) (.cons "Y" true (.int .int32) .nil)

/-- The fields of the layout `B` of the schema scenarios: the field `Y` alone. -/
def layoutB : FieldList := .cons "Y" true (.int .int32) .nil

/-- The registry after `init` and the registration of layout `A` under id 50. -/
def registryA : Registry :=
  RegisterType initRegistry (.struct "A" layoutA [.int .int32 0, .int .int32 0]) 50

/-- The registry after `init` and the registration of layout `B` under id 50. -/
def registryB : Registry :=
  RegisterType initRegistry (.struct "B" layoutB [.int .int32 0]) 50

/-- The map value `map[int32]map[int32]int32{5: {3: 6}}` of the package's test. -/
def testMap : Value :=
  .map (.int .int32) (.map (.int .int32) (.int .int32))
    [(.int .int32 5, .map (.int .int32) (.int .int32) [(.int .int32 3, .int .int32 6)])]

/-- The fields of a record type `Sample` with a field of each simple kind: `Flag bool`,
`Count int32` and `Name string`. -/
def sampleFields : FieldList :=
  .cons "Flag" true .bool (.cons "Count" true (.int .int32) (.cons "Name" true .string .nil))

/-- The registry after `init` and the registration of `Sample` under id 60. -/
def sampleRegistry : Registry :=
  RegisterType initRegistry (zeroValue (.struct "Sample" sampleFields)) 60

/-- The fields of a record type `Doc` with the single field `Text string`. -/
def docFields : FieldList := .cons "Text" true .string .nil

/-- The value `Doc{Text: text}`. -/
def Doc (text : List Byte) : Value := .struct "Doc" docFields [.string text]

/-- The registry after `init` and the registration of `Doc` under id 50. -/
def docRegistry : Registry := RegisterType initRegistry (Doc []) 50

/-- The fields of a layout with the fields of `A` in another order and one more field:
`Y int32`, `Z string`, `X int32`. -/
def layoutWide : FieldList :=
  .cons "Y" true (.int .int32) (.cons "Z" true .string (.cons "X" true (.int .int32) .nil))

/-- The registry after `init` and the registration of the wide layout under id 50. -/
def registryWide : Registry :=
  RegisterType initRegistry (zeroValue (.struct "B" layoutWide)) 50

/-- The fields of a record type with the single field `secret int32`, which is not
exported. -/
def hiddenFields : FieldList := .cons "secret" false (.int .int32) .nil

/-- The registry after `init` and the registration of that type under id 50. -/
def hiddenRegistry : Registry :=
  RegisterType initRegistry (.struct "P" hiddenFields [.int .int32 0]) 50

/-- The fields of a record type with `n` exported bool fields, named `F0`, `F1` and so
on, the highest number declared first. -/
def manyFields : Nat → FieldList
  | 0 => .nil
  | n + 1 => .cons ("F" ++ toString n) true .bool (manyFields n)

/-- The value of that record type in which every field is `true`. -/
def Many (n : Nat) : Value := .struct "Many" (manyFields n) (List.replicate n (.bool true))

/-- The registry after `init` and the registration of that record type under id 50. -/
def manyRegistry (n : Nat) : Registry := RegisterType initRegistry (Many n) 50

/-- An array of one element nested `n` levels deep around the int32 value 1; `n = 0` is
the integer itself. -/
def nestedArray : Nat → Value
  | 0 => .int .int32 1
  | n + 1 => .array (nestedArray n).typeOf [nestedArray n]

/-- The record under construction after the written fields of an encoded record have been
handed to `assignField` one after the other: a zero field is not written and so not
assigned, and a failing assignment ends the run. -/
def assignWritten (p : Platform) : Value → FieldList → List Value → Except Fault Value
  | created, .cons name _ _ rest, v :: vals =>
    if v.IsZero then assignWritten p created rest vals
    else
      match assignField p created name v with
      | .error e => .error e
      | .ok c => assignWritten p c rest vals
  | created, _, _ => .ok created

/-- The decoder's assignment of the value `v` to the field `name` of a record of the
struct type with the fields `fields` leaves `r` in the field: whatever the other fields
hold, as long as the field itself still holds the zero value of its type, `assignField`
succeeds and the record afterwards holds `r` there and is unchanged elsewhere. -/
def Lands (p : Platform) (fields : FieldList) (name : String) (v r : Value) : Prop :=
  ∃ i e ty, fields.find name = some (i, e, ty) ∧
    ∀ (sname : String) (cur : List Value), cur.length = fields.length →
      fieldValue name fields cur = some (zeroValue ty) →
      assignField p (.struct sname fields cur) name v =
        .ok (.struct sname fields (cur.set i r))

/-- Field by field, what the fields of a source record leave in the destination type
`target`: every source field is declared by the destination; a zero field, which is not
written, leaves the zero value of the destination field, and a written field leaves the
value `assignField` stores. -/
def LandsAll (p : Platform) (target : FieldList) :
    FieldList → List Value → List Value → Prop
  | .cons n _ _ rest, v :: vals, r :: rs =>
    (∃ e ty, target.Has n e ty ∧ (v.IsZero = true → r = zeroValue ty)) ∧
      (v.IsZero = false → Lands p target n v r) ∧ LandsAll p target rest vals rs
  | .nil, [], [] => True
  | _, _, _ => False

/-- The values of a record with the value of the field `name` replaced by `r`. -/
def withField (name : String) (r : Value) : FieldList → List Value → List Value
  | .cons n _ _ rest, v :: vals => (if n = name then r else v) :: withField name r rest vals
  | _, _ => []

/-- The fields of a layout that declares the field `X` of layout `A` as int64: `X int64`,
`Y int32`. -/
def layoutLong : FieldList :=
  .cons "X" true (.int .int64) (.cons "Y" true (.int .int32) .nil)

/-- The registry after `init` and the registration of that layout under id 50. -/
def registryLong : Registry :=
  RegisterType initRegistry (zeroValue (.struct "B" layoutLong)) 50


/-- The fields of a record type with the single field `Xs []int32`. -/
def seqFields32 : FieldList := .cons "Xs" true (.slice (.int .int32)) .nil

/-- The fields of a record type with the single field `Xs []int64`. -/
def seqFields64 : FieldList := .cons "Xs" true (.slice (.int .int64)) .nil

/-- The registry after `init` and the registration of the type with `Xs []int32` under
id 50. -/
def seqRegistry32 : Registry :=
  RegisterType initRegistry (zeroValue (.struct "S" seqFields32)) 50

/-- The registry after `init` and the registration of the type with `Xs []int64` under
id 50. -/
def seqRegistry64 : Registry :=
  RegisterType initRegistry (zeroValue (.struct "S" seqFields64)) 50


/-- The fields of a layout that declares the field `X` of layout `A` as bool: `X bool`,
`Y int32`. -/
def layoutFlag : FieldList := .cons "X" true .bool (.cons "Y" true (.int .int32) .nil)

/-- The registry after `init` and the registration of that layout under id 50. -/
def registryFlag : Registry :=
  RegisterType initRegistry (zeroValue (.struct "A" layoutFlag)) 50


/-- The fields of a record type `Box` with the single field `Item Foo`. -/
def boxFields : FieldList := .cons "Item" true (.struct "Foo" fooFields) .nil

/-- The registry after `init` and the registration of `Box`, but not of `Foo`, under
id 60. -/
def boxRegistry : Registry :=
  RegisterType initRegistry (zeroValue (.struct "Box" boxFields)) 60


/-- The registry after `init`, the registration of layout `A` under id 50 and then the
registration of layout `B` under the same id. -/
def registryAB : Registry :=
  RegisterType registryA (.struct "B" layoutB [.int .int32 0]) 50

/-- The fields of a record type whose two field names, `costarring` and `liquid`, have the
same FNV-1a hash; the names start with a small letter, so the fields are not exported. -/
def collidingFields : FieldList :=
  .cons "costarring" false (.int .int32) (.cons "liquid" false (.int .int32) .nil)

/-- The registry after `init` and the registration of that record type under id 50. -/
def collidingRegistry : Registry :=
  RegisterType initRegistry (zeroValue (.struct "C" collidingFields)) 50


/-- A text of 65536 bytes, all the letter `a`. -/
def longText : List Byte := leBytes 4 0x61616161 ++ List.replicate 65532 0x61

/-- The fields of a layout with a field in front of `X`: `W int32`, `X int32`. -/
def layoutWX : FieldList :=
  .cons "W" true (.int .int32) (.cons "X" true (.int .int32) .nil)

/-- The registry after `init` and the registration of that layout under id 50. -/
def registryWX : Registry := RegisterType initRegistry (zeroValue (.struct "A" layoutWX)) 50

/-- The fields of a layout with the single field `X int64`. -/
def layoutOnlyLong : FieldList := .cons "X" true (.int .int64) .nil

/-- The registry after `init` and the registration of that layout under id 50. -/
def registryOnlyLong : Registry :=
  RegisterType initRegistry (zeroValue (.struct "B" layoutOnlyLong)) 50

/-- The fields of a layout with a text in front of `X`: `S string`, `X int32`. -/
def layoutNote : FieldList := .cons "S" true .string (.cons "X" true (.int .int32) .nil)

/-- The registry after `init` and the registration of that layout under id 50. -/
def registryNote : Registry :=
  RegisterType initRegistry (zeroValue (.struct "A" layoutNote)) 50

/-- The fields of the same layout with `X` declared as int64: `S string`, `X int64`. -/
def layoutNoteLong : FieldList :=
  .cons "S" true .string (.cons "X" true (.int .int64) .nil)

/-- The registry after `init` and the registration of that layout under id 50. -/
def registryNoteLong : Registry :=
  RegisterType initRegistry (zeroValue (.struct "B" layoutNoteLong)) 50

/-- The fields of a layout with a field in front of the slice: `W int32`, `Xs []int32`. -/
def layoutWSeq : FieldList :=
  .cons "W" true (.int .int32) (.cons "Xs" true (.slice (.int .int32)) .nil)

/-- The registry after `init` and the registration of that layout under id 50. -/
def registryWSeq : Registry :=
  RegisterType initRegistry (zeroValue (.struct "S" layoutWSeq)) 50

/-- The fields of a layout that declares the field `X` of layout `A` as a string:
`X string`, `Y int32`. -/
def layoutText : FieldList := .cons "X" true .string (.cons "Y" true (.int .int32) .nil)

/-- The registry after `init` and the registration of that layout under id 50. -/
def registryText : Registry :=
  RegisterType initRegistry (zeroValue (.struct "A" layoutText)) 50

/-! ## Lemmas on numbers and the buffer -/

theorem leBytes_length (w v : Nat) : (leBytes w v).length = w := by
  induction w generalizing v with
  | zero => rfl
  | succ w ih => simp [leBytes, ih]

theorem leNat_leBytes (w v : Nat) : leNat (leBytes w v) = v % 256 ^ w := by
  induction w generalizing v with
  | zero => simp [leBytes, leNat, Nat.mod_one]
  | succ w ih =>
    simp only [leBytes, leNat, ih, Byte.ofNat]
    rw [pow_succ, Nat.mul_comm (256 ^ w) 256]
    exact (@Nat.mod_mul 256 (256 ^ w) v).symm

theorem leBytes_mod (w v : Nat) : leBytes w (v % 256 ^ w) = leBytes w v := by
  induction w generalizing v with
  | zero => rfl
  | succ w ih =>
    simp only [leBytes, Byte.ofNat]
    have h1 : v % 256 ^ (w + 1) % 256 = v % 256 := by
      rw [pow_succ]; exact Nat.mod_mul_left_mod v (256 ^ w) 256
    have h2 : v % 256 ^ (w + 1) / 256 = (v / 256) % 256 ^ w := by
      rw [pow_succ, Nat.mul_comm, Nat.mod_mul_right_div_self]
    rw [h2, ih]
    congr 1
    exact Fin.ext h1

theorem twosComplement_lt (w : Nat) (v : Int) : twosComplement w v < 2 ^ (8 * w) := by
  unfold twosComplement
  have hpos : (0 : Int) < (2 : Int) ^ (8 * w) := by positivity
  have h1 := Int.emod_lt_of_pos v hpos
  have h2 := Int.emod_nonneg v (ne_of_gt hpos)
  zify
  rw [Int.toNat_of_nonneg h2]
  exact_mod_cast h1

theorem twosComplement_signedOf (w u : Nat) (h : u < 2 ^ (8 * w)) :
    twosComplement w (signedOf w u) = u := by
  unfold twosComplement signedOf
  have hpos : (0 : Int) < (2 : Int) ^ (8 * w) := by positivity
  have hu : (u : Int) < (2 : Int) ^ (8 * w) := by exact_mod_cast h
  split
  · rw [Int.emod_eq_of_lt (by omega) hu]; simp
  · rw [Int.sub_emod, Int.emod_self, sub_zero, Int.emod_emod, Int.emod_eq_of_lt (by omega) hu]
    simp

theorem twosComplement_wrapSigned (w : Nat) (v : Int) :
    twosComplement w (wrapSigned w v) = twosComplement w v :=
  twosComplement_signedOf w _ (twosComplement_lt w v)

theorem Buffer.WriteBytes_atEnd (b : Buffer) (h : b.AtEnd) (data : List Byte) :
    b.WriteBytes data = b.push data := by
  unfold Buffer.AtEnd at h
  simp [Buffer.WriteBytes, Buffer.push, h]

theorem Buffer.push_atEnd (b : Buffer) (data : List Byte) : (b.push data).AtEnd := by
  simp [Buffer.AtEnd, Buffer.push]

theorem Buffer.push_push (b : Buffer) (x y : List Byte) :
    (b.push x).push y = b.push (x ++ y) := by
  simp [Buffer.push, Nat.add_assoc]

theorem Buffer.push_nil (b : Buffer) (h : b.AtEnd) : b.push [] = b := by
  unfold Buffer.AtEnd at h
  cases b
  simp_all [Buffer.push]

theorem Buffer.writeLE_atEnd (b : Buffer) (h : b.AtEnd) (w v : Nat) :
    b.writeLE w v = b.push (leBytes w v) :=
  Buffer.WriteBytes_atEnd b h _

theorem writeTypeIdFixed_eq (reg : Registry) (b : Buffer) (t : GoType) :
    writeTypeIdFixed reg b t = b.writeLE 2 (typeTag reg t) := by
  cases t with
  | int k => cases k <;> rfl
  | uint k => cases k <;> rfl
  | _ => rfl

theorem writeHeader_eq (reg : Registry) (b : Buffer) (h : b.AtEnd) (header : Bool)
    (t : GoType) :
    (if header then writeTypeIdFixed reg b t else b) = b.push (headerBytes reg header t) := by
  cases header
  · simp [headerBytes, Buffer.push_nil b h]
  · simp [headerBytes, writeTypeIdFixed_eq, Buffer.writeLE_atEnd b h]

theorem writeTypeIds_eq (reg : Registry) (ts : List GoType) (b : Buffer) (h : b.AtEnd) :
    writeTypeIds reg b ts = b.push (tagListBytes reg ts) := by
  induction ts generalizing b with
  | nil => simp [writeTypeIds, tagListBytes, Buffer.push_nil b h]
  | cons t rest ih =>
    simp only [writeTypeIds, tagListBytes, writeTypeIdFixed_eq, Buffer.writeLE_atEnd b h]
    rw [ih _ (Buffer.push_atEnd _ _), Buffer.push_push]

theorem leBytes_two_mod (n : Nat) : leBytes 2 (n % 65536) = leBytes 2 n :=
  leBytes_mod 2 n

theorem leBytes_one_mod (n : Nat) : leBytes 1 (n % 256) = leBytes 1 n :=
  leBytes_mod 1 n

theorem encodeLength_eq (reg : Registry) (b : Buffer) (h : b.AtEnd) (elem : GoType)
    (length : Nat) (header : Bool) :
    encodeLength reg b elem length header = b.push (lengthBytes reg elem length header) := by
  cases header
  · simp [encodeLength, lengthBytes, Buffer.WriteUint16, Buffer.writeLE_atEnd b h,
      leBytes_two_mod]
  · simp only [encodeLength, lengthBytes, Buffer.WriteUint16, Buffer.writeLE_atEnd b h,
      leBytes_two_mod, if_true]
    rw [Buffer.writeLE_atEnd _ (Buffer.push_atEnd _ _), leBytes_two_mod,
      writeTypeIds_eq _ _ _ (Buffer.push_atEnd _ _), Buffer.push_push, Buffer.push_push]

theorem intKind_size_cases (p : Platform) (k : IntKind) :
    k.size p = 1 ∨ k.size p = 2 ∨ k.size p = 4 ∨ k.size p = 8 := by
  cases k <;> cases p <;> simp [IntKind.size, Platform.intSize]

theorem uintKind_size_cases (p : Platform) (k : UintKind) :
    k.size p = 1 ∨ k.size p = 2 ∨ k.size p = 4 ∨ k.size p = 8 := by
  cases k <;> cases p <;> simp [UintKind.size, Platform.intSize]

theorem encodeInt_eq (p : Platform) (b : Buffer) (h : b.AtEnd) (k : IntKind) (v : Int) :
    encodeInt p b k v = b.push (intBytes p k v) := by
  have hb : (if k = .int then b.WriteUint8 (k.size p % 256) else b)
      = b.push (if k = .int then leBytes 1 (k.size p) else []) := by
    split
    · simp [Buffer.WriteUint8, Buffer.writeLE_atEnd b h, leBytes_one_mod]
    · exact (Buffer.push_nil b h).symm
  unfold encodeInt intBytes
  simp only [hb]
  have he := Buffer.push_atEnd b (if k = .int then leBytes 1 (k.size p) else [])
  generalize (if k = IntKind.int then leBytes 1 (k.size p) else []) = pre at he
  rcases intKind_size_cases p k with h1 | h1 | h1 | h1 <;>
    simp [h1, Buffer.WriteInt8, Buffer.WriteInt16, Buffer.WriteInt32, Buffer.WriteInt64,
      Buffer.writeLE_atEnd _ he, twosComplement_wrapSigned, Buffer.push_push]

theorem twosComplement_natCast (w v : Nat) : twosComplement w (v : Int) = v % 2 ^ (8 * w) := by
  unfold twosComplement
  have h1 : ((v : Int) % (2 : Int) ^ (8 * w)) = ((v % 2 ^ (8 * w) : Nat) : Int) := by
    push_cast; rfl
  rw [h1]
  exact Int.toNat_natCast _

theorem leBytes_twosComplement_natCast (w v : Nat) :
    leBytes w (twosComplement w (v : Int)) = leBytes w v := by
  rw [twosComplement_natCast, pow_mul]
  exact leBytes_mod w v

theorem encodeUint_eq (p : Platform) (b : Buffer) (h : b.AtEnd) (k : UintKind) (v : Nat) :
    encodeUint p b k v = b.push (uintBytes p k v) := by
  have hb : (if k = .uint then b.WriteUint8 (k.size p % 256) else b)
      = b.push (if k = .uint then leBytes 1 (k.size p) else []) := by
    split
    · simp [Buffer.WriteUint8, Buffer.writeLE_atEnd b h, leBytes_one_mod]
    · exact (Buffer.push_nil b h).symm
  unfold encodeUint uintBytes
  simp only [hb]
  have he := Buffer.push_atEnd b (if k = .uint then leBytes 1 (k.size p) else [])
  generalize (if k = UintKind.uint then leBytes 1 (k.size p) else []) = pre at he
  rcases uintKind_size_cases p k with h1 | h1 | h1 | h1 <;>
    simp [h1, Buffer.WriteUint8, Buffer.WriteUint16, Buffer.WriteUint32, Buffer.WriteUint64,
      Buffer.writeLE_atEnd _ he, wrapUnsigned, leBytes_twosComplement_natCast,
      Buffer.push_push]

theorem Buffer.backpatch (b : Buffer) (h : b.AtEnd) (bs : List Byte) (n : Nat) :
    (((((b.WriteUint16 0).push bs).SetPointer b.Pointer).WriteUint16 n).SetPointer
      ((b.WriteUint16 0).push bs).Pointer) = b.push (leBytes 2 n ++ bs) := by
  unfold Buffer.AtEnd at h
  simp [Buffer.WriteUint16, Buffer.writeLE, Buffer.WriteBytes, Buffer.push, Buffer.SetPointer,
    Buffer.Pointer, h, leBytes_length, List.take_append_eq_append_take,
    List.drop_append_eq_append_drop]
  have hd : List.drop (b.bytes.length + 2) b.bytes = [] :=
    List.drop_eq_nil_of_le (by omega)
  rw [hd]
  constructor
  · rfl
  · omega

mutual
theorem encodeValue_eq (p : Platform) (reg : Registry) :
    ∀ (v : Value) (d header : Bool) (buf : Buffer), buf.AtEnd →
      encodeValue p reg d buf v header =
        match encBytes p reg d v header with
        | .error e => .error e
        | .ok out => .ok (buf.push out)
  | .bool b, d, header, buf, h => by
    cases d <;>
      simp [encodeValue, encBytes, writeHeader_eq reg buf h, Buffer.WriteBool,
        Buffer.writeLE_atEnd _ (Buffer.push_atEnd _ _), Buffer.push_push]
  | .int k v, d, header, buf, h => by
    cases d <;>
      simp [encodeValue, encBytes, writeHeader_eq reg buf h,
        encodeInt_eq p _ (Buffer.push_atEnd _ _), Buffer.push_push]
  | .uint k v, d, header, buf, h => by
    cases d <;>
      simp [encodeValue, encBytes, writeHeader_eq reg buf h,
        encodeUint_eq p _ (Buffer.push_atEnd _ _), Buffer.push_push]
  | .string s, d, header, buf, h => by
    cases d <;>
      simp [encodeValue, encBytes, writeHeader_eq reg buf h, Buffer.WriteUint16,
        Buffer.writeLE_atEnd _ (Buffer.push_atEnd _ _), leBytes_two_mod,
        Buffer.WriteBytes_atEnd _ (Buffer.push_atEnd _ _), Buffer.push_push]
  | .array elem items, d, header, buf, h => by
    have ih := encodeItems_eq p reg items
    cases d <;>
    · simp only [encodeValue, encBytes, writeHeader_eq reg buf h,
        encodeLength_eq reg _ (Buffer.push_atEnd _ _), Buffer.push_push]
      rw [ih _ (Buffer.push_atEnd _ _)]
      cases encItems p reg items <;> simp [Buffer.push_push]
  | .slice elem items, d, header, buf, h => by
    have ih := encodeItems_eq p reg items
    cases d <;>
    · simp only [encodeValue, encBytes, writeHeader_eq reg buf h,
        encodeLength_eq reg _ (Buffer.push_atEnd _ _), Buffer.push_push]
      rw [ih _ (Buffer.push_atEnd _ _)]
      cases encItems p reg items <;> simp [Buffer.push_push]
  | .nilSlice elem, d, header, buf, h => by
    cases d <;>
      simp [encodeValue, encBytes, writeHeader_eq reg buf h,
        encodeLength_eq reg _ (Buffer.push_atEnd _ _), Buffer.push_push]
  | .map key elem entries, d, header, buf, h => by
    cases d <;> simp [encodeValue, encBytes, writeHeader_eq reg buf h]
  | .nilMap key elem, d, header, buf, h => by
    cases d <;> simp [encodeValue, encBytes, writeHeader_eq reg buf h]
  | .ptr elem target, true, header, buf, h => by
    simp [encodeValue, encBytes, writeHeader_eq reg buf h]
  | .ptr elem target, false, header, buf, h => by
    simp only [encodeValue, encBytes]
    exact encodeValue_eq p reg target true header buf h
  | .nilPtr elem, true, header, buf, h => by
    simp [encodeValue, encBytes, writeHeader_eq reg buf h]
  | .nilPtr elem, false, header, buf, h => by
    simp [encodeValue, encBytes]
  | .struct name fields vals, d, header, buf, h => by
    have ih := encodeFields_eq p reg vals fields
    cases d <;>
    · simp only [encodeValue, encBytes, writeHeader_eq reg buf h]
      have he := Buffer.push_atEnd buf (headerBytes reg header (GoType.struct name fields))
      generalize hb1 : buf.push (headerBytes reg header (GoType.struct name fields)) = b1
        at he ⊢
      have hw : b1.WriteUint16 0 = b1.push (leBytes 2 0) := Buffer.writeLE_atEnd b1 he 2 0
      rw [ih (b1.WriteUint16 0) 0 (hw ▸ Buffer.push_atEnd _ _)]
      cases encFields p reg fields vals with
      | error e => simp
      | ok r =>
        obtain ⟨bs, k⟩ := r
        simp only [Nat.zero_add]
        rw [Buffer.backpatch b1 he bs (k % 65536), leBytes_two_mod, ← hb1, Buffer.push_push]
theorem encodeItems_eq (p : Platform) (reg : Registry) :
    ∀ (items : List Value) (buf : Buffer), buf.AtEnd →
      encodeItems p reg buf items =
        match encItems p reg items with
        | .error e => .error e
        | .ok out => .ok (buf.push out)
  | [], buf, h => by simp [encodeItems, encItems, Buffer.push_nil buf h]
  | item :: rest, buf, h => by
    have ih1 := encodeValue_eq p reg item false false buf h
    have ih2 := encodeItems_eq p reg rest
    simp only [encodeItems, encItems, ih1]
    cases encBytes p reg false item false with
    | error e => simp
    | ok b =>
      simp only []
      rw [ih2 _ (Buffer.push_atEnd _ _)]
      cases encItems p reg rest <;> simp [Buffer.push_push]
theorem encodeFields_eq (p : Platform) (reg : Registry) :
    ∀ (vals : List Value) (fields : FieldList) (buf : Buffer) (n : Nat), buf.AtEnd →
      encodeFields p reg buf n fields vals =
        match encFields p reg fields vals with
        | .error e => .error e
        | .ok (out, k) => .ok (buf.push out, n + k)
  | [], fields, buf, n, h => by
    cases fields <;> simp [encodeFields, encFields, Buffer.push_nil buf h]
  | v :: vals, .nil, buf, n, h => by
    simp [encodeFields, encFields, Buffer.push_nil buf h]
  | v :: vals, .cons name exported type rest, buf, n, h => by
    have ih1 := encodeValue_eq p reg v false true
    have ih2 := encodeFields_eq p reg vals rest
    simp only [encodeFields, encFields]
    split
    · exact ih2 buf n h
    · split
      · exact ih2 buf n h
      · have hw : buf.WriteUint32 (nameHash name) = buf.push (leBytes 4 (nameHash name)) :=
          Buffer.writeLE_atEnd buf h 4 _
        rw [hw, ih1 _ (Buffer.push_atEnd _ _)]
        cases encBytes p reg false v true with
        | error e => simp
        | ok b =>
          simp only []
          rw [ih2 _ _ (Buffer.push_atEnd _ _)]
          cases encFields p reg rest vals with
          | error e => simp
          | ok r =>
            obtain ⟨bs, k⟩ := r
            simp only [Buffer.push_push, List.append_assoc, Except.ok.injEq, Prod.mk.injEq,
              true_and]
            omega
end

theorem Encode_eq (p : Platform) (reg : Registry) (v : Value) :
    Encode p reg v = encBytes p reg false v true := by
  have h := encodeValue_eq p reg v false true (BufferFromBytes []) rfl
  unfold Encode encodeInternal
  rw [h]
  cases encBytes p reg false v true <;> simp [Buffer.push, Buffer.Bytes, BufferFromBytes]

theorem encodeInternal_eq (p : Platform) (reg : Registry) (v : Value) (header : Bool) :
    encodeInternal p reg (BufferFromBytes []) v header =
      match encBytes p reg false v header with
      | .error e => .error e
      | .ok out => .ok ⟨out, out.length⟩ := by
  have h := encodeValue_eq p reg v false header (BufferFromBytes []) rfl
  unfold encodeInternal
  rw [h]
  cases encBytes p reg false v header <;> simp [Buffer.push, BufferFromBytes]

theorem Buffer.At.start (data : List Byte) : (BufferFromBytes data).At data := by
  simp [Buffer.At, BufferFromBytes]

theorem Buffer.At.length_eq {b : Buffer} {rest : List Byte} (h : b.At rest) :
    b.pointer + rest.length = b.bytes.length := by
  obtain ⟨h1, h2⟩ := h
  rw [← h2, List.length_drop]
  omega

theorem Buffer.At.ReadBytes {b : Buffer} {data rest : List Byte} (h : b.At (data ++ rest)) :
    b.ReadBytes data.length = some (data, b.skip data.length) := by
  have hl := h.length_eq
  obtain ⟨h1, h2⟩ := h
  simp only [List.length_append] at hl
  unfold Buffer.ReadBytes
  rw [if_pos (by omega), h2]
  simp [Buffer.skip]

theorem Buffer.At.skip {b : Buffer} {data rest : List Byte} (h : b.At (data ++ rest)) :
    (b.skip data.length).At rest := by
  have hl := h.length_eq
  obtain ⟨h1, h2⟩ := h
  simp only [List.length_append] at hl
  refine ⟨by simp only [Buffer.skip]; omega, ?_⟩
  simp only [Buffer.skip]
  rw [← List.drop_drop, h2]
  simp

theorem Buffer.At.leftToRead {b : Buffer} {x : Byte} {rest : List Byte}
    (h : b.At (x :: rest)) : b.LeftToRead ≠ 0 := by
  have hl := h.length_eq
  simp only [List.length_cons] at hl
  unfold Buffer.LeftToRead
  omega

theorem Buffer.skip_skip (b : Buffer) (m n : Nat) : (b.skip m).skip n = b.skip (m + n) := by
  simp [Buffer.skip, Nat.add_assoc]

theorem Buffer.At.readLE {b : Buffer} {rest : List Byte} (w v : Nat)
    (h : b.At (leBytes w v ++ rest)) : b.readLE w = some (v % 256 ^ w, b.skip w) := by
  have hr := h.ReadBytes
  rw [leBytes_length] at hr
  simp [Buffer.readLE, hr, leNat_leBytes]

theorem Buffer.At.skipLE {b : Buffer} {rest : List Byte} (w v : Nat)
    (h : b.At (leBytes w v ++ rest)) : (b.skip w).At rest := by
  have hs := h.skip
  rwa [leBytes_length] at hs

theorem signedOf_twosComplement (w : Nat) (v : Int) (hw : 0 < w)
    (h1 : -(2 : Int) ^ (8 * w - 1) ≤ v) (h2 : v < (2 : Int) ^ (8 * w - 1)) :
    signedOf w (twosComplement w v) = v := by
  have hpi : (2 : Int) ^ (8 * w) = 2 * (2 : Int) ^ (8 * w - 1) := by
    rw [← pow_succ']; congr 1; omega
  have hMi : (((2 : Nat) ^ (8 * w - 1) : Nat) : Int) = (2 : Int) ^ (8 * w - 1) := by
    push_cast; rfl
  unfold signedOf twosComplement
  rw [hpi]
  rw [← hMi] at h1 h2 ⊢
  generalize (2 : Nat) ^ (8 * w - 1) = M at *
  have hmod : v % (2 * (M : Int)) = if 0 ≤ v then v else v + 2 * M := by
    split
    · exact Int.emod_eq_of_lt (by assumption) (by omega)
    · have h3 : (v + 2 * M) % (2 * (M : Int)) = v + 2 * M :=
        Int.emod_eq_of_lt (by omega) (by omega)
      rw [← h3]; simp
  rw [hmod]
  split <;> split <;> omega

theorem pow_256 (w : Nat) : (256 : Nat) ^ w = 2 ^ (8 * w) := by
  rw [pow_mul]; rfl

theorem decodeInternal_header (p : Platform) (reg : Registry) (fuel : Nat) (b : Buffer)
    (tids : List TypeId) (tag : Nat) (rest : List Byte) (hlt : tag < 65536)
    (hb : b.At (leBytes 2 tag ++ rest)) :
    decodeInternal p reg (fuel + 1) b tids TypeIdUnknown =
      decodeSwitch p reg (decodeInternal p reg fuel) (b.skip 2) tids tag := by
  have hl : b.LeftToRead ≠ 0 := by
    have : leBytes 2 tag ++ rest = Byte.ofNat tag :: (leBytes 1 (tag / 256) ++ rest) := rfl
    exact (this ▸ hb).leftToRead
  have hr := hb.readLE 2 tag
  rw [Nat.mod_eq_of_lt (by simpa using hlt)] at hr
  simp [decodeInternal, hl, Buffer.ReadUint16, hr]

theorem decodeInternal_tagged (p : Platform) (reg : Registry) (fuel : Nat) (b : Buffer)
    (tids : List TypeId) (tag : Nat) (x : Byte) (rest : List Byte) (htag : tag ≠ 0)
    (hb : b.At (x :: rest)) :
    decodeInternal p reg (fuel + 1) b tids tag =
      decodeSwitch p reg (decodeInternal p reg fuel) b tids tag := by
  simp [decodeInternal, hb.leftToRead, TypeIdUnknown, htag]

theorem decodeSwitch_record (p : Platform) (reg : Registry)
    (recur : Buffer → List TypeId → TypeId → Decoded) (buf : Buffer) (tids : List TypeId)
    (typeId : Nat) (h : 18 ≤ typeId) :
    decodeSwitch p reg recur buf tids typeId =
      match reg.typeIdToTypeMapping typeId with
      | none => .ok (none, buf)
      | some typeOf =>
        match buf.ReadUint16 with
        | none => .error .pastEnd
        | some (numberOfFields, buf) =>
          match decodeFields p reg (fun buf => recur buf [] TypeIdUnknown) typeId
            numberOfFields buf (zeroValue typeOf) with
          | .error e => .error e
          | .ok (created, buf) => .ok (some created, buf) := by
  unfold decodeSwitch
  simp only [TypeIdBool, TypeIdInt, TypeIdInt8, TypeIdInt16, TypeIdInt32, TypeIdInt64,
    TypeIdUint, TypeIdUint8, TypeIdUint16, TypeIdUint32, TypeIdUint64, TypeIdFloat32,
    TypeIdFloat64, TypeIdString, TypeIdArray, TypeIdSlice, TypeIdMap]
  rw [if_neg (show ¬ typeId = 1 by omega), if_neg (show ¬ typeId = 2 by omega),
    if_neg (show ¬ typeId = 3 by omega), if_neg (show ¬ typeId = 4 by omega),
    if_neg (show ¬ typeId = 5 by omega), if_neg (show ¬ typeId = 6 by omega),
    if_neg (show ¬ typeId = 7 by omega), if_neg (show ¬ typeId = 8 by omega),
    if_neg (show ¬ typeId = 9 by omega), if_neg (show ¬ typeId = 10 by omega),
    if_neg (show ¬ typeId = 11 by omega),
    if_neg (show ¬ (typeId = 12 ∨ typeId = 13) by omega),
    if_neg (show ¬ typeId = 17 by omega),
    if_neg (show ¬ (typeId = 14 ∨ typeId = 16) by omega),
    if_neg (show ¬ typeId = 15 by omega)]

theorem decodeSwitch_container (p : Platform) (reg : Registry)
    (recur : Buffer → List TypeId → TypeId → Decoded) (buf : Buffer) (tids : List TypeId)
    (typeId : TypeId) (h : typeId = TypeIdArray ∨ typeId = TypeIdSlice) :
    decodeSwitch p reg recur buf tids typeId =
      match buf.ReadUint16 with
      | none => .error .pastEnd
      | some (length, buf) =>
        match (if tids.length = 0 then
            match buf.ReadUint16 with
            | none => .error .pastEnd
            | some (typesLength, buf) => readTypeIds typesLength buf tids
          else .ok (tids, buf) : Except Fault (List TypeId × Buffer)) with
        | .error e => .error e
        | .ok (typeIds, buf) =>
          match decodeItems recur typeIds length buf with
          | .error e => .error e
          | .ok (items, buf) =>
            match makeContainer typeId items with
            | .error e => .error e
            | .ok created => .ok (created, buf) := by
  unfold decodeSwitch
  rcases h with h | h <;> subst h <;> rfl

theorem signedOf_leNat_int (p : Platform) (k : IntKind) (v : Int) (h : k.InRange p v) :
    signedOf (k.size p) (twosComplement (k.size p) v % 256 ^ (k.size p)) = v := by
  have hw : 0 < k.size p := by
    rcases intKind_size_cases p k with h1 | h1 | h1 | h1 <;> omega
  rw [Nat.mod_eq_of_lt (by rw [pow_256]; exact twosComplement_lt _ _)]
  exact signedOf_twosComplement _ _ hw h.1 h.2

theorem wrapSigned_of_inRange (w : Nat) (v : Int) (hw : 0 < w)
    (h1 : -(2 : Int) ^ (8 * w - 1) ≤ v) (h2 : v < (2 : Int) ^ (8 * w - 1)) :
    wrapSigned w v = v :=
  signedOf_twosComplement w v hw h1 h2

theorem wrapUnsigned_of_lt (w v : Nat) (h : v < 2 ^ (8 * w)) :
    wrapUnsigned w (v : Int) = v := by
  unfold wrapUnsigned
  rw [twosComplement_natCast, Nat.mod_eq_of_lt h]

theorem Buffer.At.readSigned {b : Buffer} {rest : List Byte} (w : Nat) (v : Int)
    (hw : 0 < w) (h1 : -(2 : Int) ^ (8 * w - 1) ≤ v) (h2 : v < (2 : Int) ^ (8 * w - 1))
    (h : b.At (leBytes w (twosComplement w v) ++ rest)) :
    b.readSigned w = some (v, b.skip w) := by
  have hr := h.readLE w _
  rw [Nat.mod_eq_of_lt (by rw [pow_256]; exact twosComplement_lt _ _)] at hr
  simp [Buffer.readSigned, hr, signedOf_twosComplement w v hw h1 h2]

theorem Buffer.At.readUnsigned {b : Buffer} {rest : List Byte} (w v : Nat)
    (hv : v < 2 ^ (8 * w)) (h : b.At (leBytes w v ++ rest)) :
    b.readLE w = some (v, b.skip w) := by
  have hr := h.readLE w _
  rwa [Nat.mod_eq_of_lt (by rw [pow_256]; exact hv)] at hr

/-- A simple value written without a header is read back by the switch. -/
theorem decodeSwitch_simple (p : Platform) (reg : Registry)
    (recur : Buffer → List TypeId → TypeId → Decoded) (v : Value) (hv : v.IsSimple p)
    (enc rest : List Byte) (henc : encBytes p reg false v false = .ok enc) (b : Buffer)
    (tids : List TypeId) (hb : b.At (enc ++ rest)) :
    decodeSwitch p reg recur b tids (typeTag reg v.typeOf) =
      .ok (some v, b.skip enc.length) := by
  cases v with
  | bool x =>
    simp only [encBytes, headerBytes, Bool.false_eq_true, if_false, List.nil_append,
      Except.ok.injEq] at henc
    subst henc
    have hr := hb.readLE 1 (if x then 1 else 0)
    cases x <;>
      simp [decodeSwitch, Value.typeOf, typeTag, TypeIdBool, Buffer.ReadBool, hr, leBytes_length]
  | int k x =>
    simp only [encBytes, headerBytes, Bool.false_eq_true, if_false, List.nil_append,
      Except.ok.injEq] at henc
    subst henc
    have hx : k.InRange p x := hv
    unfold IntKind.InRange at hx
    cases k
    case int =>
      simp only [intBytes, if_true, List.append_assoc] at hb
      have h1 := hb.readLE 1 (IntKind.size p .int)
      have hb2 := hb.skipLE 1 _
      have h2 := hb2.readSigned _ x (by cases p <;> decide) hx.1 hx.2
      have hw := wrapSigned_of_inRange _ x (by cases p <;> decide) hx.1 hx.2
      cases p <;>
        simp_all [decodeSwitch, Value.typeOf, typeTag, TypeIdBool, TypeIdInt, decodeInt,
          Buffer.ReadUint8, IntKind.size, Platform.intSize, intBytes, leBytes_length,
          Buffer.skip_skip]
    all_goals
      simp only [intBytes, if_false, List.nil_append, reduceCtorEq] at hb
      have h2 := hb.readSigned _ x (by simp [IntKind.size]) hx.1 hx.2
      simp_all [decodeSwitch, Value.typeOf, typeTag, TypeIdBool, TypeIdInt, TypeIdInt8,
        TypeIdInt16, TypeIdInt32, TypeIdInt64, decodeSigned, IntKind.size, intBytes,
        leBytes_length]
  | uint k x =>
    simp only [encBytes, headerBytes, Bool.false_eq_true, if_false, List.nil_append,
      Except.ok.injEq] at henc
    subst henc
    have hx : k.InRange p x := hv
    unfold UintKind.InRange at hx
    cases k
    case uint =>
      simp only [uintBytes, if_true, List.append_assoc] at hb
      have h1 := hb.readLE 1 (UintKind.size p .uint)
      have hb2 := hb.skipLE 1 _
      have h2 := hb2.readUnsigned _ x hx
      have hw := wrapUnsigned_of_lt _ x hx
      cases p <;>
        simp_all [decodeSwitch, Value.typeOf, typeTag, TypeIdBool, TypeIdInt, TypeIdInt8,
          TypeIdInt16, TypeIdInt32, TypeIdInt64, TypeIdUint, decodeUint,
          Buffer.ReadUint8, UintKind.size, Platform.intSize, uintBytes, leBytes_length,
          Buffer.skip_skip]
    all_goals
      simp only [uintBytes, if_false, List.nil_append, reduceCtorEq] at hb
      have h2 := hb.readUnsigned _ x hx
      simp_all [decodeSwitch, Value.typeOf, typeTag, TypeIdBool, TypeIdInt, TypeIdInt8,
        TypeIdInt16, TypeIdInt32, TypeIdInt64, TypeIdUint, TypeIdUint8, TypeIdUint16,
        TypeIdUint32, TypeIdUint64, decodeUnsigned, UintKind.size, uintBytes, leBytes_length]
  | string s =>
    simp only [encBytes, headerBytes, Bool.false_eq_true, if_false, List.nil_append,
      Except.ok.injEq] at henc
    subst henc
    have hs : s.length ≤ 65535 := hv
    rw [List.append_assoc] at hb
    have h1 := hb.readUnsigned 2 s.length (by omega)
    have hb2 := hb.skipLE 2 _
    have h2 := hb2.ReadBytes
    simp [decodeSwitch, Value.typeOf, typeTag, TypeIdBool, TypeIdInt, TypeIdInt8,
      TypeIdInt16, TypeIdInt32, TypeIdInt64, TypeIdUint, TypeIdUint8, TypeIdUint16,
      TypeIdUint32, TypeIdUint64, TypeIdFloat32, TypeIdFloat64, TypeIdString,
      Buffer.ReadUint16, h1, h2, leBytes_length, Buffer.skip_skip]
  | _ => exact absurd hv (by simp [Value.IsSimple, Value.IsScalar])


theorem typeTag_simple (p : Platform) (reg : Registry) (v : Value) (hv : v.IsSimple p) :
    typeTag reg v.typeOf ≠ 0 ∧ typeTag reg v.typeOf < 18 := by
  cases v with
  | bool x => simp [Value.typeOf, typeTag, TypeIdBool]
  | int k x => cases k <;> simp [Value.typeOf, typeTag, TypeIdInt, TypeIdInt8, TypeIdInt16,
      TypeIdInt32, TypeIdInt64]
  | uint k x => cases k <;> simp [Value.typeOf, typeTag, TypeIdUint, TypeIdUint8,
      TypeIdUint16, TypeIdUint32, TypeIdUint64]
  | string s => simp [Value.typeOf, typeTag, TypeIdString]
  | _ => exact absurd hv (by simp [Value.IsSimple, Value.IsScalar])

/-- The encoding of a simple value never fails; with a header it is the tag followed by
the encoding without a header, which is not empty. -/
theorem encBytes_simple (p : Platform) (reg : Registry) (v : Value) (hv : v.IsSimple p) :
    ∃ enc, encBytes p reg false v false = .ok enc ∧ enc ≠ [] ∧
      encBytes p reg false v true = .ok (leBytes 2 (typeTag reg v.typeOf) ++ enc) := by
  cases v with
  | bool x =>
    exact ⟨leBytes 1 (if x then 1 else 0), by simp [encBytes, headerBytes],
      by simp [leBytes], by simp [encBytes, headerBytes, Value.typeOf]⟩
  | int k x =>
    refine ⟨intBytes p k x, by simp [encBytes, headerBytes], ?_,
      by simp [encBytes, headerBytes, Value.typeOf]⟩
    intro h
    have hl := congrArg List.length h
    simp only [intBytes, List.length_append, leBytes_length, List.length_nil] at hl
    rcases intKind_size_cases p k with h1 | h1 | h1 | h1 <;> omega
  | uint k x =>
    refine ⟨uintBytes p k x, by simp [encBytes, headerBytes], ?_,
      by simp [encBytes, headerBytes, Value.typeOf]⟩
    intro h
    have hl := congrArg List.length h
    simp only [uintBytes, List.length_append, leBytes_length, List.length_nil] at hl
    rcases uintKind_size_cases p k with h1 | h1 | h1 | h1 <;> omega
  | string s =>
    exact ⟨leBytes 2 s.length ++ s, by simp [encBytes, headerBytes], by simp [leBytes],
      by simp [encBytes, headerBytes, Value.typeOf]⟩
  | _ => exact absurd hv (by simp [Value.IsSimple, Value.IsScalar])

/-- A simple value written with a header is read back by `decodeInternal` entered without
a type id, whatever follows it in the buffer. -/
theorem decodeInternal_simple (p : Platform) (reg : Registry) (v : Value)
    (hv : v.IsSimple p) (enc rest : List Byte)
    (henc : encBytes p reg false v true = .ok enc) (fuel : Nat) (b : Buffer)
    (tids : List TypeId) (hb : b.At (enc ++ rest)) :
    decodeInternal p reg (fuel + 1) b tids TypeIdUnknown =
      .ok (some v, b.skip enc.length) := by
  obtain ⟨e0, h0, _, h1⟩ := encBytes_simple p reg v hv
  rw [h1] at henc
  simp only [Except.ok.injEq] at henc
  subst henc
  have ht := typeTag_simple p reg v hv
  rw [List.append_assoc] at hb
  rw [decodeInternal_header p reg fuel b tids _ _ (by omega) hb,
    decodeSwitch_simple p reg _ v hv e0 rest h0 _ tids (hb.skipLE 2 _)]
  simp [Buffer.skip_skip, leBytes_length]

/-- A simple value written without a header is read back by `decodeInternal` entered with
the tag of its type. -/
theorem decodeInternal_simple_bare (p : Platform) (reg : Registry) (v : Value)
    (hv : v.IsSimple p) (enc rest : List Byte)
    (henc : encBytes p reg false v false = .ok enc) (fuel : Nat) (b : Buffer)
    (tids : List TypeId) (hb : b.At (enc ++ rest)) :
    decodeInternal p reg (fuel + 1) b tids (typeTag reg v.typeOf) =
      .ok (some v, b.skip enc.length) := by
  obtain ⟨e0, h0, hne, _⟩ := encBytes_simple p reg v hv
  rw [h0] at henc
  simp only [Except.ok.injEq] at henc
  subst henc
  have ht := typeTag_simple p reg v hv
  cases e0 with
  | nil => exact absurd rfl hne
  | cons x xs =>
    rw [decodeInternal_tagged p reg fuel b tids _ x (xs ++ rest) ht.1 hb,
      decodeSwitch_simple p reg _ v hv _ rest h0 _ tids hb]

/-- The round trip of a simple value through `Encode` and `Decode`. -/
theorem Decode_Encode_simple (p : Platform) (reg : Registry) (v : Value)
    (hv : v.IsSimple p) :
    ∃ bytes, Encode p reg v = .ok bytes ∧ Decode p reg bytes = .ok (some v) := by
  obtain ⟨e0, _, _, h1⟩ := encBytes_simple p reg v hv
  refine ⟨_, by rw [Encode_eq, h1], ?_⟩
  have hb := Buffer.At.start (leBytes 2 (typeTag reg v.typeOf) ++ e0)
  rw [← List.append_nil (leBytes 2 (typeTag reg v.typeOf) ++ e0)] at hb
  unfold Decode
  rw [decodeInternal_simple p reg v hv _ [] h1 _ _ [] (by simpa using hb)]

theorem Value.IsScalar.isSimple {p : Platform} {v : Value} (h : v.IsScalar p) :
    v.IsSimple p := by
  cases v <;> first | exact h | exact absurd h (by simp [Value.IsScalar])


theorem tagBytes_eq (reg : Registry) (t : GoType) : tagBytes reg t = leBytes 2 (typeTag reg t) := by
  unfold tagBytes
  rw [writeTypeIdFixed_eq, Buffer.writeLE_atEnd _ (show (BufferFromBytes []).AtEnd from rfl)]
  simp [Buffer.push, Buffer.Bytes, BufferFromBytes]

theorem tagListBytes_eq (reg : Registry) (ts : List GoType) :
    tagListBytes reg ts = (ts.map (tagBytes reg)).flatten := by
  induction ts with
  | nil => rfl
  | cons t rest ih => simp [tagListBytes, ih, tagBytes_eq]

mutual
theorem encBytes_headerless (p : Platform) (reg : Registry) :
    ∀ v : Value, encBytes p reg false v false = headerless p reg v
  | .array elem items => by
    simp only [encBytes, headerless, encItems_headerless p reg items]
    cases headerlessAll p reg items <;> simp [headerBytes, lengthBytes]
  | .slice elem items => by
    simp only [encBytes, headerless, encItems_headerless p reg items]
    cases headerlessAll p reg items <;> simp [headerBytes, lengthBytes]
  | .nilSlice elem => by simp [encBytes, headerless, headerBytes, lengthBytes]
  | .bool b => by
    simp only [headerless, encodeInternal_eq]
    cases encBytes p reg false (.bool b) false <;> simp [Buffer.Bytes]
  | .int k x => by
    simp only [headerless, encodeInternal_eq]
    cases encBytes p reg false (.int k x) false <;> simp [Buffer.Bytes]
  | .uint k x => by
    simp only [headerless, encodeInternal_eq]
    cases encBytes p reg false (.uint k x) false <;> simp [Buffer.Bytes]
  | .string s => by
    simp only [headerless, encodeInternal_eq]
    cases encBytes p reg false (.string s) false <;> simp [Buffer.Bytes]
  | .map k e es => by
    simp only [headerless, encodeInternal_eq]
    cases encBytes p reg false (.map k e es) false <;> simp [Buffer.Bytes]
  | .nilMap k e => by
    simp only [headerless, encodeInternal_eq]
    cases encBytes p reg false (.nilMap k e) false <;> simp [Buffer.Bytes]
  | .ptr e t => by
    simp only [headerless, encodeInternal_eq]
    cases encBytes p reg false (.ptr e t) false <;> simp [Buffer.Bytes]
  | .nilPtr e => by
    simp only [headerless, encodeInternal_eq]
    cases encBytes p reg false (.nilPtr e) false <;> simp [Buffer.Bytes]
  | .struct n fs vs => by
    simp only [headerless, encodeInternal_eq]
    cases encBytes p reg false (.struct n fs vs) false <;> simp [Buffer.Bytes]
theorem encItems_headerless (p : Platform) (reg : Registry) :
    ∀ items : List Value, encItems p reg items = headerlessAll p reg items
  | [] => by simp [encItems, headerlessAll]
  | item :: rest => by
    simp only [encItems, headerlessAll, encBytes_headerless p reg item,
      encItems_headerless p reg rest]
end

theorem readTypeIds_tags (reg : Registry) (ts : List GoType)
    (hts : ∀ t ∈ ts, typeTag reg t < 65536) (b : Buffer) (acc : List TypeId)
    (rest : List Byte) (hb : b.At (tagListBytes reg ts ++ rest)) :
    readTypeIds ts.length b acc =
      .ok (acc ++ ts.map (typeTag reg), b.skip (2 * ts.length)) := by
  induction ts generalizing b acc with
  | nil => simp [readTypeIds, Buffer.skip]
  | cons t ts ih =>
    simp only [tagListBytes, List.append_assoc] at hb
    have h1 := hb.readUnsigned 2 (typeTag reg t) (by
      have := hts t (List.mem_cons_self _ _); omega)
    have h2 := ih (fun t ht => hts t (List.mem_cons_of_mem _ ht)) (b.skip 2)
      (acc ++ [typeTag reg t]) (hb.skipLE 2 _)
    simp only [List.length_cons, readTypeIds, Buffer.ReadUint16, h1, h2, Buffer.skip_skip,
      List.map_cons, List.append_assoc, List.singleton_append]
    congr 3
    omega

theorem withType_int (dst : GoType) (k : IntKind) (x : Int) :
    (Value.int k x).withType dst = .int k x := by
  cases dst with
  | pointer e => cases e <;> rfl
  | _ => rfl

theorem withType_uint (dst : GoType) (k : UintKind) (x : Nat) :
    (Value.uint k x).withType dst = .uint k x := by
  cases dst with
  | pointer e => cases e <;> rfl
  | _ => rfl

theorem withType_array (dst elem : GoType) (items : List Value) :
    (Value.array elem items).withType dst = .array elem items := by
  cases dst with
  | pointer e => cases e <;> rfl
  | _ => rfl

theorem withType_slice (dst elem : GoType) (items : List Value) :
    (Value.slice elem items).withType dst = .slice elem items := by
  cases dst with
  | pointer e => cases e <;> rfl
  | _ => rfl

theorem withType_bool (dst : GoType) (x : Bool) :
    (Value.bool x).withType dst = .bool x := by
  cases dst with
  | pointer e => cases e <;> rfl
  | _ => rfl

theorem withType_string (dst : GoType) (s : List Byte) :
    (Value.string s).withType dst = .string s := by
  cases dst with
  | pointer e => cases e <;> rfl
  | _ => rfl

theorem assignableTo_self (t : GoType) : assignableTo t t = true := by
  simp [assignableTo]

theorem setItems_same (elem : GoType) (items : List Value)
    (h : ∀ x ∈ items, x.typeOf = elem ∧ x.withType elem = x) :
    setItems elem (items.map some) = .ok items := by
  induction items with
  | nil => rfl
  | cons x rest ih =>
    have hx := h x (List.mem_cons_self _ _)
    have hr := ih (fun y hy => h y (List.mem_cons_of_mem _ hy))
    simp [setItems, hx.1, hx.2, assignableTo_self, hr]

theorem makeContainer_same (typeId : TypeId) (elem : GoType) (items : List Value)
    (hne : items ≠ []) (h : ∀ x ∈ items, x.typeOf = elem ∧ x.withType elem = x) :
    makeContainer typeId (items.map some) =
      .ok (some (if typeId = TypeIdArray then .array elem items else .slice elem items)) := by
  cases items with
  | nil => exact absurd rfl hne
  | cons x rest =>
    have hx := h x (List.mem_cons_self _ _)
    have hs := setItems_same elem (x :: rest) h
    simp only [List.map_cons] at hs
    simp only [makeContainer, List.map_cons, hx.1, hs]
    split <;> rfl


/-- The array and slice branch of the switch at an inner level, where the tag list has
been read already: if the element loop returns the elements, the branch returns the
container. -/
theorem decodeSwitch_inner (p : Platform) (reg : Registry)
    (recur : Buffer → List TypeId → TypeId → Decoded) (typeId : Nat)
    (htid : typeId = TypeIdArray ∨ typeId = TypeIdSlice) (elem : GoType)
    (items : List Value) (hne : items ≠ []) (hlen : items.length ≤ 65535)
    (hty : ∀ x ∈ items, x.typeOf = elem ∧ x.withType elem = x)
    (tids : List TypeId) (htids : tids ≠ []) (b : Buffer) (body rest : List Byte)
    (hb : b.At (leBytes 2 items.length ++ (body ++ rest)))
    (hitems : decodeItems recur tids items.length (b.skip 2) =
      .ok (items.map some, (b.skip 2).skip body.length)) :
    decodeSwitch p reg recur b tids typeId =
      .ok (some (if typeId = TypeIdArray then .array elem items else .slice elem items),
        b.skip (2 + body.length)) := by
  rw [decodeSwitch_container p reg recur b tids typeId htid]
  have h1 := hb.readUnsigned 2 items.length (by omega)
  have hl : tids.length ≠ 0 := by
    cases tids with
    | nil => exact absurd rfl htids
    | cons t ts => simp
  simp only [Buffer.ReadUint16, h1, hl, if_false, hitems,
    makeContainer_same typeId elem items hne hty, Buffer.skip_skip]

theorem isFixedInt_simple {p : Platform} {v : Value} (h : v.IsFixedInt p) : v.IsSimple p := by
  cases v <;> first | exact h.2 | exact absurd h (by simp [Value.IsFixedInt])

theorem elemTypes_of_leaf {p : Platform} {v : Value} (h : v.IsFixedInt p) :
    elemTypes v.typeOf = [v.typeOf] ∧ v.typeOf.depth = 0 := by
  cases v <;> first | exact ⟨rfl, rfl⟩ | exact absurd h (by simp [Value.IsFixedInt])

theorem withType_of_leaf {p : Platform} {v : Value} (h : v.IsFixedInt p) (dst : GoType) :
    v.withType dst = v := by
  cases v with
  | int k x => exact withType_int dst k x
  | uint k x => exact withType_uint dst k x
  | _ => exact absurd h (by simp [Value.IsFixedInt])

theorem withType_of_nested {p : Platform} {v : Value} (h : v.IsNested p) (dst : GoType) :
    v.withType dst = v := by
  cases v with
  | array e items => exact withType_array dst e items
  | slice e items => exact withType_slice dst e items
  | _ => exact absurd h (by simp [Value.IsNested])

theorem areNested_mem {p : Platform} {elem : GoType} {items : List Value}
    (h : AreNested p elem items) :
    ∀ x ∈ items, x.typeOf = elem ∧ (x.IsFixedInt p ∨ x.IsNested p) := by
  induction items with
  | nil => intro x hx; cases hx
  | cons y rest ih =>
    simp only [AreNested] at h
    intro x hx
    rcases List.mem_cons.1 hx with rfl | hx
    · exact ⟨h.1, h.2.1⟩
    · exact ih h.2.2 x hx

theorem areNested_withType {p : Platform} {elem : GoType} {items : List Value}
    (h : AreNested p elem items) :
    ∀ x ∈ items, x.typeOf = elem ∧ x.withType elem = x := by
  intro x hx
  obtain ⟨h1, h2⟩ := areNested_mem h x hx
  exact ⟨h1, h2.elim (fun hl => withType_of_leaf hl _) (fun hn => withType_of_nested hn _)⟩

theorem elemTypes_cons (t : GoType) : ∃ ts, elemTypes t = t :: ts := by
  cases t <;> simp [elemTypes]

theorem encBytes_container_inv (p : Platform) (reg : Registry) (v : Value) (elem : GoType)
    (items : List Value) (hv : v = .array elem items ∨ v = .slice elem items)
    (enc : List Byte) (henc : encBytes p reg false v false = .ok enc) :
    ∃ body, encItems p reg items = .ok body ∧ enc = leBytes 2 items.length ++ body := by
  rcases hv with rfl | rfl <;>
  · simp only [encBytes] at henc
    cases h : encItems p reg items with
    | error e => simp [h] at henc
    | ok body =>
      simp only [h, Except.ok.injEq] at henc
      exact ⟨body, rfl, by simp [← henc, headerBytes, lengthBytes]⟩

theorem encItems_cons_inv (p : Platform) (reg : Registry) (x : Value) (xs : List Value)
    (body : List Byte) (henc : encItems p reg (x :: xs) = .ok body) :
    ∃ e1 bs, encBytes p reg false x false = .ok e1 ∧ encItems p reg xs = .ok bs ∧
      body = e1 ++ bs := by
  simp only [encItems] at henc
  cases h1 : encBytes p reg false x false with
  | error e => simp [h1] at henc
  | ok e1 =>
    cases h2 : encItems p reg xs with
    | error e => simp [h1, h2] at henc
    | ok bs =>
      simp only [h1, h2, Except.ok.injEq] at henc
      exact ⟨e1, bs, rfl, rfl, henc.symm⟩

theorem decodeItems_cons (recur : Buffer → List TypeId → TypeId → Decoded) (t : TypeId)
    (ts : List TypeId) (n : Nat) (b : Buffer) :
    decodeItems recur (t :: ts) (n + 1) b =
      match recur b ts t with
      | .error e => .error e
      | .ok (item, buf) =>
        match decodeItems recur (t :: ts) n buf with
        | .error e => .error e
        | .ok (items, buf) => .ok (item :: items, buf) := rfl

mutual
/-- A nested container written without a header is read back by `decodeInternal` entered
with its tag and the tags of the levels below it. -/
theorem decodeInternal_nested (p : Platform) (reg : Registry) :
    ∀ (v : Value), v.IsNested p → ∀ (fuel : Nat) (b : Buffer) (enc rest : List Byte),
      v.typeOf.depth + 1 ≤ fuel → encBytes p reg false v false = .ok enc →
      b.At (enc ++ rest) →
      decodeInternal p reg fuel b ((elemTypes v.typeOf.Elem).map (typeTag reg))
        (typeTag reg v.typeOf) = .ok (some v, b.skip enc.length)
  | .array elem items, hv, fuel, b, enc, rest, hfuel, henc, hb => by
    simp only [Value.IsNested] at hv
    obtain ⟨body, hbody, rfl⟩ :=
      encBytes_container_inv p reg _ elem items (Or.inl rfl) enc henc
    obtain ⟨f, rfl⟩ : ∃ f, fuel = f + 1 := ⟨fuel - 1, by omega⟩
    simp only [Value.typeOf, GoType.depth] at hfuel
    rw [List.append_assoc] at hb
    have hitems := decodeItems_nested p reg items elem hv.2.2 f (b.skip 2) body rest
      (by omega) hbody (hb.skipLE 2 _)
    obtain ⟨ts, hts⟩ := elemTypes_cons elem
    have hsw := decodeSwitch_inner p reg (decodeInternal p reg f) TypeIdArray (Or.inl rfl)
      elem items hv.1 hv.2.1 (areNested_withType hv.2.2)
      ((elemTypes elem).map (typeTag reg)) (by simp [hts]) b body rest hb hitems
    have hb2 : b.At (Byte.ofNat items.length ::
        (leBytes 1 (items.length / 256) ++ (body ++ rest))) := hb
    simp only [Value.typeOf, GoType.Elem, typeTag]
    rw [decodeInternal_tagged p reg f b _ TypeIdArray _ _ (by decide) hb2, hsw]
    simp [leBytes_length]
  | .slice elem items, hv, fuel, b, enc, rest, hfuel, henc, hb => by
    simp only [Value.IsNested] at hv
    obtain ⟨body, hbody, rfl⟩ :=
      encBytes_container_inv p reg _ elem items (Or.inr rfl) enc henc
    obtain ⟨f, rfl⟩ : ∃ f, fuel = f + 1 := ⟨fuel - 1, by omega⟩
    simp only [Value.typeOf, GoType.depth] at hfuel
    rw [List.append_assoc] at hb
    have hitems := decodeItems_nested p reg items elem hv.2.2 f (b.skip 2) body rest
      (by omega) hbody (hb.skipLE 2 _)
    obtain ⟨ts, hts⟩ := elemTypes_cons elem
    have hsw := decodeSwitch_inner p reg (decodeInternal p reg f) TypeIdSlice (Or.inr rfl)
      elem items hv.1 hv.2.1 (areNested_withType hv.2.2)
      ((elemTypes elem).map (typeTag reg)) (by simp [hts]) b body rest hb hitems
    have hb2 : b.At (Byte.ofNat items.length ::
        (leBytes 1 (items.length / 256) ++ (body ++ rest))) := hb
    simp only [Value.typeOf, GoType.Elem, typeTag]
    rw [decodeInternal_tagged p reg f b _ TypeIdSlice _ _ (by decide) hb2, hsw]
    simp [leBytes_length, TypeIdSlice, TypeIdArray]
  | .bool _, hv, _, _, _, _, _, _, _ => absurd hv (by simp [Value.IsNested])
  | .int _ _, hv, _, _, _, _, _, _, _ => absurd hv (by simp [Value.IsNested])
  | .uint _ _, hv, _, _, _, _, _, _, _ => absurd hv (by simp [Value.IsNested])
  | .string _, hv, _, _, _, _, _, _, _ => absurd hv (by simp [Value.IsNested])
  | .nilSlice _, hv, _, _, _, _, _, _, _ => absurd hv (by simp [Value.IsNested])
  | .map _ _ _, hv, _, _, _, _, _, _, _ => absurd hv (by simp [Value.IsNested])
  | .nilMap _ _, hv, _, _, _, _, _, _, _ => absurd hv (by simp [Value.IsNested])
  | .ptr _ _, hv, _, _, _, _, _, _, _ => absurd hv (by simp [Value.IsNested])
  | .nilPtr _, hv, _, _, _, _, _, _, _ => absurd hv (by simp [Value.IsNested])
  | .struct _ _ _, hv, _, _, _, _, _, _, _ => absurd hv (by simp [Value.IsNested])
/-- The element loop reads back the elements of a nested container. -/
theorem decodeItems_nested (p : Platform) (reg : Registry) :
    ∀ (items : List Value) (elem : GoType), AreNested p elem items →
      ∀ (fuel : Nat) (b : Buffer) (body rest : List Byte),
      elem.depth + 1 ≤ fuel → encItems p reg items = .ok body → b.At (body ++ rest) →
      decodeItems (decodeInternal p reg fuel) ((elemTypes elem).map (typeTag reg))
        items.length b = .ok (items.map some, b.skip body.length)
  | [], elem, _, fuel, b, body, rest, _, henc, _ => by
    simp only [encItems, Except.ok.injEq] at henc
    subst henc
    simp [decodeItems, Buffer.skip]
  | x :: xs, elem, hn, fuel, b, body, rest, hfuel, henc, hb => by
    simp only [AreNested] at hn
    obtain ⟨hty, hx, hxs⟩ := hn
    obtain ⟨e1, bs, h1, h2, rfl⟩ := encItems_cons_inv p reg x xs body henc
    rw [List.append_assoc] at hb
    have hrest := decodeItems_nested p reg xs elem hxs fuel (b.skip e1.length) bs rest
      hfuel h2 hb.skip
    obtain ⟨ts, hts⟩ := elemTypes_cons elem
    have hhead : decodeInternal p reg fuel b (ts.map (typeTag reg)) (typeTag reg elem) =
        .ok (some x, b.skip e1.length) := by
      rcases hx with hx | hx
      · obtain ⟨f, rfl⟩ : ∃ f, fuel = f + 1 := ⟨fuel - 1, by omega⟩
        rw [← hty]
        exact decodeInternal_simple_bare p reg x (isFixedInt_simple hx) e1 _ h1 f b _ hb
      · have hd := decodeInternal_nested p reg x hx fuel b e1 (bs ++ rest)
          (by rw [hty]; exact hfuel) h1 hb
        rw [hty] at hd
        have : ts = elemTypes elem.Elem := by
          subst hty
          cases x with
          | array e its =>
            simp only [Value.typeOf, elemTypes, List.cons.injEq, true_and] at hts
            exact hts.symm
          | slice e its =>
            simp only [Value.typeOf, elemTypes, List.cons.injEq, true_and] at hts
            exact hts.symm
          | _ => simp [Value.IsNested] at hx
        rw [this]
        exact hd
    have htids : (elemTypes elem).map (typeTag reg) =
        typeTag reg elem :: ts.map (typeTag reg) := by rw [hts]; rfl
    rw [htids] at hrest ⊢
    rw [List.length_cons, decodeItems_cons, hhead]
    simp only []
    rw [hrest]
    simp [Buffer.skip_skip]
end


theorem nested_type_facts (p : Platform) (reg : Registry) :
    ∀ v : Value, v.IsFixedInt p ∨ v.IsNested p →
      (elemTypes v.typeOf).length = v.typeOf.depth + 1 ∧
        ∀ t ∈ elemTypes v.typeOf, typeTag reg t < 18
  | .array elem [], h => by simp [Value.IsNested, Value.IsFixedInt] at h
  | .slice elem [], h => by simp [Value.IsNested, Value.IsFixedInt] at h
  | .array elem (x :: xs), h => by
    have hn : AreNested p elem (x :: xs) := by
      rcases h with h | h
      · exact absurd h (by simp [Value.IsFixedInt])
      · exact h.2.2
    simp only [AreNested] at hn
    have ih := nested_type_facts p reg x hn.2.1
    rw [hn.1] at ih
    simp only [Value.typeOf, elemTypes, List.length_cons, GoType.depth, ih.1, List.mem_cons,
      true_and]
    rintro t (rfl | ht)
    · simp [typeTag, TypeIdArray]
    · exact ih.2 t ht
  | .slice elem (x :: xs), h => by
    have hn : AreNested p elem (x :: xs) := by
      rcases h with h | h
      · exact absurd h (by simp [Value.IsFixedInt])
      · exact h.2.2
    simp only [AreNested] at hn
    have ih := nested_type_facts p reg x hn.2.1
    rw [hn.1] at ih
    simp only [Value.typeOf, elemTypes, List.length_cons, GoType.depth, ih.1, List.mem_cons,
      true_and]
    rintro t (rfl | ht)
    · simp [typeTag, TypeIdSlice]
    · exact ih.2 t ht
  | .int k x, h => by
    cases k <;> simp [Value.typeOf, elemTypes, GoType.depth, typeTag, TypeIdInt, TypeIdInt8,
      TypeIdInt16, TypeIdInt32, TypeIdInt64]
  | .uint k x, h => by
    cases k <;> simp [Value.typeOf, elemTypes, GoType.depth, typeTag, TypeIdUint, TypeIdUint8,
      TypeIdUint16, TypeIdUint32, TypeIdUint64]
  | .bool _, h => by simp [Value.IsNested, Value.IsFixedInt] at h
  | .string _, h => by simp [Value.IsNested, Value.IsFixedInt] at h
  | .nilSlice _, h => by simp [Value.IsNested, Value.IsFixedInt] at h
  | .map _ _ _, h => by simp [Value.IsNested, Value.IsFixedInt] at h
  | .nilMap _ _, h => by simp [Value.IsNested, Value.IsFixedInt] at h
  | .ptr _ _, h => by simp [Value.IsNested, Value.IsFixedInt] at h
  | .nilPtr _, h => by simp [Value.IsNested, Value.IsFixedInt] at h
  | .struct _ _ _, h => by simp [Value.IsNested, Value.IsFixedInt] at h

/-- The array and slice branch of the switch at the outermost level, where the tag list
is read from the buffer: if the element loop returns the elements, the branch returns the
container. -/
theorem decodeSwitch_outer (p : Platform) (reg : Registry)
    (recur : Buffer → List TypeId → TypeId → Decoded) (typeId : Nat)
    (htid : typeId = TypeIdArray ∨ typeId = TypeIdSlice) (elem : GoType)
    (items : List Value) (hne : items ≠ []) (hlen : items.length ≤ 65535)
    (hty : ∀ x ∈ items, x.typeOf = elem ∧ x.withType elem = x)
    (ts : List GoType) (hts : ts.length ≤ 65535) (htags : ∀ t ∈ ts, typeTag reg t < 65536)
    (b : Buffer) (body rest : List Byte)
    (hb : b.At (leBytes 2 items.length ++
      (leBytes 2 ts.length ++ (tagListBytes reg ts ++ (body ++ rest)))))
    (hitems : decodeItems recur (ts.map (typeTag reg)) items.length
        (b.skip (4 + 2 * ts.length)) =
      .ok (items.map some, (b.skip (4 + 2 * ts.length)).skip body.length)) :
    decodeSwitch p reg recur b [] typeId =
      .ok (some (if typeId = TypeIdArray then .array elem items else .slice elem items),
        b.skip (4 + 2 * ts.length + body.length)) := by
  rw [decodeSwitch_container p reg recur b [] typeId htid]
  have h1 := hb.readUnsigned 2 items.length (by omega)
  have hb2 := hb.skipLE 2 _
  have h2 := hb2.readUnsigned 2 ts.length (by omega)
  have hb3 := hb2.skipLE 2 _
  have h3 := readTypeIds_tags reg ts htags _ [] _ hb3
  simp only [Buffer.skip_skip] at h3 hitems
  simp only [Buffer.ReadUint16, h1, h2, List.length_nil, if_true, h3, List.nil_append,
    Buffer.skip_skip]
  rw [show 2 + 2 + 2 * ts.length = 4 + 2 * ts.length from rfl, hitems]
  simp only [makeContainer_same typeId elem items hne hty]

theorem tagListBytes_length (reg : Registry) (ts : List GoType) :
    (tagListBytes reg ts).length = 2 * ts.length := by
  induction ts with
  | nil => rfl
  | cons t rest ih => simp [tagListBytes, leBytes_length, ih]; omega

mutual
theorem encBytes_nested_ok (p : Platform) (reg : Registry) :
    ∀ v : Value, v.IsFixedInt p ∨ v.IsNested p →
      ∃ enc, encBytes p reg false v false = .ok enc
  | .array elem items, h => by
    have hn : AreNested p elem items := by
      rcases h with h | h
      · exact absurd h (by simp [Value.IsFixedInt])
      · exact h.2.2
    obtain ⟨body, hb⟩ := encItems_nested_ok p reg items elem hn
    simp only [encBytes, hb]
    exact ⟨_, rfl⟩
  | .slice elem items, h => by
    have hn : AreNested p elem items := by
      rcases h with h | h
      · exact absurd h (by simp [Value.IsFixedInt])
      · exact h.2.2
    obtain ⟨body, hb⟩ := encItems_nested_ok p reg items elem hn
    simp only [encBytes, hb]
    exact ⟨_, rfl⟩
  | .int k x, h => by simp only [encBytes]; exact ⟨_, rfl⟩
  | .uint k x, h => by simp only [encBytes]; exact ⟨_, rfl⟩
  | .bool _, h => by simp [Value.IsNested, Value.IsFixedInt] at h
  | .string _, h => by simp [Value.IsNested, Value.IsFixedInt] at h
  | .nilSlice _, h => by simp [Value.IsNested, Value.IsFixedInt] at h
  | .map _ _ _, h => by simp [Value.IsNested, Value.IsFixedInt] at h
  | .nilMap _ _, h => by simp [Value.IsNested, Value.IsFixedInt] at h
  | .ptr _ _, h => by simp [Value.IsNested, Value.IsFixedInt] at h
  | .nilPtr _, h => by simp [Value.IsNested, Value.IsFixedInt] at h
  | .struct _ _ _, h => by simp [Value.IsNested, Value.IsFixedInt] at h
theorem encItems_nested_ok (p : Platform) (reg : Registry) :
    ∀ (items : List Value) (elem : GoType), AreNested p elem items →
      ∃ body, encItems p reg items = .ok body
  | [], _, _ => ⟨[], rfl⟩
  | x :: xs, elem, h => by
    simp only [AreNested] at h
    obtain ⟨e1, h1⟩ := encBytes_nested_ok p reg x h.2.1
    obtain ⟨bs, h2⟩ := encItems_nested_ok p reg xs elem h.2.2
    simp only [encItems, h1, h2]
    exact ⟨_, rfl⟩
end

/-- The round trip of a nested container whose nesting depth fits the two bytes of the
tag list length. -/
theorem Decode_Encode_nested (p : Platform) (reg : Registry) (c : Value)
    (hc : c.IsNested p) (hd : c.typeOf.depth ≤ 65535) :
    ∃ bytes, Encode p reg c = .ok bytes ∧ Decode p reg bytes = .ok (some c) := by
  have hfacts := nested_type_facts p reg c (Or.inr hc)
  obtain ⟨elem, items, tid, hcv⟩ : ∃ elem items tid,
      (tid = TypeIdArray ∨ tid = TypeIdSlice) ∧ typeTag reg c.typeOf = tid ∧
      c.typeOf.Elem = elem ∧ c.typeOf.depth = elem.depth + 1 ∧
      elemTypes c.typeOf = c.typeOf :: elemTypes elem ∧
      (c = .array elem items ∨ c = .slice elem items) ∧
      c = (if tid = TypeIdArray then .array elem items else .slice elem items) := by
    cases c with
    | array e its => exact ⟨e, its, TypeIdArray, Or.inl rfl, rfl, rfl, rfl, rfl, Or.inl rfl, rfl⟩
    | slice e its => exact ⟨e, its, TypeIdSlice, Or.inr rfl, rfl, rfl, rfl, rfl, Or.inr rfl, rfl⟩
    | _ => simp [Value.IsNested] at hc
  obtain ⟨htid, htag, helem, hdepth, hET, hshape, hceq⟩ := hcv
  have hnest : items ≠ [] ∧ items.length ≤ 65535 ∧ AreNested p elem items := by
    rcases hshape with rfl | rfl <;> exact hc
  obtain ⟨hne, hlen, hitemsN⟩ := hnest
  have hlenT : (elemTypes elem).length = elem.depth + 1 := by
    have := hfacts.1
    rw [hET, hdepth] at this
    simpa using this
  have htags : ∀ t ∈ elemTypes elem, typeTag reg t < 65536 := by
    intro t ht
    have := hfacts.2 t (by rw [hET]; exact List.mem_cons_of_mem _ ht)
    omega
  -- the bytes
  obtain ⟨enc0, henc0⟩ := encBytes_nested_ok p reg c (Or.inr hc)
  obtain ⟨body, hbody, rfl⟩ := encBytes_container_inv p reg c elem items hshape enc0 henc0
  have henc : encBytes p reg false c true =
      .ok (leBytes 2 tid ++ (leBytes 2 items.length ++
        (leBytes 2 (elemTypes elem).length ++ (tagListBytes reg (elemTypes elem) ++
          (body ++ []))))) := by
    rcases hshape with rfl | rfl <;>
      simp [encBytes, hbody, headerBytes, lengthBytes, ← htag, Value.typeOf]
  refine ⟨_, by rw [Encode_eq, henc], ?_⟩
  generalize hbytes : leBytes 2 tid ++ (leBytes 2 items.length ++
    (leBytes 2 (elemTypes elem).length ++ (tagListBytes reg (elemTypes elem) ++
      (body ++ [])))) = bytes
  have hL : elem.depth + 1 ≤ bytes.length := by
    rw [← hbytes]
    simp only [List.length_append, leBytes_length, tagListBytes_length, hlenT]
    omega
  have hb : (BufferFromBytes bytes).At (leBytes 2 tid ++ (leBytes 2 items.length ++
      (leBytes 2 (elemTypes elem).length ++ (tagListBytes reg (elemTypes elem) ++
        (body ++ []))))) := hbytes ▸ Buffer.At.start _
  have hb2 := hb.skipLE 2 _
  have hb5 := ((hb2.skipLE 2 _).skipLE 2 _).skip
  have hX : ((((BufferFromBytes bytes).skip 2).skip 2).skip 2).skip
      (tagListBytes reg (elemTypes elem)).length =
      ((BufferFromBytes bytes).skip 2).skip (4 + 2 * (elemTypes elem).length) := by
    simp only [Buffer.skip, tagListBytes_length, Buffer.mk.injEq, true_and]
    omega
  rw [hX] at hb5
  have hitems := decodeItems_nested p reg items elem hitemsN bytes.length _ body [] hL hbody
    hb5
  have hsw := decodeSwitch_outer p reg (decodeInternal p reg bytes.length) tid htid elem items
    hne hlen (areNested_withType hitemsN) (elemTypes elem) (by omega) htags _ body [] hb2
    hitems
  unfold Decode
  rw [decodeInternal_header p reg bytes.length _ [] tid _
    (by rcases htid with h | h <;> simp [h, TypeIdArray, TypeIdSlice]) hb, hsw, ← hceq]


/-- The bytes of a nested container written with a header. -/
theorem encBytes_nested_shape (p : Platform) (reg : Registry) (c : Value) (hc : c.IsNested p) :
    ∃ (tid : Nat) (elem : GoType) (items : List Value) (body : List Byte),
      (tid = TypeIdArray ∨ tid = TypeIdSlice) ∧ items ≠ [] ∧ items.length ≤ 65535 ∧
      c.typeOf.depth = elem.depth + 1 ∧
      (elemTypes elem).length = elem.depth + 1 ∧
      encBytes p reg false c true =
        .ok (leBytes 2 tid ++ (leBytes 2 items.length ++
          (leBytes 2 (elemTypes elem).length ++ (tagListBytes reg (elemTypes elem) ++ body)))) := by
  have hfacts := nested_type_facts p reg c (Or.inr hc)
  obtain ⟨enc0, henc0⟩ := encBytes_nested_ok p reg c (Or.inr hc)
  cases c with
  | array elem items =>
    obtain ⟨body, hbody, rfl⟩ :=
      encBytes_container_inv p reg _ elem items (Or.inl rfl) enc0 henc0
    refine ⟨TypeIdArray, elem, items, body, Or.inl rfl, hc.1, hc.2.1, rfl, ?_, ?_⟩
    · simpa [Value.typeOf, elemTypes, GoType.depth] using hfacts.1
    · simp [encBytes, hbody, headerBytes, lengthBytes, typeTag]
  | slice elem items =>
    obtain ⟨body, hbody, rfl⟩ :=
      encBytes_container_inv p reg _ elem items (Or.inr rfl) enc0 henc0
    refine ⟨TypeIdSlice, elem, items, body, Or.inr rfl, hc.1, hc.2.1, rfl, ?_, ?_⟩
    · simpa [Value.typeOf, elemTypes, GoType.depth] using hfacts.1
    · simp [encBytes, hbody, headerBytes, lengthBytes, typeTag]
  | _ => simp [Value.IsNested] at hc

/-- A container whose tag list length is a multiple of 65536 is written with the length
0; the decoder then has no tag for the first element and panics. -/
theorem Decode_nested_overflow (p : Platform) (reg : Registry) (c : Value)
    (hc : c.IsNested p) (hd : c.typeOf.depth = 65536) :
    ∃ bytes, Encode p reg c = .ok bytes ∧ Decode p reg bytes = .error .panic := by
  obtain ⟨tid, elem, items, body, htid, hne, hlen, hdepth, hlenT, henc⟩ :=
    encBytes_nested_shape p reg c hc
  refine ⟨_, by rw [Encode_eq, henc], ?_⟩
  generalize hbytes : leBytes 2 tid ++ (leBytes 2 items.length ++
    (leBytes 2 (elemTypes elem).length ++ (tagListBytes reg (elemTypes elem) ++ body))) = bytes
  have hb : (BufferFromBytes bytes).At ((leBytes 2 tid ++ (leBytes 2 items.length ++
      (leBytes 2 (elemTypes elem).length ++ (tagListBytes reg (elemTypes elem) ++ body))))
      ++ []) := by
    rw [List.append_nil, hbytes]; exact Buffer.At.start _
  rw [List.append_assoc] at hb
  have hb2 := hb.skipLE 2 _
  have h1 := hb2.readUnsigned 2 items.length (by omega)
  have h2 := (hb2.skipLE 2 _).readLE 2 (elemTypes elem).length
  have hz : (elemTypes elem).length % 256 ^ 2 = 0 := by
    rw [hlenT, ← hdepth, hd]; decide
  rw [hz] at h2
  obtain ⟨n, hn⟩ : ∃ n, items.length = n + 1 := by
    cases items with
    | nil => exact absurd rfl hne
    | cons x xs => exact ⟨xs.length, rfl⟩
  unfold Decode
  rw [decodeInternal_header p reg bytes.length _ [] tid _
    (by rcases htid with h | h <;> simp [h, TypeIdArray, TypeIdSlice]) hb,
    decodeSwitch_container p reg _ _ [] tid htid]
  simp [Buffer.ReadUint16, h1, h2, readTypeIds, hn, decodeItems]

theorem nestedArray_isNested (p : Platform) (n : Nat) : (nestedArray (n + 1)).IsNested p := by
  induction n with
  | zero =>
    simp [nestedArray, Value.IsNested, AreNested, Value.IsFixedInt, IntKind.InRange,
      IntKind.size]
  | succ n ih =>
    rw [nestedArray]
    simp only [Value.IsNested, AreNested, ne_eq, reduceCtorEq, not_false_eq_true,
      List.length_singleton, true_and, and_true]
    exact ⟨by omega, Or.inr ih⟩

theorem nestedArray_depth (n : Nat) : (nestedArray n).typeOf.depth = n := by
  induction n with
  | zero => rfl
  | succ n ih =>
    show GoType.depth (GoType.array _ (nestedArray n).typeOf) = n + 1
    rw [GoType.depth, ih]

/-- Induction over the fields of a struct type. -/
theorem fieldList_induct {motive : FieldList → Prop} (nil : motive .nil)
    (cons : ∀ name exported type rest, motive rest → motive (.cons name exported type rest)) :
    ∀ fields, motive fields
  | .nil => nil
  | .cons name exported type rest =>
    cons name exported type rest (fieldList_induct nil cons rest)

theorem encFields_eq_written (p : Platform) (reg : Registry) (fields : FieldList)
    (vals : List Value) :
    encFields p reg fields vals =
      match writtenFields p reg fields vals with
      | .error e => .error e
      | .ok entries => .ok (entries.flatten, entries.length) := by
  induction fields using fieldList_induct generalizing vals with
  | nil => cases vals <;> simp [encFields, writtenFields]
  | cons name exported type rest ih =>
    cases vals with
    | nil => simp [encFields, writtenFields]
    | cons v vals =>
      simp only [encFields, writtenFields, ih vals, Encode_eq]
      cases hz : v.IsZero <;> cases exported <;> simp
      cases encBytes p reg false v true with
      | error e => simp
      | ok enc =>
        cases writtenFields p reg rest vals <;> simp

theorem nameHash_lt (name : String) : nameHash name < 4294967296 := by
  unfold nameHash fnv32a
  generalize nameBytes name = data
  have : ∀ (data : List Byte) (h : Nat), h < 4294967296 →
      data.foldl (fun h b => (Nat.xor h b.val * 16777619) % 4294967296) h < 4294967296 := by
    intro data
    induction data with
    | nil => intro h hh; simpa using hh
    | cons b rest ih =>
      intro h _
      simp only [List.foldl_cons]
      exact ih _ (Nat.mod_lt _ (by decide))
  exact this data _ (by decide)

/-- The hash map `registerFields` builds, started from any map, holds every name of the
list under its hash when the hashes of the names differ pairwise. -/
theorem registerFields_hashName (fields : FieldList)
    (maps : (String → Option Nat) × (Nat → Option String))
    (hnd : (fields.names.map nameHash).Nodup) :
    (∀ n ∈ fields.names, (registerFields fields maps).2 (nameHash n) = some n) ∧
      (∀ h, h ∉ fields.names.map nameHash → (registerFields fields maps).2 h = maps.2 h) := by
  induction fields using fieldList_induct generalizing maps with
  | nil => simp [registerFields, FieldList.names]
  | cons name exported type rest ih =>
    simp only [FieldList.names, List.map_cons, List.nodup_cons] at hnd
    obtain ⟨h1, h2⟩ := ih (Function.update maps.1 name (some (nameHash name)),
      Function.update maps.2 (nameHash name) (some name)) hnd.2
    constructor
    · intro n hn
      simp only [FieldList.names, List.mem_cons] at hn
      rcases hn with rfl | hn
      · rw [registerFields, h2 _ hnd.1]
        simp
      · rw [registerFields]
        exact h1 n hn
    · intro h hh
      simp only [FieldList.names, List.map_cons, List.mem_cons, not_or] at hh
      rw [registerFields, h2 h hh.2]
      simp [Function.update, hh.1]

theorem has_mem_names {name : String} {e : Bool} {t : GoType} {fields : FieldList}
    (h : fields.Has name e t) : name ∈ fields.names := by
  induction fields using fieldList_induct with
  | nil => exact absurd h (by simp [FieldList.Has])
  | cons n e2 t2 rest ih =>
    simp only [FieldList.Has] at h
    simp only [FieldList.names, List.mem_cons]
    rcases h with h | h
    · exact Or.inl h.1.symm
    · exact Or.inr (ih h)

/-- In a struct type whose field names differ pairwise, `find` returns the field that the
type declares under the name. -/
theorem find_of_has {name : String} {e : Bool} {t : GoType} {fields : FieldList}
    (h : fields.Has name e t) (hnd : fields.names.Nodup) :
    ∃ i, fields.find name = some (i, e, t) ∧ i < fields.length := by
  induction fields using fieldList_induct with
  | nil => exact absurd h (by simp [FieldList.Has])
  | cons n e2 t2 rest ih =>
    simp only [FieldList.names, List.nodup_cons] at hnd
    simp only [FieldList.Has] at h
    rcases h with h | h
    · obtain ⟨rfl, rfl, rfl⟩ := h
      exact ⟨0, by simp [FieldList.find], by simp [FieldList.length]⟩
    · have hne : n ≠ name := by
        intro heq
        exact hnd.1 (heq ▸ has_mem_names h)
      obtain ⟨i, hi, hlt⟩ := ih h hnd.2
      exact ⟨i + 1, by simp [FieldList.find, hne, hi], by simp [FieldList.length, hlt]⟩


theorem fieldValue_set_find (v : Value) (n : String) (fields : FieldList) :
    ∀ (vals : List Value) (i : Nat) (e : Bool) (t : GoType),
      fields.find n = some (i, e, t) → vals.length = fields.length →
      ∀ m, fieldValue m fields (vals.set i v) =
        if m = n then some v else fieldValue m fields vals := by
  induction fields using fieldList_induct with
  | nil => intro vals i e t h; simp [FieldList.find] at h
  | cons n0 e0 t0 rest ih =>
    intro vals i e t hf hl m
    cases vals with
    | nil => simp [FieldList.length] at hl
    | cons v0 vs =>
      simp only [List.length_cons, FieldList.length, Nat.add_right_cancel_iff] at hl
      by_cases h0 : n0 = n
      · simp only [FieldList.find, h0, if_true, Option.some.injEq, Prod.mk.injEq] at hf
        obtain ⟨rfl, -, -⟩ := hf
        subst h0
        by_cases hm : m = n0
        · simp [fieldValue, hm]
        · have hm2 : ¬ n0 = m := fun h => hm h.symm
          simp [fieldValue, hm, hm2]
      · simp only [FieldList.find, h0, if_false] at hf
        cases hr : rest.find n with
        | none => simp [hr] at hf
        | some r =>
          obtain ⟨i2, e2, t2⟩ := r
          simp only [hr, Option.some.injEq, Prod.mk.injEq] at hf
          obtain ⟨rfl, -, -⟩ := hf
          have := ih vs i2 e2 t2 hr hl m
          simp only [List.set_cons_succ, fieldValue, this]
          by_cases hm : m = n
          · have : ¬ n0 = m := fun h => h0 (h.trans hm)
            simp [hm, this, h0]
          · simp [hm]

theorem typeTag_simple_reg (p : Platform) (reg1 reg2 : Registry) (v : Value)
    (hv : v.IsSimple p) : typeTag reg1 v.typeOf = typeTag reg2 v.typeOf := by
  cases v with
  | bool x => rfl
  | int k x => cases k <;> rfl
  | uint k x => cases k <;> rfl
  | string s => rfl
  | _ => exact absurd hv (by simp [Value.IsSimple, Value.IsScalar])

/-- The encoding of a simple value does not depend on the registry. -/
theorem encBytes_simple_reg (p : Platform) (reg1 reg2 : Registry) (v : Value)
    (hv : v.IsSimple p) (header : Bool) :
    encBytes p reg1 false v header = encBytes p reg2 false v header := by
  cases v with
  | bool x => simp [encBytes, headerBytes, typeTag]
  | int k x => cases k <;> simp [encBytes, headerBytes, typeTag]
  | uint k x => cases k <;> simp [encBytes, headerBytes, typeTag]
  | string s => simp [encBytes, headerBytes, typeTag]
  | _ => exact absurd hv (by simp [Value.IsSimple, Value.IsScalar])

theorem withType_of_simple {p : Platform} {v : Value} (h : v.IsSimple p) (dst : GoType) :
    v.withType dst = v := by
  cases v with
  | bool x => exact withType_bool dst x
  | int k x => exact withType_int dst k x
  | uint k x => exact withType_uint dst k x
  | string s => exact withType_string dst s
  | _ => exact absurd h (by simp [Value.IsSimple, Value.IsScalar])

/-- The assignment of a decoded value whose type is the type of an exported field. -/
theorem assignField_same (p : Platform) (sname : String) (fields : FieldList)
    (cur : List Value) (name : String) (v : Value) (i : Nat)
    (hf : fields.find name = some (i, true, v.typeOf)) (hw : v.withType v.typeOf = v) :
    assignField p (.struct sname fields cur) name v =
      .ok (.struct sname fields (cur.set i v)) := by
  simp [assignField, hf, assignableTo_self, hw]

theorem Buffer.skip_zero (b : Buffer) : b.skip 0 = b := rfl

/-- A simple value that is a zero value is the zero value of its type. -/
theorem simple_zero_eq {p : Platform} {v : Value} (hv : v.IsSimple p) (hz : v.IsZero = true) :
    v = zeroValue v.typeOf := by
  cases v with
  | bool x => cases x <;> simp_all [Value.IsZero, Value.typeOf, zeroValue]
  | int k x => simp_all [Value.IsZero, Value.typeOf, zeroValue]
  | uint k x => simp_all [Value.IsZero, Value.typeOf, zeroValue]
  | string s => cases s <;> simp_all [Value.IsZero, Value.typeOf, zeroValue]
  | _ => exact absurd hv (by simp [Value.IsSimple, Value.IsScalar])

/-- A simple value passes from any encoder to any decoder. -/
theorem transfers_of_simple (p : Platform) (regA regB : Registry) (v : Value)
    (hv : v.IsSimple p) : Transfers p regA regB v := by
  refine ⟨fun hz => simple_zero_eq hv hz, fun _ => ⟨withType_of_simple hv _, ?_⟩⟩
  obtain ⟨e0, -, -, h1⟩ := encBytes_simple p regA v hv
  refine ⟨_, by rw [Encode_eq, h1], ?_⟩
  intro fuel b rest hfuel hb
  obtain ⟨f, rfl⟩ : ∃ f, fuel = f + 1 := by
    refine ⟨fuel - 1, ?_⟩
    simp only [List.length_append, leBytes_length] at hfuel
    omega
  have h1B : encBytes p regB false v true = .ok (leBytes 2 (typeTag regA v.typeOf) ++ e0) := by
    rw [← encBytes_simple_reg p regA regB v hv true, h1]
  exact decodeInternal_simple p regB v hv _ rest h1B f b [] hb

theorem recordOf_mono {good1 good2 : Value → Prop} (h : ∀ v, good1 v → good2 v)
    (fields : FieldList) :
    ∀ vals : List Value, RecordOf good1 fields vals → RecordOf good2 fields vals := by
  induction fields using fieldList_induct with
  | nil => intro vals hr; cases vals <;> simp_all [RecordOf]
  | cons n e ty rest ih =>
    intro vals hr
    cases vals with
    | nil => simp [RecordOf] at hr
    | cons v vs =>
      simp only [RecordOf] at hr ⊢
      exact ⟨hr.1, hr.2.1, h v hr.2.2.1, hr.2.2.2.1, ih vs hr.2.2.2.2⟩

theorem encFields_record_ok (p : Platform) (regA regB : Registry) (fields : FieldList) :
    ∀ vals : List Value, RecordOf (Transfers p regA regB) fields vals →
      ∃ bs k, encFields p regA fields vals = .ok (bs, k) ∧ k ≤ nonZeroCount vals := by
  induction fields using fieldList_induct with
  | nil =>
    intro vals h
    cases vals with
    | nil => exact ⟨[], 0, rfl, Nat.le_refl _⟩
    | cons v vs => simp [RecordOf] at h
  | cons n e ty rest ih =>
    intro vals h
    cases vals with
    | nil => simp [RecordOf] at h
    | cons v vs =>
      simp only [RecordOf] at h
      obtain ⟨bs, k, h1, h2⟩ := ih vs h.2.2.2.2
      by_cases hz : v.IsZero = true
      · exact ⟨bs, k, by simp [encFields, hz, h1], by simp [nonZeroCount, hz, h2]⟩
      · simp only [Bool.not_eq_true] at hz
        obtain ⟨-, enc, h3, -⟩ := h.2.2.1.2 hz
        rw [Encode_eq] at h3
        refine ⟨_, k + 1, by simp only [encFields, hz, h.1, h3, h1]; rfl, ?_⟩
        simp [nonZeroCount, hz]
        omega

/-- The field loop of the decoder, run on the written fields of a record whose fields
all occur in the struct type registered under the id, assigns each written value to the
field of its name. -/
theorem decodeFields_written (p : Platform) (regA regB : Registry) (t : Nat)
    (nameB : String) (fieldsB : FieldList) (names : Nat → Option String)
    (hmap : regB.typeIdHashNameMapping t = some names)
    (hP : ∀ n ∈ fieldsB.names, names (nameHash n) = some n)
    (hndB : fieldsB.names.Nodup) (fuel : Nat) (fieldsA : FieldList) :
    ∀ (valsA : List Value), RecordOf (Transfers p regA regB) fieldsA valsA →
      (∀ n e ty, fieldsA.Has n e ty → fieldsB.Has n e ty) →
      ∀ (cur : List Value) (b : Buffer) (bs rest : List Byte) (k : Nat),
      encFields p regA fieldsA valsA = .ok (bs, k) → bs.length ≤ fuel → b.At (bs ++ rest) →
      decodeFields p regB (fun buf => decodeInternal p regB fuel buf [] TypeIdUnknown)
          t k b (.struct nameB fieldsB cur) =
        .ok (.struct nameB fieldsB (applyFields fieldsB fieldsA valsA cur),
          b.skip bs.length) := by
  induction fieldsA using fieldList_induct with
  | nil =>
    intro valsA hrec _ cur b bs rest k henc _ _
    cases valsA with
    | nil =>
      simp only [encFields, Except.ok.injEq, Prod.mk.injEq] at henc
      obtain ⟨rfl, rfl⟩ := henc
      simp [decodeFields, applyFields, Buffer.skip_zero]
    | cons v vs => simp [RecordOf] at hrec
  | cons n e ty restA ih =>
    intro valsA hrec hsub cur b bs rest k henc hfuel hb
    cases valsA with
    | nil => simp [RecordOf] at hrec
    | cons v vals =>
      simp only [RecordOf] at hrec
      obtain ⟨he, hn, hv, hty, hrest⟩ := hrec
      subst he
      have hsub2 : ∀ n e ty, restA.Has n e ty → fieldsB.Has n e ty :=
        fun n2 e2 t2 h => hsub n2 e2 t2 (by simp only [FieldList.Has]; exact Or.inr h)
      by_cases hz : v.IsZero = true
      · simp only [encFields, hz, if_true] at henc
        simp only [applyFields, hz, if_true]
        exact ih vals hrest hsub2 cur b bs rest k henc hfuel hb
      · simp only [Bool.not_eq_true] at hz
        obtain ⟨hw, enc, h1, hdecode⟩ := hv.2 hz
        rw [Encode_eq] at h1
        simp only [encFields, hz, Bool.false_eq_true, if_false, Bool.not_true, h1] at henc
        cases hr : encFields p regA restA vals with
        | error err => simp [hr] at henc
        | ok r =>
          obtain ⟨bs2, k2⟩ := r
          simp only [hr, Except.ok.injEq, Prod.mk.injEq] at henc
          obtain ⟨rfl, rfl⟩ := henc
          have hB : fieldsB.Has n true v.typeOf := by
            rw [hty]
            exact hsub n true ty (by simp [FieldList.Has])
          obtain ⟨i, hfind, _⟩ := find_of_has hB hndB
          simp only [List.length_append, leBytes_length] at hfuel
          simp only [List.append_assoc] at hb
          have hread := hb.readUnsigned 4 (nameHash n) (nameHash_lt n)
          have hb2 := hb.skipLE 4 _
          have hdec := hdecode fuel (b.skip 4) (bs2 ++ rest) (by omega) hb2
          have hname : regB.hashName t (nameHash n) = n := by
            simp [Registry.hashName, hmap, hP n (has_mem_names hB)]
          have hassign := assignField_same p nameB fieldsB cur n v i hfind hw
          have hrec2 := ih vals hrest hsub2 (cur.set i v) _ bs2 rest k2 hr (by omega) hb2.skip
          simp only [decodeFields, Buffer.ReadUint32, hread, hname, hn, if_false, hdec,
            hassign, applyFields, hz, Bool.false_eq_true, hfind]
          simp only [Buffer.skip, List.length_append, leBytes_length, Nat.add_assoc]
            at hrec2 ⊢
          exact hrec2

theorem zeroValue_struct (name : String) (fields : FieldList) :
    zeroValue (.struct name fields) = .struct name fields (zeroFields fields) := by
  rw [zeroValue]

/-- A record encoded under one registry and decoded under another that holds, for the same
id, a struct type declaring all its fields: the decoder returns a value of that struct type
whose fields hold what the assignments of the written fields leave. -/
theorem Decode_Encode_record (p : Platform) (regA regB : Registry) (nameA nameB : String)
    (fieldsA fieldsB : FieldList) (valsA : List Value) (t : Nat)
    (hA : regA.typeToTypeIdMapping (.struct nameA fieldsA) = some t)
    (hB : regB.Holds nameB fieldsB t) (ht : 18 ≤ t) (ht2 : t < 65536)
    (hrec : RecordOf (Transfers p regA regB) fieldsA valsA)
    (hsub : ∀ n e ty, fieldsA.Has n e ty → fieldsB.Has n e ty)
    (hhash : (fieldsB.names.map nameHash).Nodup)
    (hcount : nonZeroCount valsA ≤ 65535) :
    ∃ bytes, Encode p regA (.struct nameA fieldsA valsA) = .ok bytes ∧
      Decode p regB bytes =
        .ok (some (.struct nameB fieldsB
          (applyFields fieldsB fieldsA valsA (zeroFields fieldsB)))) := by
  obtain ⟨bs, k, henc, hk⟩ := encFields_record_ok p regA regB fieldsA valsA hrec
  have hE : encBytes p regA false (.struct nameA fieldsA valsA) true =
      .ok (leBytes 2 t ++ (leBytes 2 k ++ bs)) := by
    simp [encBytes, henc, headerBytes, typeTag, hA]
  refine ⟨_, by rw [Encode_eq, hE], ?_⟩
  obtain ⟨-, hB2, hB3⟩ := hB
  have hndB : fieldsB.names.Nodup := List.Nodup.of_map _ hhash
  have hP := (registerFields_hashName fieldsB (fun _ => none, fun _ => none) hhash).1
  generalize hbytes : leBytes 2 t ++ (leBytes 2 k ++ bs) = bytes
  have hb : (BufferFromBytes bytes).At (leBytes 2 t ++ (leBytes 2 k ++ (bs ++ []))) := by
    rw [List.append_nil, hbytes]; exact Buffer.At.start _
  have hb2 := hb.skipLE 2 _
  have hread := hb2.readUnsigned 2 k (by omega)
  have hb3 := hb2.skipLE 2 _
  have hlen : bs.length ≤ bytes.length := by
    rw [← hbytes]; simp only [List.length_append]; omega
  have hfields := decodeFields_written p regA regB t nameB fieldsB _ hB3 hP hndB bytes.length
    fieldsA valsA hrec hsub (zeroFields fieldsB) _ bs [] k henc hlen hb3
  unfold Decode
  rw [decodeInternal_header p regB bytes.length _ [] t _ ht2 hb,
    decodeSwitch_record p regB _ _ [] t ht]
  simp only [hB2, Buffer.ReadUint16, hread, zeroValue_struct, hfields]


theorem fieldValue_none_of_not_mem (m : String) (fields : FieldList) :
    ∀ vals : List Value, m ∉ fields.names → fieldValue m fields vals = none := by
  induction fields using fieldList_induct with
  | nil => intro vals _; cases vals <;> rfl
  | cons n e ty rest ih =>
    intro vals h
    simp only [FieldList.names, List.mem_cons, not_or] at h
    cases vals with
    | nil => rfl
    | cons v vs =>
      have hne : ¬ n = m := fun heq => h.1 heq.symm
      simp [fieldValue, hne, ih vs h.2]

theorem applyFields_length (target : FieldList) (fields : FieldList) :
    ∀ (vals cur : List Value), (applyFields target fields vals cur).length = cur.length := by
  induction fields using fieldList_induct with
  | nil => intro vals cur; cases vals <;> rfl
  | cons n e ty rest ih =>
    intro vals cur
    cases vals with
    | nil => rfl
    | cons v vs =>
      simp only [applyFields]
      split
      · exact ih vs cur
      · split
        · rw [ih]; simp
        · exact ih vs cur

/-- The field values after the assignments, by name: a field written by the encoder holds
the written value, any other field what it held before. -/
theorem fieldValue_applyFields (target : FieldList) (hndB : target.names.Nodup)
    (fields : FieldList) :
    ∀ (vals cur : List Value), fields.names.Nodup →
      (∀ n e ty, fields.Has n e ty → target.Has n e ty) → cur.length = target.length →
      ∀ m, fieldValue m target (applyFields target fields vals cur) =
        match fieldValue m fields vals with
        | some v => if v.IsZero then fieldValue m target cur else some v
        | none => fieldValue m target cur := by
  induction fields using fieldList_induct with
  | nil => intro vals cur _ _ _ m; cases vals <;> rfl
  | cons n e ty rest ih =>
    intro vals cur hnd hsub hlen m
    simp only [FieldList.names, List.nodup_cons] at hnd
    have hsub2 : ∀ n e ty, rest.Has n e ty → target.Has n e ty :=
      fun n2 e2 t2 h => hsub n2 e2 t2 (by simp only [FieldList.Has]; exact Or.inr h)
    cases vals with
    | nil => rfl
    | cons v vs =>
      by_cases hz : v.IsZero = true
      · simp only [applyFields, hz, if_true, fieldValue]
        rw [ih vs cur hnd.2 hsub2 hlen m]
        by_cases hm : n = m
        · subst hm
          simp [fieldValue_none_of_not_mem n rest vs hnd.1, hz]
        · simp [hm]
      · obtain ⟨i, hfind, _⟩ := find_of_has (hsub n e ty (by simp [FieldList.Has])) hndB
        simp only [applyFields, hz, if_false, hfind, fieldValue, Bool.false_eq_true]
        rw [ih vs (cur.set i v) hnd.2 hsub2 (by simpa using hlen) m,
          fieldValue_set_find v n target cur i e ty hfind hlen m]
        by_cases hm : n = m
        · subst hm
          simp [fieldValue_none_of_not_mem n rest vs hnd.1, hz]
        · have hm2 : ¬ m = n := fun h => hm h.symm
          simp [hm, hm2]

theorem fieldValue_zeroFields {n : String} {e : Bool} {ty : GoType} {fields : FieldList}
    (h : fields.Has n e ty) (hnd : fields.names.Nodup) :
    fieldValue n fields (zeroFields fields) = some (zeroValue ty) := by
  induction fields using fieldList_induct with
  | nil => exact absurd h (by simp [FieldList.Has])
  | cons n0 e0 t0 rest ih =>
    simp only [FieldList.names, List.nodup_cons] at hnd
    simp only [FieldList.Has] at h
    rw [zeroFields]
    rcases h with h | h
    · obtain ⟨rfl, -, rfl⟩ := h
      simp [fieldValue]
    · have hne : ¬ n0 = n := fun heq => hnd.1 (heq ▸ has_mem_names h)
      simp [fieldValue, hne, ih h hnd.2]

theorem zeroFields_length (fields : FieldList) : (zeroFields fields).length = fields.length := by
  induction fields using fieldList_induct with
  | nil => rfl
  | cons n e ty rest ih => rw [zeroFields]; simp [FieldList.length, ih]

/-- A field value of a record belongs to a declared, exported field of its type. -/
theorem fieldValue_record {good : Value → Prop} {fields : FieldList} {vals : List Value}
    (hrec : RecordOf good fields vals) {n : String} {v : Value}
    (h : fieldValue n fields vals = some v) :
    fields.Has n true v.typeOf ∧ good v := by
  induction fields using fieldList_induct generalizing vals with
  | nil => cases vals <;> simp [fieldValue] at h
  | cons n0 e0 t0 rest ih =>
    cases vals with
    | nil => simp [fieldValue] at h
    | cons v0 vs =>
      simp only [RecordOf] at hrec
      simp only [fieldValue] at h
      by_cases hn : n0 = n
      · simp only [hn, if_true, Option.some.injEq] at h
        subst h
        exact ⟨by simp [FieldList.Has, hn, hrec.1, hrec.2.2.2.1], hrec.2.2.1⟩
      · simp only [hn, if_false] at h
        obtain ⟨h1, h2⟩ := ih hrec.2.2.2.2 h
        exact ⟨by simp only [FieldList.Has]; exact Or.inr h1, h2⟩

theorem recordOf_length {good : Value → Prop} {fields : FieldList} {vals : List Value}
    (hrec : RecordOf good fields vals) : vals.length = fields.length := by
  induction fields using fieldList_induct generalizing vals with
  | nil => cases vals <;> simp_all [RecordOf, FieldList.length]
  | cons n0 e0 t0 rest ih =>
    cases vals with
    | nil => simp [RecordOf] at hrec
    | cons v0 vs =>
      simp only [RecordOf] at hrec
      simp [FieldList.length, ih hrec.2.2.2.2]

/-- Two value lists for the same fields, with pairwise different names, are equal when
they agree on every field by name. -/
theorem fieldValue_ext (fields : FieldList) (hnd : fields.names.Nodup) :
    ∀ (v1 v2 : List Value), v1.length = fields.length → v2.length = fields.length →
      (∀ m, fieldValue m fields v1 = fieldValue m fields v2) → v1 = v2 := by
  induction fields using fieldList_induct with
  | nil =>
    intro v1 v2 h1 h2 _
    simp only [FieldList.length, List.length_eq_zero] at h1 h2
    rw [h1, h2]
  | cons n e ty rest ih =>
    intro v1 v2 h1 h2 h
    simp only [FieldList.names, List.nodup_cons] at hnd
    cases v1 with
    | nil => simp [FieldList.length] at h1
    | cons a r1 =>
      cases v2 with
      | nil => simp [FieldList.length] at h2
      | cons b r2 =>
        simp only [List.length_cons, FieldList.length, Nat.add_right_cancel_iff] at h1 h2
        have hab := h n
        simp only [fieldValue, if_true, Option.some.injEq] at hab
        have hr : ∀ m, fieldValue m rest r1 = fieldValue m rest r2 := by
          intro m
          by_cases hm : n = m
          · subst hm
            rw [fieldValue_none_of_not_mem n rest r1 hnd.1,
              fieldValue_none_of_not_mem n rest r2 hnd.1]
          · have := h m
            simpa [fieldValue, hm] using this
        rw [hab, ih hnd.2 r1 r2 h1 h2 hr]


/-- What the decoded record holds, field by field: the value of the encoded record where
that has a field of the name, the zero value elsewhere. -/
theorem applyFields_spec (p : Platform) (regA regB : Registry) (fieldsA fieldsB : FieldList)
    (valsA : List Value) (hrec : RecordOf (Transfers p regA regB) fieldsA valsA)
    (hnamesA : fieldsA.names.Nodup)
    (hsub : ∀ n e ty, fieldsA.Has n e ty → fieldsB.Has n e ty)
    (hndB : fieldsB.names.Nodup) :
    (∀ n v, fieldValue n fieldsA valsA = some v →
      fieldValue n fieldsB (applyFields fieldsB fieldsA valsA (zeroFields fieldsB)) = some v) ∧
    (∀ n, fieldValue n fieldsA valsA = none →
      fieldValue n fieldsB (applyFields fieldsB fieldsA valsA (zeroFields fieldsB)) =
        fieldValue n fieldsB (zeroFields fieldsB)) := by
  have key := fieldValue_applyFields fieldsB hndB fieldsA valsA (zeroFields fieldsB) hnamesA
    hsub (zeroFields_length fieldsB)
  constructor
  · intro n v hv
    rw [key n, hv]
    simp only []
    by_cases hz : v.IsZero = true
    · obtain ⟨hhas, hgood⟩ := fieldValue_record hrec hv
      rw [if_pos hz, fieldValue_zeroFields (hsub _ _ _ hhas) hndB, ← hgood.1 hz]
    · rw [if_neg hz]
  · intro n hn
    rw [key n, hn]

theorem fieldValue_isSome_of_mem (m : String) (fields : FieldList) :
    ∀ vals : List Value, vals.length = fields.length → m ∈ fields.names →
      ∃ v, fieldValue m fields vals = some v := by
  induction fields using fieldList_induct with
  | nil => intro vals _ h; simp [FieldList.names] at h
  | cons n e ty rest ih =>
    intro vals hl h
    cases vals with
    | nil => simp [FieldList.length] at hl
    | cons v vs =>
      simp only [List.length_cons, FieldList.length, Nat.add_right_cancel_iff] at hl
      simp only [FieldList.names, List.mem_cons] at h
      by_cases hn : n = m
      · exact ⟨v, by simp [fieldValue, hn]⟩
      · rcases h with h | h
        · exact absurd h.symm hn
        · obtain ⟨w, hw⟩ := ih vs hl h
          exact ⟨w, by simp [fieldValue, hn, hw]⟩

/-- The round trip of a record whose field values all pass from the encoder to the
decoder. -/
theorem Decode_Encode_same_record (p : Platform) (reg : Registry) (name : String)
    (fields : FieldList) (vals : List Value) (id : Nat)
    (hreg : reg.Holds name fields id) (hid : 18 ≤ id) (hid2 : id < 65536)
    (hrec : RecordOf (Transfers p reg reg) fields vals)
    (hhash : (fields.names.map nameHash).Nodup)
    (hcount : nonZeroCount vals ≤ 65535) :
    ∃ bytes, Encode p reg (.struct name fields vals) = .ok bytes ∧
      Decode p reg bytes = .ok (some (.struct name fields vals)) := by
  obtain ⟨bytes, h1, h2⟩ := Decode_Encode_record p reg reg name name fields fields vals
    id hreg.1 hreg hid hid2 hrec (fun _ _ _ h => h) hhash hcount
  have hnd : fields.names.Nodup := List.Nodup.of_map _ hhash
  obtain ⟨s1, s2⟩ := applyFields_spec p reg reg fields fields vals hrec hnd (fun _ _ _ h => h) hnd
  have heq : applyFields fields fields vals (zeroFields fields) = vals := by
    apply fieldValue_ext fields hnd
    · rw [applyFields_length, zeroFields_length]
    · exact recordOf_length hrec
    · intro m
      cases hv : fieldValue m fields vals with
      | some v => exact s1 m v hv
      | none =>
        rw [s2 m hv]
        have hm : m ∉ fields.names := by
          intro hmem
          obtain ⟨w, hw⟩ := fieldValue_isSome_of_mem m fields vals (recordOf_length hrec) hmem
          rw [hv] at hw
          cases hw
        exact fieldValue_none_of_not_mem m fields _ hm
  rw [heq] at h2
  exact ⟨bytes, h1, h2⟩

/-- A string whose length is a multiple of 65536 is written with the length 0 in front of
its bytes; the string branch of the switch then reads the empty string. -/
theorem decodeSwitch_string_wrapped (p : Platform) (reg : Registry)
    (recur : Buffer → List TypeId → TypeId → Decoded) (b : Buffer) (tids : List TypeId)
    (n : Nat) (rest : List Byte) (hn : n % 65536 = 0) (hb : b.At (leBytes 2 n ++ rest)) :
    decodeSwitch p reg recur b tids TypeIdString = .ok (some (.string []), b.skip 2) := by
  have h1 := hb.readLE 2 n
  have h2 : n % 256 ^ 2 = 0 := hn
  rw [h2] at h1
  have hb2 : (b.skip 2).At ([] ++ rest) := hb.skipLE 2 _
  have h3 := hb2.ReadBytes
  simp only [List.length_nil] at h3
  simp [decodeSwitch, TypeIdBool, TypeIdInt, TypeIdInt8, TypeIdInt16, TypeIdInt32,
    TypeIdInt64, TypeIdUint, TypeIdUint8, TypeIdUint16, TypeIdUint32, TypeIdUint64,
    TypeIdFloat32, TypeIdFloat64, TypeIdString, Buffer.ReadUint16, h1, h3, Buffer.skip_zero]

theorem Decode_def (p : Platform) (reg : Registry) (b : List Byte) :
    Decode p reg b =
      match decodeInternal p reg (b.length + 1) (BufferFromBytes b) [] TypeIdUnknown with
      | .error e => .error e
      | .ok (value, _) => .ok value := rfl

/-- One turn of the field loop of `decodeInternal`, for a hash that has a name, a field
value that is decoded, and an assignment that succeeds. -/
theorem decodeFields_step (p : Platform) (reg : Registry) (decodeField : Buffer → Decoded)
    (typeId : TypeId) (n h : Nat) (buf buf1 buf2 : Buffer) (created created2 field : Value)
    (name : String) (hread : buf.ReadUint32 = some (h, buf1))
    (hname : reg.hashName typeId h = name) (hne : name ≠ "")
    (hfield : decodeField buf1 = .ok (some field, buf2))
    (hassign : assignField p created name field = .ok created2) :
    decodeFields p reg decodeField typeId (n + 1) buf created =
      decodeFields p reg decodeField typeId n buf2 created2 := by
  rw [decodeFields]
  simp only [hread, hname, if_neg hne, hfield, hassign]

/-- A record with one exported string field whose text has 65536 bytes is written with
the length field `00 00`, and is decoded to the record with the empty text. -/
theorem Decode_Encode_long_text (p : Platform) (reg : Registry) (name fname : String)
    (id : Nat) (s : List Byte)
    (hid : reg.typeToTypeIdMapping (.struct name (.cons fname true .string .nil)) = some id)
    (htype : reg.typeIdToTypeMapping id = some (.struct name (.cons fname true .string .nil)))
    (hname : reg.hashName id (nameHash fname) = fname) (hne : fname ≠ "")
    (h18 : 18 ≤ id) (hlt : id < 65536) (hs : s.length = 65536) :
    ∃ bytes,
      Encode p reg (.struct name (.cons fname true .string .nil) [.string s]) = .ok bytes ∧
      Decode p reg bytes =
        .ok (some (.struct name (.cons fname true .string .nil) [.string []])) := by
  have hE : encBytes p reg false (.struct name (.cons fname true .string .nil) [.string s])
      true = .ok (leBytes 2 id ++ (leBytes 2 1 ++ (leBytes 4 (nameHash fname) ++
        (leBytes 2 17 ++ (leBytes 2 s.length ++ s))))) := by
    have hz : (Value.string s).IsZero = false := by
      cases s with
      | nil => simp at hs
      | cons x xs => rfl
    simp [encBytes, encFields, hz, headerBytes, hid, typeTag, TypeIdString]
  refine ⟨_, by rw [Encode_eq, hE], ?_⟩
  generalize hbytes : leBytes 2 id ++ (leBytes 2 1 ++ (leBytes 4 (nameHash fname) ++
    (leBytes 2 17 ++ (leBytes 2 s.length ++ s)))) = bytes
  have hb : (BufferFromBytes bytes).At (leBytes 2 id ++ (leBytes 2 1 ++
      (leBytes 4 (nameHash fname) ++ (leBytes 2 17 ++ (leBytes 2 s.length ++ s))))) := by
    rw [hbytes]; exact Buffer.At.start _
  have hb2 := hb.skipLE 2 _
  have hread := hb2.readUnsigned 2 1 (by decide)
  have hb3 := hb2.skipLE 2 _
  have hhash := hb3.readUnsigned 4 (nameHash fname) (nameHash_lt _)
  have hb4 := hb3.skipLE 4 _
  obtain ⟨f, hf⟩ : ∃ f, bytes.length = f + 1 := by
    refine ⟨bytes.length - 1, ?_⟩
    have : 4 ≤ bytes.length := by
      rw [← hbytes]; simp only [List.length_append, leBytes_length]; omega
    omega
  have hfield : decodeInternal p reg bytes.length
      ((((BufferFromBytes bytes).skip 2).skip 2).skip 4) [] TypeIdUnknown =
      .ok (some (.string []), (((((BufferFromBytes bytes).skip 2).skip 2).skip 4).skip 2).skip 2) := by
    rw [hf, decodeInternal_header p reg f _ [] 17 _ (by decide) hb4]
    exact decodeSwitch_string_wrapped p reg _ _ [] s.length s (by rw [hs]) (hb4.skipLE 2 _)
  have hassign : assignField p (.struct name (.cons fname true .string .nil) [.string []])
      fname (.string []) = .ok (.struct name (.cons fname true .string .nil) [.string []]) :=
    assignField_same p name _ [.string []] fname (.string []) 0
      (by simp [FieldList.find, Value.typeOf]) rfl
  have hzero : zeroValue (.struct name (.cons fname true .string .nil)) =
      .struct name (.cons fname true .string .nil) [.string []] := rfl
  rw [Decode_def, decodeInternal_header p reg bytes.length _ [] id _ hlt hb,
    decodeSwitch_record p reg _ _ [] id h18]
  simp only [htype, Buffer.ReadUint16, hread, hzero]
  rw [decodeFields_step p reg _ id 0 (nameHash fname) _ _ _ _ _ _ fname
    hhash hname hne hfield hassign]
  rfl

/-- The encoding of a record whose type is registered: the id, the two low-order bytes of
the number of written fields, and the written fields. -/
theorem Encode_record_eq (p : Platform) (reg : Registry) (name : String)
    (fields : FieldList) (vals : List Value) (id : Nat)
    (hid : reg.typeToTypeIdMapping (.struct name fields) = some id) :
    Encode p reg (.struct name fields vals) =
      match writtenFields p reg fields vals with
      | .error e => .error e
      | .ok entries =>
        .ok (leBytes 2 id ++ (leBytes 2 entries.length ++ entries.flatten)) := by
  rw [Encode_eq]
  simp only [encBytes, encFields_eq_written]
  cases writtenFields p reg fields vals <;> simp [headerBytes, typeTag, hid]

/-- No field of a record whose fields are all zero is written. -/
theorem writtenFields_allZero (p : Platform) (reg : Registry) (fields : FieldList)
    (vals : List Value) (hz : allZero vals = true) :
    writtenFields p reg fields vals = .ok [] := by
  induction fields using fieldList_induct generalizing vals with
  | nil => cases vals <;> rfl
  | cons n e t rest ih =>
    cases vals with
    | nil => rfl
    | cons v vals =>
      simp only [allZero, Bool.and_eq_true] at hz
      simp [writtenFields, hz.1, ih vals hz.2]

/-- The registry of the record type with `n` bool fields holds the type under id 50. -/
theorem manyRegistry_id (n : Nat) :
    (manyRegistry n).typeToTypeIdMapping (.struct "Many" (manyFields n)) = some 50 := by
  simp [manyRegistry, RegisterType, Many, Value.typeOf]

/-- Every field of the record with `n` fields `true` is written, in seven bytes. -/
theorem writtenFields_many (p : Platform) (reg : Registry) (n : Nat) :
    ∃ entries, writtenFields p reg (manyFields n) (List.replicate n (.bool true)) =
        .ok entries ∧ entries.length = n ∧ entries.flatten.length = 7 * n := by
  induction n with
  | zero => exact ⟨[], rfl, rfl, rfl⟩
  | succ n ih =>
    obtain ⟨entries, h1, h2, h3⟩ := ih
    have he : Encode p reg (.bool true) = .ok [1, 0, 1] := by
      rw [Encode_eq]
      simp only [encBytes, headerBytes, typeTag, TypeIdBool, if_true]
      exact congrArg Except.ok (by decide)
    refine ⟨(leBytes 4 (nameHash ("F" ++ toString n)) ++ [1, 0, 1]) :: entries, ?_, ?_, ?_⟩
    · simp [manyFields, List.replicate_succ, writtenFields, Value.IsZero, he, h1]
    · simp [h2]
    · simp [h3, leBytes_length]; omega

/-- The decoder on the stream of a platform `int` with a width selector: the tag 2, the
width, the value in that width.  The result is the value converted to the `int` of the
decoding platform. -/
theorem Decode_int_selector (p : Platform) (reg : Registry) (w : Nat)
    (hw : w = 1 ∨ w = 2 ∨ w = 4 ∨ w = 8) (v : Int)
    (h1 : -(2 : Int) ^ (8 * w - 1) ≤ v) (h2 : v < (2 : Int) ^ (8 * w - 1)) :
    Decode p reg (leBytes 2 2 ++ (leBytes 1 w ++ leBytes w (twosComplement w v))) =
      .ok (some (.int .int (wrapSigned p.intSize v))) := by
  have hw0 : 0 < w := by omega
  have hw1 : w < 256 := by omega
  have hb := Buffer.At.start (leBytes 2 2 ++ (leBytes 1 w ++
    leBytes w (twosComplement w v)))
  have hb2 := hb.skipLE 2 _
  have hsel := hb2.readUnsigned 1 w (by simpa using hw1)
  have hb3 := hb2.skipLE 1 _
  have hval := @Buffer.At.readSigned _ [] w v hw0 h1 h2
    (by rw [List.append_nil]; exact hb3)
  unfold Decode
  rw [decodeInternal_header p reg _ _ [] 2 _ (by decide) hb]
  simp [decodeSwitch, TypeIdBool, TypeIdInt, decodeInt, Buffer.ReadUint8, hsel, hw, hval]

/-- The decoder on the stream of a platform `uint` with a width selector. -/
theorem Decode_uint_selector (p : Platform) (reg : Registry) (w : Nat)
    (hw : w = 1 ∨ w = 2 ∨ w = 4 ∨ w = 8) (u : Nat) (hu : u < 2 ^ (8 * w)) :
    Decode p reg (leBytes 2 7 ++ (leBytes 1 w ++ leBytes w u)) =
      .ok (some (.uint .uint (wrapUnsigned p.intSize (u : Int)))) := by
  have hw1 : w < 256 := by omega
  have hb := Buffer.At.start (leBytes 2 7 ++ (leBytes 1 w ++ leBytes w u))
  have hb2 := hb.skipLE 2 _
  have hsel := hb2.readUnsigned 1 w (by simpa using hw1)
  have hb3 := hb2.skipLE 1 _
  have hval := @Buffer.At.readUnsigned _ [] w u hu
    (by rw [List.append_nil]; exact hb3)
  unfold Decode
  rw [decodeInternal_header p reg _ _ [] 7 _ (by decide) hb]
  simp [decodeSwitch, TypeIdBool, TypeIdInt, TypeIdInt8, TypeIdInt16, TypeIdInt32,
    TypeIdInt64, TypeIdUint, decodeUint, Buffer.ReadUint8, hsel, hw, hval]

/-- A nested container written with its header is read back by `decodeInternal` entered
without a type id, whatever follows it in the buffer. -/
theorem decodeInternal_nested_top (p : Platform) (reg : Registry) (c : Value)
    (hc : c.IsNested p) (hd : c.typeOf.depth ≤ 65535) (enc rest : List Byte)
    (henc : encBytes p reg false c true = .ok enc) (fuel : Nat) (hfuel : enc.length ≤ fuel)
    (b : Buffer) (hb : b.At (enc ++ rest)) :
    decodeInternal p reg fuel b [] TypeIdUnknown = .ok (some c, b.skip enc.length) := by
  have hfacts := nested_type_facts p reg c (Or.inr hc)
  obtain ⟨elem, items, tid, hcv⟩ : ∃ elem items tid,
      (tid = TypeIdArray ∨ tid = TypeIdSlice) ∧ typeTag reg c.typeOf = tid ∧
      c.typeOf.Elem = elem ∧ c.typeOf.depth = elem.depth + 1 ∧
      elemTypes c.typeOf = c.typeOf :: elemTypes elem ∧
      (c = .array elem items ∨ c = .slice elem items) ∧
      c = (if tid = TypeIdArray then .array elem items else .slice elem items) := by
    cases c with
    | array e its => exact ⟨e, its, TypeIdArray, Or.inl rfl, rfl, rfl, rfl, rfl, Or.inl rfl, rfl⟩
    | slice e its => exact ⟨e, its, TypeIdSlice, Or.inr rfl, rfl, rfl, rfl, rfl, Or.inr rfl, rfl⟩
    | _ => simp [Value.IsNested] at hc
  obtain ⟨htid, htag, helem, hdepth, hET, hshape, hceq⟩ := hcv
  have hnest : items ≠ [] ∧ items.length ≤ 65535 ∧ AreNested p elem items := by
    rcases hshape with rfl | rfl <;> exact hc
  obtain ⟨hne, hlen, hitemsN⟩ := hnest
  have hlenT : (elemTypes elem).length = elem.depth + 1 := by
    have := hfacts.1
    rw [hET, hdepth] at this
    simpa using this
  have htags : ∀ t ∈ elemTypes elem, typeTag reg t < 65536 := by
    intro t ht
    have := hfacts.2 t (by rw [hET]; exact List.mem_cons_of_mem _ ht)
    omega
  obtain ⟨enc0, henc0⟩ := encBytes_nested_ok p reg c (Or.inr hc)
  obtain ⟨body, hbody, rfl⟩ := encBytes_container_inv p reg c elem items hshape enc0 henc0
  have henc2 : encBytes p reg false c true =
      .ok (leBytes 2 tid ++ (leBytes 2 items.length ++
        (leBytes 2 (elemTypes elem).length ++ (tagListBytes reg (elemTypes elem) ++
          body)))) := by
    rcases hshape with rfl | rfl <;>
      simp [encBytes, hbody, headerBytes, lengthBytes, ← htag, Value.typeOf]
  rw [henc2] at henc
  simp only [Except.ok.injEq] at henc
  subst henc
  simp only [List.length_append, leBytes_length, tagListBytes_length, hlenT] at hfuel
  obtain ⟨f, rfl⟩ : ∃ f, fuel = f + 1 := ⟨fuel - 1, by omega⟩
  simp only [List.append_assoc] at hb
  have hb2 := hb.skipLE 2 _
  have hb5 := ((hb2.skipLE 2 _).skipLE 2 _).skip
  have hX : (((b.skip 2).skip 2).skip 2).skip (tagListBytes reg (elemTypes elem)).length =
      (b.skip 2).skip (4 + 2 * (elemTypes elem).length) := by
    simp only [Buffer.skip, tagListBytes_length, Buffer.mk.injEq, true_and]
    omega
  rw [hX] at hb5
  have hitems := decodeItems_nested p reg items elem hitemsN f _ body rest (by omega) hbody
    hb5
  have hsw := decodeSwitch_outer p reg (decodeInternal p reg f) tid htid elem items
    hne hlen (areNested_withType hitemsN) (elemTypes elem) (by omega) htags _ body rest hb2
    hitems
  rw [decodeInternal_header p reg f _ [] tid _
    (by rcases htid with h | h <;> simp [h, TypeIdArray, TypeIdSlice]) hb, hsw, ← hceq]
  simp only [Buffer.skip, List.length_append, leBytes_length, tagListBytes_length,
    Buffer.mk.injEq, true_and, Except.ok.injEq, Prod.mk.injEq]
  omega

mutual
/-- The header-less encoding of a nested container does not depend on the registry. -/
theorem encBytes_nested_reg (p : Platform) (reg1 reg2 : Registry) :
    ∀ v : Value, v.IsFixedInt p ∨ v.IsNested p →
      encBytes p reg1 false v false = encBytes p reg2 false v false
  | .array elem items, h => by
    have hn : AreNested p elem items := by
      rcases h with h | h
      · exact absurd h (by simp [Value.IsFixedInt])
      · exact h.2.2
    simp only [encBytes, encItems_nested_reg p reg1 reg2 items elem hn, headerBytes,
      lengthBytes]
    rfl
  | .slice elem items, h => by
    have hn : AreNested p elem items := by
      rcases h with h | h
      · exact absurd h (by simp [Value.IsFixedInt])
      · exact h.2.2
    simp only [encBytes, encItems_nested_reg p reg1 reg2 items elem hn, headerBytes,
      lengthBytes]
    rfl
  | .int k x, h => by simp [encBytes, headerBytes]
  | .uint k x, h => by simp [encBytes, headerBytes]
  | .bool _, h => by simp [Value.IsNested, Value.IsFixedInt] at h
  | .string _, h => by simp [Value.IsNested, Value.IsFixedInt] at h
  | .nilSlice _, h => by simp [Value.IsNested, Value.IsFixedInt] at h
  | .map _ _ _, h => by simp [Value.IsNested, Value.IsFixedInt] at h
  | .nilMap _ _, h => by simp [Value.IsNested, Value.IsFixedInt] at h
  | .ptr _ _, h => by simp [Value.IsNested, Value.IsFixedInt] at h
  | .nilPtr _, h => by simp [Value.IsNested, Value.IsFixedInt] at h
  | .struct _ _ _, h => by simp [Value.IsNested, Value.IsFixedInt] at h
theorem encItems_nested_reg (p : Platform) (reg1 reg2 : Registry) :
    ∀ (items : List Value) (elem : GoType), AreNested p elem items →
      encItems p reg1 items = encItems p reg2 items
  | [], _, _ => rfl
  | x :: xs, elem, h => by
    simp only [AreNested] at h
    simp only [encItems, encBytes_nested_reg p reg1 reg2 x h.2.1,
      encItems_nested_reg p reg1 reg2 xs elem h.2.2]
end

/-- The tags of the element types of a nested container do not depend on the registry. -/
theorem nested_tags_reg (p : Platform) (reg1 reg2 : Registry) :
    ∀ v : Value, v.IsFixedInt p ∨ v.IsNested p →
      tagListBytes reg1 (elemTypes v.typeOf) = tagListBytes reg2 (elemTypes v.typeOf)
  | .array elem [], h => by simp [Value.IsNested, Value.IsFixedInt] at h
  | .slice elem [], h => by simp [Value.IsNested, Value.IsFixedInt] at h
  | .array elem (x :: xs), h => by
    have hn : AreNested p elem (x :: xs) := by
      rcases h with h | h
      · exact absurd h (by simp [Value.IsFixedInt])
      · exact h.2.2
    simp only [AreNested] at hn
    have ih := nested_tags_reg p reg1 reg2 x hn.2.1
    rw [hn.1] at ih
    simp only [Value.typeOf, elemTypes, tagListBytes, ih, typeTag]
  | .slice elem (x :: xs), h => by
    have hn : AreNested p elem (x :: xs) := by
      rcases h with h | h
      · exact absurd h (by simp [Value.IsFixedInt])
      · exact h.2.2
    simp only [AreNested] at hn
    have ih := nested_tags_reg p reg1 reg2 x hn.2.1
    rw [hn.1] at ih
    simp only [Value.typeOf, elemTypes, tagListBytes, ih, typeTag]
  | .int k x, h => by cases k <;> rfl
  | .uint k x, h => by cases k <;> rfl
  | .bool _, h => by simp [Value.IsNested, Value.IsFixedInt] at h
  | .string _, h => by simp [Value.IsNested, Value.IsFixedInt] at h
  | .nilSlice _, h => by simp [Value.IsNested, Value.IsFixedInt] at h
  | .map _ _ _, h => by simp [Value.IsNested, Value.IsFixedInt] at h
  | .nilMap _ _, h => by simp [Value.IsNested, Value.IsFixedInt] at h
  | .ptr _ _, h => by simp [Value.IsNested, Value.IsFixedInt] at h
  | .nilPtr _, h => by simp [Value.IsNested, Value.IsFixedInt] at h
  | .struct _ _ _, h => by simp [Value.IsNested, Value.IsFixedInt] at h

/-- The encoding of a nested container with its header does not depend on the registry. -/
theorem encBytes_nested_top_reg (p : Platform) (reg1 reg2 : Registry) (v : Value)
    (hv : v.IsNested p) :
    encBytes p reg1 false v true = encBytes p reg2 false v true := by
  have ht := nested_tags_reg p reg1 reg2 v (Or.inr hv)
  cases v with
  | array elem items =>
    simp only [Value.typeOf, elemTypes, tagListBytes, typeTag, List.cons.injEq] at ht
    simp only [encBytes, encItems_nested_reg p reg1 reg2 items elem hv.2.2, headerBytes,
      lengthBytes, typeTag, if_true, List.append_cancel_left_eq] at ht ⊢
    rw [ht]
  | slice elem items =>
    simp only [Value.typeOf, elemTypes, tagListBytes, typeTag, List.cons.injEq] at ht
    simp only [encBytes, encItems_nested_reg p reg1 reg2 items elem hv.2.2, headerBytes,
      lengthBytes, typeTag, if_true, List.append_cancel_left_eq] at ht ⊢
    rw [ht]
  | _ => simp [Value.IsNested] at hv

/-- A nested slice whose depth fits the tag list passes from the encoder to the decoder. -/
theorem transfers_of_slice (p : Platform) (regA regB : Registry) (elem : GoType)
    (items : List Value) (hv : (Value.slice elem items).IsNested p)
    (hd : elem.depth < 65535) : Transfers p regA regB (.slice elem items) := by
  refine ⟨fun hz => by simp [Value.IsZero] at hz, fun _ => ⟨withType_of_nested hv _, ?_⟩⟩
  obtain ⟨tid, e2, its, body, -, -, -, -, -, h1⟩ := encBytes_nested_shape p regA _ hv
  refine ⟨_, by rw [Encode_eq, h1], ?_⟩
  intro fuel b rest hfuel hb
  have h1B := h1
  rw [encBytes_nested_top_reg p regA regB _ hv] at h1B
  exact decodeInternal_nested_top p regB _ hv
    (by simp only [Value.typeOf, GoType.depth]; omega) _ rest h1B fuel hfuel b hb

/-- The field loop of the decoder, run on the written fields of a record whose field names
all have their hash in the map of the id, hands each written value to `assignField` under
its name. -/
theorem decodeFields_assign (p : Platform) (regA regB : Registry) (t : Nat)
    (names : Nat → Option String)
    (hmap : regB.typeIdHashNameMapping t = some names) (fuel : Nat) (fieldsA : FieldList) :
    ∀ (valsA : List Value), RecordOf (Transfers p regA regB) fieldsA valsA →
      (∀ n ∈ fieldsA.names, names (nameHash n) = some n) →
      ∀ (created : Value) (b : Buffer) (bs rest : List Byte) (k : Nat),
      encFields p regA fieldsA valsA = .ok (bs, k) → bs.length ≤ fuel → b.At (bs ++ rest) →
      decodeFields p regB (fun buf => decodeInternal p regB fuel buf [] TypeIdUnknown)
          t k b created =
        match assignWritten p created fieldsA valsA with
        | .error e => .error e
        | .ok c => .ok (c, b.skip bs.length) := by
  induction fieldsA using fieldList_induct with
  | nil =>
    intro valsA hrec _ created b bs rest k henc _ _
    cases valsA with
    | nil =>
      simp only [encFields, Except.ok.injEq, Prod.mk.injEq] at henc
      obtain ⟨rfl, rfl⟩ := henc
      simp [decodeFields, assignWritten, Buffer.skip_zero]
    | cons v vs => simp [RecordOf] at hrec
  | cons n e ty restA ih =>
    intro valsA hrec hP created b bs rest k henc hfuel hb
    cases valsA with
    | nil => simp [RecordOf] at hrec
    | cons v vals =>
      simp only [RecordOf] at hrec
      obtain ⟨he, hn, hv, hty, hrest⟩ := hrec
      subst he
      have hP2 : ∀ m ∈ restA.names, names (nameHash m) = some m :=
        fun m hm => hP m (by simp only [FieldList.names, List.mem_cons]; exact Or.inr hm)
      by_cases hz : v.IsZero = true
      · simp only [encFields, hz, if_true] at henc
        simp only [assignWritten, hz, if_true]
        exact ih vals hrest hP2 created b bs rest k henc hfuel hb
      · simp only [Bool.not_eq_true] at hz
        obtain ⟨hw, enc, h1, hdecode⟩ := hv.2 hz
        rw [Encode_eq] at h1
        simp only [encFields, hz, Bool.false_eq_true, if_false, Bool.not_true, h1] at henc
        cases hr : encFields p regA restA vals with
        | error err => simp [hr] at henc
        | ok r =>
          obtain ⟨bs2, k2⟩ := r
          simp only [hr, Except.ok.injEq, Prod.mk.injEq] at henc
          obtain ⟨rfl, rfl⟩ := henc
          simp only [List.length_append, leBytes_length] at hfuel
          simp only [List.append_assoc] at hb
          have hread := hb.readUnsigned 4 (nameHash n) (nameHash_lt n)
          have hb2 := hb.skipLE 4 _
          have hdec := hdecode fuel (b.skip 4) (bs2 ++ rest) (by omega) hb2
          have hname : regB.hashName t (nameHash n) = n := by
            simp [Registry.hashName, hmap, hP n (by simp [FieldList.names])]
          simp only [decodeFields, Buffer.ReadUint32, hread, hname, hn, if_false, hdec,
            assignWritten, hz, Bool.false_eq_true]
          cases ha : assignField p created n v with
          | error err => rfl
          | ok c =>
            have hrec2 := ih vals hrest hP2 c _ bs2 rest k2 hr (by omega) hb2.skip
            simp only [hrec2]
            cases assignWritten p c restA vals with
            | error err => rfl
            | ok c2 =>
              simp only [Buffer.skip, List.length_append, leBytes_length, Nat.add_assoc]

theorem has_of_find {name : String} {fields : FieldList} {i : Nat} {e : Bool} {ty : GoType}
    (h : fields.find name = some (i, e, ty)) : fields.Has name e ty := by
  induction fields using fieldList_induct generalizing i with
  | nil => simp [FieldList.find] at h
  | cons n0 e0 t0 rest ih =>
    simp only [FieldList.find] at h
    simp only [FieldList.Has]
    by_cases hn : n0 = name
    · simp only [hn, if_true, Option.some.injEq, Prod.mk.injEq] at h
      exact Or.inl ⟨hn, h.2.1, h.2.2⟩
    · simp only [hn, if_false] at h
      cases hr : rest.find name with
      | none => simp [hr] at h
      | some r =>
        obtain ⟨j, e2, t2⟩ := r
        simp only [hr, Option.some.injEq, Prod.mk.injEq] at h
        obtain ⟨-, rfl, rfl⟩ := h
        exact Or.inr (ih hr)

/-- What the assignments of the written fields leave, when every field lands: a record of
the destination type that holds, in each field the source declares, the value that field
leaves, and elsewhere what it held before. -/
theorem assignWritten_lands (p : Platform) (nameB : String) (fieldsB : FieldList)
    (fieldsA : FieldList) :
    ∀ (valsA rs cur : List Value), fieldsA.names.Nodup → cur.length = fieldsB.length →
      LandsAll p fieldsB fieldsA valsA rs →
      (∀ n ∈ fieldsA.names, ∀ e ty, fieldsB.Has n e ty →
        fieldValue n fieldsB cur = some (zeroValue ty)) →
      ∃ valsB, assignWritten p (.struct nameB fieldsB cur) fieldsA valsA =
          .ok (.struct nameB fieldsB valsB) ∧ valsB.length = fieldsB.length ∧
        ∀ m, fieldValue m fieldsB valsB =
          match fieldValue m fieldsA rs with
          | some r => some r
          | none => fieldValue m fieldsB cur := by
  induction fieldsA using fieldList_induct with
  | nil =>
    intro valsA rs cur _ hlen hl _
    refine ⟨cur, ?_, hlen, fun m => ?_⟩
    · cases valsA <;> rfl
    · cases rs <;> rfl
  | cons n e ty rest ih =>
    intro valsA rs cur hnd hlen hl hzero
    simp only [FieldList.names, List.nodup_cons] at hnd
    cases valsA with
    | nil => cases rs <;> simp [LandsAll] at hl
    | cons v vals =>
      cases rs with
      | nil => simp [LandsAll] at hl
      | cons r rs =>
        simp only [LandsAll] at hl
        obtain ⟨⟨eB, tyB, hhas, hzr⟩, hland, hrest⟩ := hl
        have hzero2 : ∀ m ∈ rest.names, ∀ e ty, fieldsB.Has m e ty →
            fieldValue m fieldsB cur = some (zeroValue ty) :=
          fun m hm => hzero m (by simp only [FieldList.names, List.mem_cons]; exact Or.inr hm)
        have hn0 := hzero n (by simp [FieldList.names])
        by_cases hz : v.IsZero = true
        · obtain ⟨valsB, h1, h2, h3⟩ := ih vals rs cur hnd.2 hlen hrest hzero2
          refine ⟨valsB, by simp only [assignWritten, hz, if_true]; exact h1, h2, fun m => ?_⟩
          rw [h3 m]
          by_cases hm : n = m
          · subst hm
            simp [fieldValue, fieldValue_none_of_not_mem n rest rs hnd.1, hzr hz,
              hn0 eB tyB hhas]
          · simp [fieldValue, hm]
        · simp only [Bool.not_eq_true] at hz
          obtain ⟨i, e2, ty2, hfind, hassign⟩ := hland hz
          have ha := hassign nameB cur hlen (hn0 e2 ty2 (has_of_find hfind))
          have hzero3 : ∀ m ∈ rest.names, ∀ e ty, fieldsB.Has m e ty →
              fieldValue m fieldsB (cur.set i r) = some (zeroValue ty) := by
            intro m hm e3 ty3 h3
            rw [fieldValue_set_find r n fieldsB cur i e2 ty2 hfind hlen m]
            have hne : ¬ m = n := fun heq => hnd.1 (heq ▸ hm)
            simp only [hne, if_false]
            exact hzero2 m hm e3 ty3 h3
          obtain ⟨valsB, h1, h2, h3⟩ := ih vals rs (cur.set i r) hnd.2 (by simpa using hlen)
            hrest hzero3
          refine ⟨valsB, ?_, h2, fun m => ?_⟩
          · simp only [assignWritten, hz, Bool.false_eq_true, if_false, ha]
            exact h1
          · rw [h3 m, fieldValue_set_find r n fieldsB cur i e2 ty2 hfind hlen m]
            by_cases hm : n = m
            · subst hm
              simp [fieldValue, fieldValue_none_of_not_mem n rest rs hnd.1]
            · have hm2 : ¬ m = n := fun h => hm h.symm
              simp [fieldValue, hm, hm2]

/-- A record encoded under one registry and decoded under another that holds, for the same
id, a struct type declaring all its field names: the decoder returns what the assignments
of the written fields, in the order written, make of the zero value of that type. -/
theorem Decode_Encode_assign (p : Platform) (regA regB : Registry) (nameA nameB : String)
    (fieldsA fieldsB : FieldList) (valsA : List Value) (t : Nat)
    (hA : regA.typeToTypeIdMapping (.struct nameA fieldsA) = some t)
    (hB : regB.Holds nameB fieldsB t) (ht : 18 ≤ t) (ht2 : t < 65536)
    (hrec : RecordOf (Transfers p regA regB) fieldsA valsA)
    (hnames : ∀ n ∈ fieldsA.names, n ∈ fieldsB.names)
    (hhash : (fieldsB.names.map nameHash).Nodup)
    (hcount : nonZeroCount valsA ≤ 65535) :
    ∃ bytes, Encode p regA (.struct nameA fieldsA valsA) = .ok bytes ∧
      Decode p regB bytes =
        match assignWritten p (.struct nameB fieldsB (zeroFields fieldsB)) fieldsA valsA with
        | .error e => .error e
        | .ok c => .ok (some c) := by
  obtain ⟨bs, k, henc, hk⟩ := encFields_record_ok p regA regB fieldsA valsA hrec
  have hE : encBytes p regA false (.struct nameA fieldsA valsA) true =
      .ok (leBytes 2 t ++ (leBytes 2 k ++ bs)) := by
    simp [encBytes, henc, headerBytes, typeTag, hA]
  refine ⟨_, by rw [Encode_eq, hE], ?_⟩
  obtain ⟨-, hB2, hB3⟩ := hB
  have hP := (registerFields_hashName fieldsB (fun _ => none, fun _ => none) hhash).1
  generalize hbytes : leBytes 2 t ++ (leBytes 2 k ++ bs) = bytes
  have hb : (BufferFromBytes bytes).At (leBytes 2 t ++ (leBytes 2 k ++ (bs ++ []))) := by
    rw [List.append_nil, hbytes]; exact Buffer.At.start _
  have hb2 := hb.skipLE 2 _
  have hread := hb2.readUnsigned 2 k (by omega)
  have hb3 := hb2.skipLE 2 _
  have hlen : bs.length ≤ bytes.length := by
    rw [← hbytes]; simp only [List.length_append]; omega
  have hfields := decodeFields_assign p regA regB t _ hB3 bytes.length fieldsA valsA hrec
    (fun n hn => hP n (hnames n hn)) (.struct nameB fieldsB (zeroFields fieldsB)) _ bs [] k
    henc hlen hb3
  unfold Decode
  rw [decodeInternal_header p regB bytes.length _ [] t _ ht2 hb,
    decodeSwitch_record p regB _ _ [] t ht]
  simp only [hB2, Buffer.ReadUint16, hread, zeroValue_struct, hfields]
  cases assignWritten p (.struct nameB fieldsB (zeroFields fieldsB)) fieldsA valsA <;> rfl

theorem fieldValue_find {name : String} {fields : FieldList} {i : Nat} {e : Bool}
    {ty : GoType} (h : fields.find name = some (i, e, ty)) :
    ∀ cur : List Value, fieldValue name fields cur = cur[i]? := by
  induction fields using fieldList_induct generalizing i with
  | nil => simp [FieldList.find] at h
  | cons n0 e0 t0 rest ih =>
    intro cur
    simp only [FieldList.find] at h
    by_cases hn : n0 = name
    · simp only [hn, if_true, Option.some.injEq, Prod.mk.injEq] at h
      obtain ⟨rfl, -, -⟩ := h
      cases cur <;> simp [fieldValue, hn]
    · simp only [hn, if_false] at h
      cases hr : rest.find name with
      | none => simp [hr] at h
      | some r =>
        obtain ⟨j, e2, t2⟩ := r
        simp only [hr, Option.some.injEq, Prod.mk.injEq] at h
        obtain ⟨rfl, rfl, rfl⟩ := h
        cases cur with
        | nil => simp [fieldValue]
        | cons c cs => simp [fieldValue, hn, ih hr cs]

theorem set_of_getElem? {cur : List Value} {i : Nat} {z : Value} (h : cur[i]? = some z) :
    cur.set i z = cur := by
  induction cur generalizing i with
  | nil => rfl
  | cons c cs ih =>
    cases i with
    | zero =>
      simp only [List.getElem?_cons_zero, Option.some.injEq] at h
      simp [h]
    | succ j =>
      simp only [List.getElem?_cons_succ] at h
      simp [ih h]

/-- A value whose type is the type of the field is assigned as it is. -/
theorem lands_same (p : Platform) (fields : FieldList) (name : String) (v : Value) (i : Nat)
    (hf : fields.find name = some (i, true, v.typeOf)) (hw : v.withType v.typeOf = v) :
    Lands p fields name v v :=
  ⟨i, true, v.typeOf, hf, fun sname cur _ _ => assignField_same p sname fields cur name v i hf hw⟩

/-- An int32 value is converted to the int64 of the same number. -/
theorem lands_int32_int64 (p : Platform) (fields : FieldList) (name : String) (x : Int)
    (i : Nat) (hf : fields.find name = some (i, true, .int .int64))
    (hx : IntKind.InRange p .int32 x) : Lands p fields name (.int .int32 x) (.int .int64 x) := by
  refine ⟨i, true, .int .int64, hf, fun sname cur _ _ => ?_⟩
  have hr : wrapSigned 8 x = x := by
    simp only [IntKind.InRange, IntKind.size] at hx
    exact wrapSigned_of_inRange 8 x (by decide) (by norm_num at hx ⊢; omega)
      (by norm_num at hx ⊢; omega)
  have ha : assignableTo (Value.int .int32 x).typeOf (.int .int64) = false :=
    show assignableTo (.int .int32) (.int .int64) = false by decide
  have hc : convertibleTo (Value.int .int32 x).typeOf (.int .int64) = true := rfl
  have hv : convert p (.int .int64) (.int .int32 x) = .ok (.int .int64 x) := by
    show Except.ok (Value.int .int64 (wrapSigned 8 x)) = _
    rw [hr]
  simp only [assignField, hf, ha, hc, hv, Bool.false_eq_true, if_false, if_true]

/-- A value that can be neither assigned nor converted to the type of the field, and is
not copied element by element, leaves the field at its zero value. -/
theorem lands_dropped (p : Platform) (fields : FieldList) (name : String) (v : Value)
    (i : Nat) (e : Bool) (ty : GoType) (hf : fields.find name = some (i, e, ty))
    (h1 : assignableTo v.typeOf ty = false) (h2 : convertibleTo v.typeOf ty = false)
    (h3 : (v.typeOf.isArrayOrSlice && ty.isArrayOrSlice) = false) :
    Lands p fields name v (zeroValue ty) := by
  refine ⟨i, e, ty, hf, fun sname cur _ hz => ?_⟩
  rw [fieldValue_find hf] at hz
  rw [set_of_getElem? hz]
  simp [assignField, hf, h1, h2, h3]

theorem has_of_mem_names {name : String} {fields : FieldList} (h : name ∈ fields.names) :
    ∃ e ty, fields.Has name e ty := by
  induction fields using fieldList_induct with
  | nil => simp [FieldList.names] at h
  | cons n e t rest ih =>
    simp only [FieldList.names, List.mem_cons] at h
    rcases h with h | h
    · exact ⟨e, t, by simp [FieldList.Has, h]⟩
    · obtain ⟨e2, t2, h2⟩ := ih h
      exact ⟨e2, t2, by simp only [FieldList.Has]; exact Or.inr h2⟩

theorem fieldValue_withField (name : String) (r : Value) (fields : FieldList) :
    ∀ (vals : List Value) (m : String),
      fieldValue m fields (withField name r fields vals) =
        if m = name then (fieldValue m fields vals).map (fun _ => r)
        else fieldValue m fields vals := by
  induction fields using fieldList_induct with
  | nil => intro vals m; cases vals <;> simp [fieldValue, withField]
  | cons n e t rest ih =>
    intro vals m
    cases vals with
    | nil => simp [fieldValue, withField]
    | cons v vs =>
      simp only [withField, fieldValue, ih vs m]
      by_cases hn : n = m
      · by_cases hm : m = name
        · simp [hn, hm]
        · have : ¬ n = name := fun h => hm (hn ▸ h)
          simp [hn, hm, this]
      · simp [hn]

/-- In a record whose other fields are declared by the destination with their own type,
every field lands: the field `name` as it is given to land, any other field unchanged. -/
theorem landsAll_withField (p : Platform) (regA regB : Registry) (fieldsB : FieldList)
    (hndB : fieldsB.names.Nodup) (name : String) (v r : Value)
    (hland : Lands p fieldsB name v r) (hz : v.IsZero = false) (fieldsA : FieldList) :
    ∀ valsA : List Value, RecordOf (Transfers p regA regB) fieldsA valsA →
      (∀ n e ty, fieldsA.Has n e ty → n ≠ name → fieldsB.Has n e ty) →
      (∀ w, fieldValue name fieldsA valsA = some w → w = v) →
      fieldsA.names.Nodup →
      LandsAll p fieldsB fieldsA valsA (withField name r fieldsA valsA) := by
  induction fieldsA using fieldList_induct with
  | nil =>
    intro valsA hrec _ _ _
    cases valsA with
    | nil => simp [LandsAll, withField]
    | cons w ws => simp [RecordOf] at hrec
  | cons n e ty rest ih =>
    intro valsA hrec hothers hval hnd
    simp only [FieldList.names, List.nodup_cons] at hnd
    cases valsA with
    | nil => simp [RecordOf] at hrec
    | cons w ws =>
      simp only [RecordOf] at hrec
      obtain ⟨he, hn, hw, hty, hrest⟩ := hrec
      subst he
      have hothers2 : ∀ n2 e2 t2, rest.Has n2 e2 t2 → n2 ≠ name → fieldsB.Has n2 e2 t2 :=
        fun n2 e2 t2 h => hothers n2 e2 t2 (by simp only [FieldList.Has]; exact Or.inr h)
      simp only [withField, LandsAll]
      by_cases hname : n = name
      · subst hname
        have hwv : w = v := hval w (by simp [fieldValue])
        subst hwv
        have hval2 : ∀ u, fieldValue n rest ws = some u → u = w := by
          intro u hu
          rw [fieldValue_none_of_not_mem n rest ws hnd.1] at hu
          cases hu
        have hl := hland
        obtain ⟨i, e2, ty2, hfind, _⟩ := hl
        refine ⟨⟨e2, ty2, has_of_find hfind, fun h => ?_⟩, fun _ => ?_,
          ih ws hrest hothers2 hval2 hnd.2⟩
        · rw [hz] at h; cases h
        · simpa using hland
      · have hval2 : ∀ u, fieldValue name rest ws = some u → u = v := by
          intro u hu
          exact hval u (by simp [fieldValue, hname, hu])
        have hB := hothers n true ty (by simp [FieldList.Has]) hname
        refine ⟨⟨true, ty, hB, fun h => ?_⟩, fun h => ?_, ih ws hrest hothers2 hval2 hnd.2⟩
        · simp only [hname, if_false]
          rw [← hty]
          exact hw.1 h
        · simp only [hname, if_false]
          obtain ⟨i, hfind, _⟩ := find_of_has hB hndB
          rw [← hty] at hfind
          exact lands_same p fieldsB n w i hfind (hw.2 h).1

/-- A record encoded under layout A and decoded under layout B, where one written field
of A lands in B as `r` and every other field of A is declared by B with its own type: the
decoded record holds `r` in that field, the values of A in the other shared fields and the
zero value in the fields A lacks. -/
theorem Decode_Encode_coerced (p : Platform) (regA regB : Registry) (nameA nameB : String)
    (fieldsA fieldsB : FieldList) (valsA : List Value) (t : Nat) (name : String)
    (v r : Value)
    (hA : regA.typeToTypeIdMapping (.struct nameA fieldsA) = some t)
    (hB : regB.Holds nameB fieldsB t) (ht : 18 ≤ t) (ht2 : t < 65536)
    (hrec : RecordOf (Transfers p regA regB) fieldsA valsA)
    (hnamesA : fieldsA.names.Nodup)
    (hothers : ∀ n e ty, fieldsA.Has n e ty → n ≠ name → fieldsB.Has n e ty)
    (hhash : (fieldsB.names.map nameHash).Nodup)
    (hcount : nonZeroCount valsA ≤ 65535)
    (hv : fieldValue name fieldsA valsA = some v) (hz : v.IsZero = false)
    (hland : Lands p fieldsB name v r) :
    ∃ bytes valsB, Encode p regA (.struct nameA fieldsA valsA) = .ok bytes ∧
      Decode p regB bytes = .ok (some (.struct nameB fieldsB valsB)) ∧
      valsB.length = fieldsB.length ∧
      fieldValue name fieldsB valsB = some r ∧
      (∀ n w, n ≠ name → fieldValue n fieldsA valsA = some w →
        fieldValue n fieldsB valsB = some w) ∧
      (∀ n e ty, fieldsB.Has n e ty → n ∉ fieldsA.names →
        fieldValue n fieldsB valsB = some (zeroValue ty)) := by
  have hndB : fieldsB.names.Nodup := List.Nodup.of_map _ hhash
  have hnames : ∀ n ∈ fieldsA.names, n ∈ fieldsB.names := by
    intro n hn
    by_cases hname : n = name
    · obtain ⟨i, e, ty, hfind, _⟩ := hland
      exact hname ▸ has_mem_names (has_of_find hfind)
    · obtain ⟨e, ty, h⟩ := has_of_mem_names hn
      exact has_mem_names (hothers n e ty h hname)
  obtain ⟨bytes, h1, h2⟩ := Decode_Encode_assign p regA regB nameA nameB fieldsA fieldsB valsA
    t hA hB ht ht2 hrec hnames hhash hcount
  have hall := landsAll_withField p regA regB fieldsB hndB name v r hland hz fieldsA valsA
    hrec hothers (fun w hw => by rw [hv] at hw; exact (Option.some.inj hw).symm) hnamesA
  obtain ⟨valsB, h3, h4, h5⟩ := assignWritten_lands p nameB fieldsB fieldsA valsA
    (withField name r fieldsA valsA) (zeroFields fieldsB) hnamesA (zeroFields_length fieldsB)
    hall (fun n _ e ty h => fieldValue_zeroFields h hndB)
  rw [h3] at h2
  refine ⟨bytes, valsB, h1, h2, h4, ?_, ?_, ?_⟩
  · rw [h5 name, fieldValue_withField, hv]
    simp
  · intro n w hn hw
    rw [h5 n, fieldValue_withField, if_neg hn, hw]
  · intro n e ty hhas hn
    rw [h5 n, fieldValue_withField, fieldValue_none_of_not_mem n fieldsA valsA hn]
    simp [fieldValue_zeroFields hhas hndB]

/-- The loop that reads the tag list ends without a fault when the buffer holds two bytes
for each tag. -/
theorem readTypeIds_ok (k : Nat) :
    ∀ (b : Buffer) (acc : List TypeId), b.pointer + 2 * k ≤ b.bytes.length →
      ∃ l, readTypeIds k b acc = .ok (l, b.skip (2 * k)) := by
  induction k with
  | zero => intro b acc _; exact ⟨acc, rfl⟩
  | succ k ih =>
    intro b acc h
    have h2 : b.pointer + 2 ≤ b.bytes.length := by omega
    obtain ⟨l, hl⟩ := ih (b.skip 2) (acc ++ [leNat ((b.bytes.drop b.pointer).take 2)])
      (by simp only [Buffer.skip]; omega)
    refine ⟨l, ?_⟩
    simp only [readTypeIds, Buffer.ReadUint16, Buffer.readLE, Buffer.ReadBytes, h2, if_true]
    rw [Buffer.skip_skip] at hl
    have e : 2 + 2 * k = 2 * (k + 1) := by omega
    rw [e] at hl
    exact hl

/-- The array and slice branch of the switch on a stream whose element count is written
as 0: the tag list is read, no element is, and the result is nil. -/
theorem decodeSwitch_no_items (p : Platform) (reg : Registry)
    (recur : Buffer → List TypeId → TypeId → Decoded) (typeId : Nat)
    (htid : typeId = TypeIdArray ∨ typeId = TypeIdSlice) (n m : Nat) (hn : n % 65536 = 0)
    (tl rest : List Byte) (hm : 2 * (m % 65536) ≤ tl.length) (b : Buffer)
    (hb : b.At (leBytes 2 n ++ (leBytes 2 m ++ (tl ++ rest)))) :
    decodeSwitch p reg recur b [] typeId = .ok (none, b.skip (4 + 2 * (m % 65536))) := by
  rw [decodeSwitch_container p reg recur b [] typeId htid]
  have h1 := hb.readLE 2 n
  have e1 : n % 256 ^ 2 = 0 := hn
  rw [e1] at h1
  have hb2 := hb.skipLE 2 _
  have h2 := hb2.readLE 2 m
  have e2 : m % 256 ^ 2 = m % 65536 := rfl
  rw [e2] at h2
  have hb3 := hb2.skipLE 2 _
  have hlen := hb3.length_eq
  obtain ⟨l, hl⟩ := readTypeIds_ok (m % 65536) ((b.skip 2).skip 2) [] (by
    simp only [List.length_append] at hlen
    omega)
  simp only [Buffer.ReadUint16, h1, h2, List.length_nil, if_true, hl, decodeItems,
    makeContainer]
  simp only [Buffer.skip, Except.ok.injEq, Prod.mk.injEq, Buffer.mk.injEq, true_and]
  omega

/-- The element loop of the field assignment converts each int32 element to the int64 of
the same number. -/
theorem assignElems_int32_int64 (p : Platform) (xs : List Int)
    (hx : ∀ x ∈ xs, IntKind.InRange p .int32 x) :
    ∀ dest : List Value, dest.length = xs.length →
      assignElems p (.int .int32) (.int .int64) true dest (xs.map (Value.int .int32)) =
        .ok (xs.map (Value.int .int64)) := by
  induction xs with
  | nil =>
    intro dest hlen
    cases dest with
    | nil => rfl
    | cons d ds => simp at hlen
  | cons x rest ih =>
    intro dest hlen
    cases dest with
    | nil => simp at hlen
    | cons d ds =>
      have hr : wrapSigned 8 x = x := by
        have h := hx x (List.mem_cons_self _ _)
        simp only [IntKind.InRange, IntKind.size] at h
        exact wrapSigned_of_inRange 8 x (by decide) (by norm_num at h ⊢; omega)
          (by norm_num at h ⊢; omega)
      have ha : assignableTo (.int .int32) (.int .int64) = false := by decide
      have hv : convert p (.int .int64) (.int .int32 x) = .ok (.int .int64 x) := by
        show Except.ok (Value.int .int64 (wrapSigned 8 x)) = _
        rw [hr]
      have hrest := ih (fun y hy => hx y (List.mem_cons_of_mem _ hy)) ds
        (by simpa using hlen)
      simp only [List.map_cons, assignElems, ha, Bool.false_eq_true, if_false, hv, if_true,
        hrest]

/-- A slice of int32 values that is not empty is copied, element by element, into a field
declared as a slice of int64. -/
theorem lands_slice_int32_int64 (p : Platform) (fields : FieldList) (name : String)
    (xs : List Int) (i : Nat) (hf : fields.find name = some (i, true, .slice (.int .int64)))
    (hne : xs ≠ []) (hx : ∀ x ∈ xs, IntKind.InRange p .int32 x) :
    Lands p fields name (.slice (.int .int32) (xs.map (Value.int .int32)))
      (.slice (.int .int64) (xs.map (Value.int .int64))) := by
  refine ⟨i, true, .slice (.int .int64), hf, fun sname cur _ hz => ?_⟩
  rw [fieldValue_find hf] at hz
  have hget : cur.getD i (.nilSlice (.int .int64)) = .nilSlice (.int .int64) := by
    rw [List.getD_eq_getElem?_getD, hz]
    rfl
  have ha : assignableTo (.slice (.int .int32)) (.slice (.int .int64)) = false := by decide
  have hc : convertibleTo (.slice (.int .int32)) (.slice (.int .int64)) = false := by decide
  have hcopy := assignElems_int32_int64 p xs hx
    (List.replicate (xs.map (Value.int .int32)).length (zeroValue (.int .int64)))
    (by simp)
  have hlen : ¬ (xs.map (Value.int .int32)).length = 0 := by
    simpa using hne
  have ha2 : assignableTo (.int .int32) (.int .int64) = false := by decide
  have hc2 : convertibleTo (.int .int32) (.int .int64) = true := rfl
  simp only [assignField, hf, Value.typeOf, ha, hc, Bool.false_eq_true, if_false,
    GoType.isArrayOrSlice, Bool.and_self, if_true, GoType.Elem, hget, Value.elems, ha2, hc2,
    Bool.or_true, hcopy, hlen]

/-- One turn of the field loop for a hash that has a name and a field value that decodes
to nil: the field is passed over. -/
theorem decodeFields_step_nil (p : Platform) (reg : Registry)
    (decodeField : Buffer → Decoded) (typeId : TypeId) (n h : Nat) (buf buf1 buf2 : Buffer)
    (created : Value) (name : String) (hread : buf.ReadUint32 = some (h, buf1))
    (hname : reg.hashName typeId h = name) (hne : name ≠ "")
    (hfield : decodeField buf1 = .ok (none, buf2)) :
    decodeFields p reg decodeField typeId (n + 1) buf created =
      decodeFields p reg decodeField typeId n buf2 created := by
  rw [decodeFields]
  simp only [hread, hname, if_neg hne, hfield]

/-- A record with one exported field holding a slice of 65536 int32 elements is written
with the element count `00 00`; the decoder reads no element, takes the field value for
nil, and returns the record with the field unset. -/
theorem Decode_Encode_long_slice (p : Platform) (regA regB : Registry)
    (nameA nameB fname : String) (id : Nat) (items : List Value) (body : List Byte)
    (fieldsB : FieldList)
    (hid : regA.typeToTypeIdMapping
      (.struct nameA (.cons fname true (.slice (.int .int32)) .nil)) = some id)
    (htype : regB.typeIdToTypeMapping id = some (.struct nameB fieldsB))
    (hname : regB.hashName id (nameHash fname) = fname) (hne : fname ≠ "")
    (h18 : 18 ≤ id) (hlt : id < 65536) (hlen : items.length = 65536)
    (hbody : encItems p regA items = .ok body) :
    ∃ bytes,
      Encode p regA (.struct nameA (.cons fname true (.slice (.int .int32)) .nil)
        [.slice (.int .int32) items]) = .ok bytes ∧
      Decode p regB bytes = .ok (some (zeroValue (.struct nameB fieldsB))) := by
  have hE : encBytes p regA false (.struct nameA (.cons fname true (.slice (.int .int32)) .nil)
      [.slice (.int .int32) items]) true =
      .ok (leBytes 2 id ++ (leBytes 2 1 ++ (leBytes 4 (nameHash fname) ++
        (leBytes 2 16 ++ (leBytes 2 items.length ++ (leBytes 2 1 ++
          (leBytes 2 5 ++ body))))))) := by
    simp [encBytes, encFields, Value.IsZero, hbody, headerBytes, lengthBytes, hid, typeTag,
      TypeIdSlice, TypeIdInt32, elemTypes, tagListBytes]
  refine ⟨_, by rw [Encode_eq, hE], ?_⟩
  generalize hbytes : leBytes 2 id ++ (leBytes 2 1 ++ (leBytes 4 (nameHash fname) ++
    (leBytes 2 16 ++ (leBytes 2 items.length ++ (leBytes 2 1 ++
      (leBytes 2 5 ++ body)))))) = bytes
  have hb : (BufferFromBytes bytes).At (leBytes 2 id ++ (leBytes 2 1 ++
      (leBytes 4 (nameHash fname) ++ (leBytes 2 16 ++ (leBytes 2 items.length ++
        (leBytes 2 1 ++ (leBytes 2 5 ++ body))))))) := by
    rw [hbytes]; exact Buffer.At.start _
  have hb2 := hb.skipLE 2 _
  have hread := hb2.readUnsigned 2 1 (by decide)
  have hb3 := hb2.skipLE 2 _
  have hhash := hb3.readUnsigned 4 (nameHash fname) (nameHash_lt _)
  have hb4 := hb3.skipLE 4 _
  obtain ⟨f, hf⟩ : ∃ f, bytes.length = f + 1 := by
    refine ⟨bytes.length - 1, ?_⟩
    have : 4 ≤ bytes.length := by
      rw [← hbytes]; simp only [List.length_append, leBytes_length]; omega
    omega
  have hfield : decodeInternal p regB bytes.length
      ((((BufferFromBytes bytes).skip 2).skip 2).skip 4) [] TypeIdUnknown =
      .ok (none, (((((BufferFromBytes bytes).skip 2).skip 2).skip 4).skip 2).skip
        (4 + 2 * (1 % 65536))) := by
    rw [hf, decodeInternal_header p regB f _ [] 16 _ (by decide) hb4]
    exact decodeSwitch_no_items p regB _ 16 (Or.inr rfl) items.length 1 (by rw [hlen])
      (leBytes 2 5) body (by simp [leBytes_length]) _ (hb4.skipLE 2 _)
  rw [Decode_def, decodeInternal_header p regB bytes.length _ [] id _ hlt hb,
    decodeSwitch_record p regB _ _ [] id h18]
  simp only [htype, Buffer.ReadUint16, hread]
  rw [decodeFields_step_nil p regB _ id 0 (nameHash fname) _ _ _ _ fname hhash hname hne
    hfield]
  rfl

/-- A slice of int32 values in the range of the type, not empty and of at most 65535
elements, is a nested container. -/
theorem int32_slice_isNested (p : Platform) (xs : List Int) (hne : xs ≠ [])
    (hlen : xs.length ≤ 65535) (hx : ∀ x ∈ xs, IntKind.InRange p .int32 x) :
    (Value.slice (.int .int32) (xs.map (Value.int .int32))).IsNested p := by
  refine ⟨by simpa using hne, by simpa using hlen, ?_⟩
  clear hne hlen
  induction xs with
  | nil => simp [AreNested]
  | cons x rest ih =>
    simp only [List.map_cons, AreNested, Value.typeOf, Value.IsFixedInt, true_and]
    exact ⟨Or.inl ⟨by decide, hx x (List.mem_cons_self _ _)⟩,
      ih (fun y hy => hx y (List.mem_cons_of_mem _ hy))⟩

theorem encItems_replicate_int32 (p : Platform) (reg : Registry) (x : Int) (n : Nat) :
    ∃ body, encItems p reg (List.replicate n (Value.int .int32 x)) = .ok body := by
  induction n with
  | zero => exact ⟨[], rfl⟩
  | succ n ih =>
    obtain ⟨body, h⟩ := ih
    exact ⟨headerBytes reg false (.int .int32) ++ intBytes p .int32 x ++ body,
      by simp only [List.replicate_succ, encItems, encBytes, h]⟩

/-- The stream of a container with the element count 0 and the tag list of the element
type is decoded to nil. -/
theorem Decode_no_items (p : Platform) (reg : Registry) (tid : Nat)
    (htid : tid = TypeIdArray ∨ tid = TypeIdSlice) (elem : GoType) :
    Decode p reg (leBytes 2 tid ++ (leBytes 2 0 ++
      (leBytes 2 (elemTypes elem).length ++ tagListBytes reg (elemTypes elem)))) =
      .ok none := by
  generalize hbytes : leBytes 2 tid ++ (leBytes 2 0 ++
    (leBytes 2 (elemTypes elem).length ++ tagListBytes reg (elemTypes elem))) = bytes
  have hb : (BufferFromBytes bytes).At (leBytes 2 tid ++ (leBytes 2 0 ++
      (leBytes 2 (elemTypes elem).length ++ (tagListBytes reg (elemTypes elem) ++ [])))) := by
    rw [List.append_nil, hbytes]; exact Buffer.At.start _
  have hsw := decodeSwitch_no_items p reg (decodeInternal p reg bytes.length)
    tid htid 0 (elemTypes elem).length (by decide) _ [] (by
      rw [tagListBytes_length]
      have := Nat.mod_le (elemTypes elem).length 65536
      omega) _ (hb.skipLE 2 _)
  unfold Decode
  rw [decodeInternal_header p reg _ _ [] tid _
    (by rcases htid with h | h <;> simp [h, TypeIdArray, TypeIdSlice]) hb, hsw]

/-- The decoder, entered without a type id on a stream that starts with an id of 18 or
more that the registry does not hold, returns nil behind the two bytes of the id. -/
theorem decodeInternal_unknown_id (p : Platform) (reg : Registry) (id : Nat)
    (hid : 18 ≤ id) (hid2 : id < 65536) (hun : reg.typeIdToTypeMapping id = none)
    (fuel : Nat) (b : Buffer) (rest : List Byte) (hb : b.At (leBytes 2 id ++ rest)) :
    decodeInternal p reg (fuel + 1) b [] TypeIdUnknown = .ok (none, b.skip 2) := by
  rw [decodeInternal_header p reg fuel b [] id rest hid2 hb,
    decodeSwitch_record p reg _ _ [] id hid]
  simp only [hun]

/-- A stream that starts with an unregistered id of 18 or more is decoded to nil. -/
theorem Decode_unknown_id (p : Platform) (reg : Registry) (id : Nat)
    (hid : 18 ≤ id) (hid2 : id < 65536) (hun : reg.typeIdToTypeMapping id = none)
    (rest : List Byte) : Decode p reg (leBytes 2 id ++ rest) = .ok none := by
  rw [Decode_def, decodeInternal_unknown_id p reg id hid hid2 hun _ _ rest
    (Buffer.At.start _)]

/-- A record stream whose only field entry holds a value with an unregistered id of 18 or
more is decoded to the record with all fields zero. -/
theorem Decode_unknown_id_in_field (p : Platform) (reg : Registry) (id : Nat)
    (hid : 18 ≤ id) (hid2 : id < 65536) (hun : reg.typeIdToTypeMapping id = none)
    (t : Nat) (name : String) (fields : FieldList) (fname : String) (rest : List Byte)
    (hreg : reg.Holds name fields t) (ht : 18 ≤ t) (ht2 : t < 65536)
    (hmem : fname ∈ fields.names) (hne : fname ≠ "")
    (hhash : (fields.names.map nameHash).Nodup) :
    Decode p reg (leBytes 2 t ++ (leBytes 2 1 ++ (leBytes 4 (nameHash fname) ++
      (leBytes 2 id ++ rest)))) = .ok (some (zeroValue (.struct name fields))) := by
  obtain ⟨-, htype, hmap⟩ := hreg
  have hP := (registerFields_hashName fields (fun _ => none, fun _ => none) hhash).1
  have hname : reg.hashName t (nameHash fname) = fname := by
    simp [Registry.hashName, hmap, hP fname hmem]
  generalize hbytes : leBytes 2 t ++ (leBytes 2 1 ++ (leBytes 4 (nameHash fname) ++
    (leBytes 2 id ++ rest))) = bytes
  have hb : (BufferFromBytes bytes).At (leBytes 2 t ++ (leBytes 2 1 ++
      (leBytes 4 (nameHash fname) ++ (leBytes 2 id ++ rest)))) := by
    rw [hbytes]; exact Buffer.At.start _
  have hb2 := hb.skipLE 2 _
  have hread := hb2.readUnsigned 2 1 (by decide)
  have hb3 := hb2.skipLE 2 _
  have hh := hb3.readUnsigned 4 (nameHash fname) (nameHash_lt _)
  have hb4 := hb3.skipLE 4 _
  obtain ⟨f, hf⟩ : ∃ f, bytes.length = f + 1 := by
    refine ⟨bytes.length - 1, ?_⟩
    have : 4 ≤ bytes.length := by
      rw [← hbytes]; simp only [List.length_append, leBytes_length]; omega
    omega
  have hfield : decodeInternal p reg bytes.length
      ((((BufferFromBytes bytes).skip 2).skip 2).skip 4) [] TypeIdUnknown =
      .ok (none, ((((BufferFromBytes bytes).skip 2).skip 2).skip 4).skip 2) := by
    rw [hf]
    exact decodeInternal_unknown_id p reg id hid hid2 hun f _ rest hb4
  rw [Decode_def, decodeInternal_header p reg bytes.length _ [] t _ ht2 hb,
    decodeSwitch_record p reg _ _ [] t ht]
  simp only [htype, Buffer.ReadUint16, hread]
  rw [decodeFields_step_nil p reg _ t 0 (nameHash fname) _ _ _ _ fname hh hname hne hfield]
  rfl

/-- The encoding of a record whose type the registry does not hold: the id 0, the two
low-order bytes of the number of written fields, and the written fields. -/
theorem Encode_unregistered_eq (p : Platform) (reg : Registry) (name : String)
    (fields : FieldList) (vals : List Value)
    (hun : reg.typeToTypeIdMapping (.struct name fields) = none) :
    Encode p reg (.struct name fields vals) =
      match writtenFields p reg fields vals with
      | .error e => .error e
      | .ok entries =>
        .ok (leBytes 2 0 ++ (leBytes 2 entries.length ++ entries.flatten)) := by
  rw [Encode_eq]
  simp only [encBytes, encFields_eq_written]
  cases writtenFields p reg fields vals <;> simp [headerBytes, typeTag, hun]

/-- Entered with no byte left to read, `decodeInternal` returns nil at once. -/
theorem decodeInternal_exhausted (p : Platform) (reg : Registry) (fuel : Nat) (b : Buffer)
    (tids : List TypeId) (tid : TypeId) (h : b.LeftToRead = 0) :
    decodeInternal p reg (fuel + 1) b tids tid = .ok (none, b) := by
  simp [decodeInternal, h]

/-- The element loop on a buffer with no byte left: every element is nil. -/
theorem decodeItems_exhausted (p : Platform) (reg : Registry) (fuel : Nat) (b : Buffer)
    (t : TypeId) (ts : List TypeId) (h : b.LeftToRead = 0) (k : Nat) :
    decodeItems (decodeInternal p reg (fuel + 1)) (t :: ts) k b =
      .ok (List.replicate k none, b) := by
  induction k with
  | zero => rfl
  | succ k ih =>
    simp only [decodeItems, decodeInternal_exhausted p reg fuel b ts t h, ih,
      List.replicate_succ]

theorem readTypeIds_length (k : Nat) :
    ∀ (b b2 : Buffer) (acc l : List TypeId), readTypeIds k b acc = .ok (l, b2) →
      l.length = acc.length + k := by
  induction k with
  | zero =>
    intro b b2 acc l h
    simp only [readTypeIds, Except.ok.injEq, Prod.mk.injEq] at h
    rw [← h.1]; rfl
  | succ k ih =>
    intro b b2 acc l h
    simp only [readTypeIds] at h
    cases hr : b.ReadUint16 with
    | none => simp [hr] at h
    | some r =>
      obtain ⟨x, b1⟩ := r
      simp only [hr] at h
      have := ih b1 b2 _ l h
      simp only [List.length_append, List.length_singleton] at this
      omega

theorem makeContainer_nil_items (tid : TypeId) (k : Nat) :
    makeContainer tid (List.replicate k none) = .ok none := by
  cases k <;> rfl

/-- The array and slice branch of the switch on a buffer that ends behind the tag list:
every element is nil, and so is the result. -/
theorem decodeSwitch_header_only (p : Platform) (reg : Registry) (fuel : Nat) (typeId : Nat)
    (htid : typeId = TypeIdArray ∨ typeId = TypeIdSlice) (n m : Nat) (hm1 : 1 ≤ m)
    (hm2 : m ≤ 65535) (tl : List Byte) (htl : tl.length = 2 * m) (b : Buffer)
    (hb : b.At (leBytes 2 n ++ (leBytes 2 m ++ tl))) :
    decodeSwitch p reg (decodeInternal p reg (fuel + 1)) b [] typeId =
      .ok (none, b.skip (4 + 2 * m)) := by
  rw [decodeSwitch_container p reg _ b [] typeId htid]
  have h1 := hb.readLE 2 n
  have hb2 := hb.skipLE 2 _
  have h2 := hb2.readUnsigned 2 m (by omega)
  have hb3 := hb2.skipLE 2 _
  have hlen := hb3.length_eq
  obtain ⟨l, hl⟩ := readTypeIds_ok m ((b.skip 2).skip 2) [] (by omega)
  have hll := readTypeIds_length m _ _ [] l hl
  obtain ⟨t, ts, rfl⟩ : ∃ t ts, l = t :: ts := by
    cases l with
    | nil => simp at hll; omega
    | cons t ts => exact ⟨t, ts, rfl⟩
  have hend : (((b.skip 2).skip 2).skip (2 * m)).LeftToRead = 0 := by
    simp only [Buffer.LeftToRead, Buffer.skip] at hlen ⊢
    omega
  simp only [Buffer.ReadUint16, h1, h2, List.length_nil, if_true, hl,
    decodeItems_exhausted p reg fuel _ t ts hend, makeContainer_nil_items]
  simp only [Buffer.skip, Except.ok.injEq, Prod.mk.injEq, Buffer.mk.injEq, true_and]
  omega

/-- The stream of a container cut behind its tag list is decoded to nil. -/
theorem Decode_container_header (p : Platform) (reg : Registry) (tid : Nat)
    (htid : tid = TypeIdArray ∨ tid = TypeIdSlice) (elem : GoType) (n : Nat)
    (hd : (elemTypes elem).length ≤ 65535) :
    Decode p reg (leBytes 2 tid ++ (leBytes 2 n ++
      (leBytes 2 (elemTypes elem).length ++ tagListBytes reg (elemTypes elem)))) =
      .ok none := by
  generalize hbytes : leBytes 2 tid ++ (leBytes 2 n ++
    (leBytes 2 (elemTypes elem).length ++ tagListBytes reg (elemTypes elem))) = bytes
  have hb : (BufferFromBytes bytes).At (leBytes 2 tid ++ (leBytes 2 n ++
      (leBytes 2 (elemTypes elem).length ++ tagListBytes reg (elemTypes elem)))) := by
    rw [hbytes]; exact Buffer.At.start _
  obtain ⟨f, hf⟩ : ∃ f, bytes.length = f + 1 := by
    refine ⟨bytes.length - 1, ?_⟩
    have : 4 ≤ bytes.length := by
      rw [← hbytes]; simp only [List.length_append, leBytes_length]; omega
    omega
  have hm1 : 1 ≤ (elemTypes elem).length := by
    obtain ⟨ts, hts⟩ := elemTypes_cons elem
    rw [hts]; simp
  have hsw := decodeSwitch_header_only p reg f tid htid n (elemTypes elem).length hm1 hd _
    (tagListBytes_length reg _) _ (hb.skipLE 2 _)
  rw [Decode_def, decodeInternal_header p reg bytes.length _ [] tid _
    (by rcases htid with h | h <;> simp [h, TypeIdArray, TypeIdSlice]) hb, hf, hsw]

/-- The stream of a record with one written field, cut behind the hash of the field name,
is decoded to the record with all fields zero. -/
theorem Decode_record_hash_only (p : Platform) (reg : Registry) (t : Nat) (name : String)
    (fields : FieldList) (fname : String) (hreg : reg.Holds name fields t) (ht : 18 ≤ t)
    (ht2 : t < 65536) (hmem : fname ∈ fields.names) (hne : fname ≠ "")
    (hhash : (fields.names.map nameHash).Nodup) :
    Decode p reg (leBytes 2 t ++ (leBytes 2 1 ++ leBytes 4 (nameHash fname))) =
      .ok (some (zeroValue (.struct name fields))) := by
  obtain ⟨-, htype, hmap⟩ := hreg
  have hP := (registerFields_hashName fields (fun _ => none, fun _ => none) hhash).1
  have hname : reg.hashName t (nameHash fname) = fname := by
    simp [Registry.hashName, hmap, hP fname hmem]
  generalize hbytes : leBytes 2 t ++ (leBytes 2 1 ++ leBytes 4 (nameHash fname)) = bytes
  have hb : (BufferFromBytes bytes).At (leBytes 2 t ++ (leBytes 2 1 ++
      (leBytes 4 (nameHash fname) ++ []))) := by
    rw [List.append_nil, hbytes]; exact Buffer.At.start _
  have hb2 := hb.skipLE 2 _
  have hread := hb2.readUnsigned 2 1 (by decide)
  have hb3 := hb2.skipLE 2 _
  have hh := hb3.readUnsigned 4 (nameHash fname) (nameHash_lt _)
  have hb4 := hb3.skipLE 4 _
  obtain ⟨f, hf⟩ : ∃ f, bytes.length = f + 1 := by
    refine ⟨bytes.length - 1, ?_⟩
    have : 4 ≤ bytes.length := by
      rw [← hbytes]; simp only [List.length_append, leBytes_length]; omega
    omega
  have hend : ((((BufferFromBytes bytes).skip 2).skip 2).skip 4).LeftToRead = 0 := by
    have := hb4.length_eq
    simp only [Buffer.LeftToRead, List.length_nil] at this ⊢
    omega
  have hfield : decodeInternal p reg bytes.length
      ((((BufferFromBytes bytes).skip 2).skip 2).skip 4) [] TypeIdUnknown =
      .ok (none, (((BufferFromBytes bytes).skip 2).skip 2).skip 4) := by
    rw [hf]
    exact decodeInternal_exhausted p reg f _ [] TypeIdUnknown hend
  rw [Decode_def, decodeInternal_header p reg bytes.length _ [] t _ ht2 hb,
    decodeSwitch_record p reg _ _ [] t ht]
  simp only [htype, Buffer.ReadUint16, hread]
  rw [decodeFields_step_nil p reg _ t 0 (nameHash fname) _ _ _ _ fname hh hname hne hfield]
  rfl

theorem leBytes_two_ne_nil (v : Nat) (rest : List Byte) : leBytes 2 v ++ rest ≠ [] := by
  simp [leBytes]

/-- An encoding with a header is not empty: it starts with the two bytes of the tag. -/
theorem encBytes_header_ne_nil (p : Platform) (reg : Registry) (d : Bool) (v : Value)
    (enc : List Byte) (h : encBytes p reg d v true = .ok enc) : enc ≠ [] := by
  have key : ∀ (t : GoType) (rest : List Byte), headerBytes reg true t ++ rest ≠ [] :=
    fun t rest => leBytes_two_ne_nil _ _
  cases v with
  | ptr e target =>
    cases d
    · rw [encBytes] at h
      cases target <;> first
        | (simp only [encBytes, Except.ok.injEq] at h
           rw [← h]
           exact key _ _)
        | (simp only [encBytes] at h
           split at h
           · cases h
           · simp only [Except.ok.injEq] at h
             rw [← h]
             exact key _ _)
    · simp only [encBytes, Except.ok.injEq] at h
      rw [← h]
      simpa using key _ []
  | nilPtr e =>
    cases d
    · simp [encBytes] at h
    · simp only [encBytes, Except.ok.injEq] at h
      rw [← h]
      simpa using key _ []
  | array e items =>
    simp only [encBytes] at h
    split at h
    · cases h
    · simp only [Except.ok.injEq] at h
      rw [← h]
      exact key _ _
  | slice e items =>
    simp only [encBytes] at h
    split at h
    · cases h
    · simp only [Except.ok.injEq] at h
      rw [← h]
      exact key _ _
  | struct n f vals =>
    simp only [encBytes] at h
    split at h
    · cases h
    · simp only [Except.ok.injEq] at h
      rw [← h]
      exact key _ _
  | map k e es =>
    simp only [encBytes, Except.ok.injEq] at h
    rw [← h]
    simpa using key _ []
  | nilMap k e =>
    simp only [encBytes, Except.ok.injEq] at h
    rw [← h]
    simpa using key _ []
  | _ =>
    simp only [encBytes, Except.ok.injEq] at h
    rw [← h]
    exact key _ _

/-- One turn of the field loop for a hash that has no name: the loop goes on behind the
four bytes of the hash. -/
theorem decodeFields_step_unknown (p : Platform) (reg : Registry)
    (decodeField : Buffer → Decoded) (typeId : TypeId) (n h : Nat) (buf buf1 : Buffer)
    (created : Value) (hread : buf.ReadUint32 = some (h, buf1))
    (hname : reg.hashName typeId h = "") :
    decodeFields p reg decodeField typeId (n + 1) buf created =
      decodeFields p reg decodeField typeId n buf1 created := by
  rw [decodeFields]
  simp only [hread, hname, if_true]

/-- A record with a text field of 65536 bytes followed by one more written field.  The
length of the text is written as `00 00`, the decoder reads the empty text, takes the
first four bytes of the text for the hash of the next field, finds no name for it, and
returns the record as it is after the assignment of the empty text: the field behind the
text is lost. -/
theorem Decode_long_text_then_lost (p : Platform) (regA regB : Registry)
    (nameA nameB n1 n2 : String) (id : Nat) (ty2 : GoType) (v2 : Value) (enc2 : List Byte)
    (h4 : Nat) (tail : List Byte) (fieldsB : FieldList) (c1 : Value)
    (hid : regA.typeToTypeIdMapping
      (.struct nameA (.cons n1 true .string (.cons n2 true ty2 .nil))) = some id)
    (htype : regB.typeIdToTypeMapping id = some (.struct nameB fieldsB))
    (hname : regB.hashName id (nameHash n1) = n1) (hne : n1 ≠ "")
    (hlost : regB.hashName id h4 = "") (h4lt : h4 < 2 ^ (8 * 4))
    (h18 : 18 ≤ id) (hlt : id < 65536)
    (hs : (leBytes 4 h4 ++ tail).length = 65536)
    (hz2 : v2.IsZero = false) (henc2 : encBytes p regA false v2 true = .ok enc2)
    (hassign : assignField p (zeroValue (.struct nameB fieldsB)) n1 (.string []) = .ok c1) :
    ∃ bytes,
      Encode p regA (.struct nameA (.cons n1 true .string (.cons n2 true ty2 .nil))
        [.string (leBytes 4 h4 ++ tail), v2]) = .ok bytes ∧
      Decode p regB bytes = .ok (some c1) := by
  have hz1 : (Value.string (leBytes 4 h4 ++ tail)).IsZero = false := by
    simp [Value.IsZero, leBytes]
  have hE : encBytes p regA false (.struct nameA (.cons n1 true .string
      (.cons n2 true ty2 .nil)) [.string (leBytes 4 h4 ++ tail), v2]) true =
      .ok (leBytes 2 id ++ (leBytes 2 2 ++ (leBytes 4 (nameHash n1) ++
        (leBytes 2 17 ++ (leBytes 2 (leBytes 4 h4 ++ tail).length ++
          (leBytes 4 h4 ++ (tail ++ (leBytes 4 (nameHash n2) ++ enc2)))))))) := by
    simp only [encBytes, encFields, hz1, hz2, Bool.false_eq_true, if_false, Bool.not_true,
      henc2, headerBytes, if_true, typeTag, hid, Option.getD_some, TypeIdString,
      List.append_assoc, List.nil_append, List.append_nil]
  refine ⟨_, by rw [Encode_eq, hE], ?_⟩
  generalize hbytes : leBytes 2 id ++ (leBytes 2 2 ++ (leBytes 4 (nameHash n1) ++
    (leBytes 2 17 ++ (leBytes 2 (leBytes 4 h4 ++ tail).length ++
      (leBytes 4 h4 ++ (tail ++ (leBytes 4 (nameHash n2) ++ enc2))))))) = bytes
  have hb : (BufferFromBytes bytes).At (leBytes 2 id ++ (leBytes 2 2 ++
      (leBytes 4 (nameHash n1) ++ (leBytes 2 17 ++
        (leBytes 2 (leBytes 4 h4 ++ tail).length ++
          (leBytes 4 h4 ++ (tail ++ (leBytes 4 (nameHash n2) ++ enc2)))))))) := by
    rw [hbytes]; exact Buffer.At.start _
  have hb2 := hb.skipLE 2 _
  have hread := hb2.readUnsigned 2 2 (by decide)
  have hb3 := hb2.skipLE 2 _
  have hhash := hb3.readUnsigned 4 (nameHash n1) (nameHash_lt _)
  have hb4 := hb3.skipLE 4 _
  have hb5 := hb4.skipLE 2 _
  have hb6 := hb5.skipLE 2 _
  have hh4 := hb6.readUnsigned 4 h4 h4lt
  obtain ⟨f, hf⟩ : ∃ f, bytes.length = f + 1 := by
    refine ⟨bytes.length - 1, ?_⟩
    have : 4 ≤ bytes.length := by
      rw [← hbytes]; simp only [List.length_append, leBytes_length]; omega
    omega
  have hfield : decodeInternal p regB bytes.length
      ((((BufferFromBytes bytes).skip 2).skip 2).skip 4) [] TypeIdUnknown =
      .ok (some (.string []),
        (((((BufferFromBytes bytes).skip 2).skip 2).skip 4).skip 2).skip 2) := by
    rw [hf, decodeInternal_header p regB f _ [] 17 _ (by decide) hb4]
    exact decodeSwitch_string_wrapped p regB _ _ [] _ _ (by rw [hs]) hb5
  rw [Decode_def, decodeInternal_header p regB bytes.length _ [] id _ hlt hb,
    decodeSwitch_record p regB _ _ [] id h18]
  simp only [htype, Buffer.ReadUint16, hread]
  rw [decodeFields_step p regB _ id 1 (nameHash n1) _ _ _ _ _ _ n1 hhash hname hne hfield
      hassign,
    decodeFields_step_unknown p regB _ id 0 h4 _ _ _ hh4 hlost]
  rfl

/-! ## The claims -/

/-- C1: a value of kind bool or of one of the ten integer kinds, anywhere in the range of
its type (zero, the minimum and the maximum included), is encoded without a fault, and
`Decode` returns the same value with the same kind from the bytes. -/
theorem C1_scalar_round_trip (p : Platform) (reg : Registry) (v : Value)
    (hv : v.IsScalar p) :
    ∃ bytes, Encode p reg v = .ok bytes ∧ Decode p reg bytes = .ok (some v) :=
  Decode_Encode_simple p reg v hv.isSimple

/-- C1 at a concrete input: the minimum of int64. -/
theorem C1_scalar_round_trip_witness :
    (Value.int .int64 (-9223372036854775808)).IsScalar .bits64 ∧
      ∃ bytes, Encode .bits64 initRegistry (.int .int64 (-9223372036854775808)) = .ok bytes ∧
        Decode .bits64 initRegistry bytes = .ok (some (.int .int64 (-9223372036854775808))) :=
  ⟨by simp [Value.IsScalar, IntKind.InRange, IntKind.size],
    C1_scalar_round_trip .bits64 initRegistry (.int .int64 (-9223372036854775808))
      (by simp [Value.IsScalar, IntKind.InRange, IntKind.size])⟩

/-- C2, as amended: let a record type be registered under an id of 18 or more (an id is
a `uint16`), with all fields exported, of bool, integer or string kind and with pairwise
different name hashes.  A value of the type whose strings have at most 65535 bytes and of whose fields at most
65535 are non-zero is encoded without a fault, and `Decode` returns the same value from
the bytes: a non-zero field keeps its value, and a zero field, which is not written, comes
back as the zero value of its type. -/
theorem C2_record_round_trip (p : Platform) (reg : Registry) (name : String)
    (fields : FieldList) (vals : List Value) (id : Nat)
    (hreg : reg.Holds name fields id) (hid : 18 ≤ id) (hid2 : id < 65536)
    (hrec : RecordOf (Value.IsSimple p) fields vals)
    (hhash : (fields.names.map nameHash).Nodup)
    (hcount : nonZeroCount vals ≤ 65535) :
    ∃ bytes, Encode p reg (.struct name fields vals) = .ok bytes ∧
      Decode p reg bytes = .ok (some (.struct name fields vals)) :=
  Decode_Encode_same_record p reg name fields vals id hreg hid hid2
    (recordOf_mono (transfers_of_simple p reg reg) fields vals hrec) hhash hcount

/-- C2 at a concrete input: `Sample{Flag: true, Count: 0, Name: "hi"}` with `Sample`
registered under id 60. -/
theorem C2_record_round_trip_witness :
    sampleRegistry.Holds "Sample" sampleFields 60 ∧ 18 ≤ 60 ∧ 60 < 65536 ∧
      RecordOf (Value.IsSimple .bits64) sampleFields
        [.bool true, .int .int32 0, .string [0x68, 0x69]] ∧
      (sampleFields.names.map nameHash).Nodup ∧
      nonZeroCount [.bool true, .int .int32 0, .string [0x68, 0x69]] ≤ 65535 ∧
      ∃ bytes,
        Encode .bits64 sampleRegistry
          (.struct "Sample" sampleFields [.bool true, .int .int32 0, .string [0x68, 0x69]]) =
            .ok bytes ∧
        Decode .bits64 sampleRegistry bytes =
          .ok (some (.struct "Sample" sampleFields
            [.bool true, .int .int32 0, .string [0x68, 0x69]])) :=
  have hreg : sampleRegistry.Holds "Sample" sampleFields 60 := ⟨rfl, rfl, rfl⟩
  have hrec : RecordOf (Value.IsSimple .bits64) sampleFields
      [.bool true, .int .int32 0, .string [0x68, 0x69]] := by
    simp [RecordOf, sampleFields, Value.IsSimple, Value.IsScalar, IntKind.InRange,
      IntKind.size, Value.typeOf]
  have hhash : (sampleFields.names.map nameHash).Nodup := by decide
  have hcount : nonZeroCount [.bool true, .int .int32 0, .string [0x68, 0x69]] ≤ 65535 := by
    decide
  ⟨hreg, by decide, by decide, hrec, hhash, hcount,
    C2_record_round_trip .bits64 sampleRegistry "Sample" sampleFields _ 60 hreg (by decide)
      (by decide) hrec hhash hcount⟩

/-- C2 as stated fails: the record type `Doc` with the one exported string field `Text`,
registered under id 50, meets the conditions of the claim, and the value whose text has
65536 bytes is decoded to the value with the empty text. -/
theorem C2_counterexample :
    docRegistry.Holds "Doc" docFields 50 ∧ (docFields.names.map nameHash).Nodup ∧
      (∃ bytes, Encode .bits64 docRegistry (Doc (List.replicate 65536 0x61)) = .ok bytes ∧
        Decode .bits64 docRegistry bytes = .ok (some (Doc []))) ∧
      Doc [] ≠ Doc (List.replicate 65536 0x61) := by
  refine ⟨⟨rfl, rfl, rfl⟩, by decide,
    Decode_Encode_long_text .bits64 docRegistry "Doc" "Text" 50 _ rfl rfl (by decide)
      (by decide) (by decide) (by decide) (List.length_replicate _ _), ?_⟩
  intro h
  have h2 : ([] : List Byte) = List.replicate 65536 0x61 := by
    simp only [Doc, Value.struct.injEq, List.cons.injEq, Value.string.injEq, and_true,
      true_and] at h
    exact h
  have h3 := congrArg List.length h2
  rw [List.length_replicate] at h3
  exact absurd h3 (by decide)

/-- C3, as amended: a container nested to a depth between 1 and 65535, each level an array
or a slice, every container with at least one and at most 65535 elements and the leaves
fixed-width integers, is encoded without a fault, and `Decode` returns the same value from
the bytes: at every level the same kind of container, of the same length. -/
theorem C3_nested_round_trip (p : Platform) (reg : Registry) (c : Value)
    (hc : c.IsNested p) (hd : c.typeOf.depth ≤ 65535) :
    ∃ bytes, Encode p reg c = .ok bytes ∧ Decode p reg bytes = .ok (some c) :=
  Decode_Encode_nested p reg c hc hd

/-- C3 at a concrete input: the array `[2][]int32{{1, -2}, {3}}`. -/
theorem C3_nested_round_trip_witness :
    (Value.array (.slice (.int .int32))
        [.slice (.int .int32) [.int .int32 1, .int .int32 (-2)],
          .slice (.int .int32) [.int .int32 3]]).IsNested .bits64 ∧
      (Value.array (.slice (.int .int32))
        [.slice (.int .int32) [.int .int32 1, .int .int32 (-2)],
          .slice (.int .int32) [.int .int32 3]]).typeOf.depth ≤ 65535 ∧
      ∃ bytes,
        Encode .bits64 initRegistry (Value.array (.slice (.int .int32))
          [.slice (.int .int32) [.int .int32 1, .int .int32 (-2)],
            .slice (.int .int32) [.int .int32 3]]) = .ok bytes ∧
        Decode .bits64 initRegistry bytes = .ok (some (Value.array (.slice (.int .int32))
          [.slice (.int .int32) [.int .int32 1, .int .int32 (-2)],
            .slice (.int .int32) [.int .int32 3]])) :=
  have h1 : (Value.array (.slice (.int .int32))
        [.slice (.int .int32) [.int .int32 1, .int .int32 (-2)],
          .slice (.int .int32) [.int .int32 3]]).IsNested .bits64 := by
    simp [Value.IsNested, AreNested, Value.IsFixedInt, IntKind.InRange, IntKind.size,
      Value.typeOf]
  ⟨h1, by decide, C3_nested_round_trip .bits64 initRegistry _ h1 (by decide)⟩

/-- C3 as stated fails: the array of one element nested 65536 levels deep around an int32
satisfies the conditions of the claim, and decoding its encoding panics. -/
theorem C3_counterexample :
    (nestedArray 65536).IsNested .bits64 ∧
      ∃ bytes, Encode .bits64 initRegistry (nestedArray 65536) = .ok bytes ∧
        Decode .bits64 initRegistry bytes = .error .panic :=
  ⟨nestedArray_isNested .bits64 65535,
    Decode_nested_overflow .bits64 initRegistry (nestedArray 65536)
      (nestedArray_isNested .bits64 65535) (nestedArray_depth 65536)⟩

/-- C4: a string of at most 65535 bytes, whatever its bytes, is encoded as the tag 17 in
two little-endian bytes, its length in two little-endian bytes and its bytes, and `Decode`
returns the string from that encoding. -/
theorem C4_string_layout_and_round_trip (p : Platform) (reg : Registry) (s : List Byte)
    (hs : s.length ≤ 65535) :
    Encode p reg (.string s) = .ok (leBytes 2 17 ++ (leBytes 2 s.length ++ s)) ∧
      Decode p reg (leBytes 2 17 ++ (leBytes 2 s.length ++ s)) = .ok (some (.string s)) := by
  have he : Encode p reg (.string s) = .ok (leBytes 2 17 ++ (leBytes 2 s.length ++ s)) := by
    rw [Encode_eq]; simp [encBytes, headerBytes, typeTag, TypeIdString]
  obtain ⟨bytes, h1, h2⟩ := Decode_Encode_simple p reg (.string s) hs
  rw [he] at h1
  simp only [Except.ok.injEq] at h1
  exact ⟨he, h1 ▸ h2⟩

/-- C4 at a concrete input: the string `hi`. -/
theorem C4_string_layout_and_round_trip_witness :
    ([0x68, 0x69] : List Byte).length ≤ 65535 ∧
      Encode .bits64 initRegistry (.string [0x68, 0x69]) = .ok [17, 0, 2, 0, 0x68, 0x69] ∧
      Decode .bits64 initRegistry [17, 0, 2, 0, 0x68, 0x69] =
        .ok (some (.string [0x68, 0x69])) :=
  ⟨by decide, C4_string_layout_and_round_trip .bits64 initRegistry [0x68, 0x69] (by decide)⟩

/-- C5, evaluated on the code: the record `A{X: 1, Y: 2}` is encoded under layout `A`; the
decoder, with the id registered to the layout `B` that has only `Y`, meets the hash of `X`,
goes on to the next field without reading the value of `X`, takes the first four bytes of
that value for the next hash, and returns `B{Y: 0}`, not `B{Y: 2}`. -/
theorem C5_unknown_field_not_consumed :
    Encode .bits64 registryA (.struct "A" layoutA [.int .int32 1, .int .int32 2]) =
        .ok [50, 0, 2, 0, 0x27, 0x1E, 0x0C, 0xDD, 5, 0, 1, 0, 0, 0,
          0x94, 0x1C, 0x0C, 0xDC, 5, 0, 2, 0, 0, 0] ∧
      Decode .bits64 registryB [50, 0, 2, 0, 0x27, 0x1E, 0x0C, 0xDD, 5, 0, 1, 0, 0, 0,
          0x94, 0x1C, 0x0C, 0xDC, 5, 0, 2, 0, 0, 0] =
        .ok (some (.struct "B" layoutB [.int .int32 0])) ∧
      Decode .bits64 registryB [50, 0, 1, 0, 0x94, 0x1C, 0x0C, 0xDC, 5, 0, 2, 0, 0, 0] =
        .ok (some (.struct "B" layoutB [.int .int32 2])) :=
  ⟨rfl, rfl, rfl⟩

/-- C6, as amended: a record is encoded under layout A, registered at the id t (a
`uint16` of 18 or more), and decoded when t is registered to layout B.  Let every field of A be exported, named
differently from the other fields of A, declared in B with the same name and type, and
hold either the zero value of its type or a value the decoder reads back from its
encoding (such as a bool, an integer or a string of at most 65535 bytes); let the name
hashes of B differ pairwise and at most 65535 fields of the record be non-zero.  Then the
decoder returns a value of layout B in which every field shared with A holds the value it
had in A and every field A lacks holds the zero value of its type. -/
theorem C6_schema_evolution (p : Platform) (regA regB : Registry) (nameA nameB : String)
    (fieldsA fieldsB : FieldList) (valsA : List Value) (t : Nat)
    (hA : regA.typeToTypeIdMapping (.struct nameA fieldsA) = some t)
    (hB : regB.Holds nameB fieldsB t) (ht : 18 ≤ t) (ht2 : t < 65536)
    (hrec : RecordOf (Transfers p regA regB) fieldsA valsA)
    (hnamesA : fieldsA.names.Nodup)
    (hsub : ∀ n e ty, fieldsA.Has n e ty → fieldsB.Has n e ty)
    (hhash : (fieldsB.names.map nameHash).Nodup)
    (hcount : nonZeroCount valsA ≤ 65535) :
    ∃ bytes valsB, Encode p regA (.struct nameA fieldsA valsA) = .ok bytes ∧
      Decode p regB bytes = .ok (some (.struct nameB fieldsB valsB)) ∧
      valsB.length = fieldsB.length ∧
      (∀ n v, fieldValue n fieldsA valsA = some v → fieldValue n fieldsB valsB = some v) ∧
      (∀ n e ty, fieldsB.Has n e ty → n ∉ fieldsA.names →
        fieldValue n fieldsB valsB = some (zeroValue ty)) := by
  obtain ⟨bytes, h1, h2⟩ := Decode_Encode_record p regA regB nameA nameB fieldsA fieldsB valsA
    t hA hB ht ht2 hrec hsub hhash hcount
  have hndB : fieldsB.names.Nodup := List.Nodup.of_map _ hhash
  obtain ⟨s1, s2⟩ := applyFields_spec p regA regB fieldsA fieldsB valsA hrec hnamesA hsub hndB
  refine ⟨bytes, _, h1, h2, ?_, s1, ?_⟩
  · rw [applyFields_length, zeroFields_length]
  · intro n e ty hhas hn
    rw [s2 n (fieldValue_none_of_not_mem n fieldsA valsA hn), fieldValue_zeroFields hhas hndB]

/-- C6 at a concrete input: `A{X: 1, Y: 2}`, encoded under the layout `X, Y` registered at
id 50, is decoded under the layout `Y, Z, X` registered at id 50; the conditions hold
there, and so does the conclusion. -/
theorem C6_schema_evolution_witness :
    registryA.typeToTypeIdMapping (.struct "A" layoutA) = some 50 ∧
      registryWide.Holds "B" layoutWide 50 ∧
      RecordOf (Transfers .bits64 registryA registryWide) layoutA
        [.int .int32 1, .int .int32 2] ∧
      layoutA.names.Nodup ∧ (∀ n e ty, layoutA.Has n e ty → layoutWide.Has n e ty) ∧
      (layoutWide.names.map nameHash).Nodup ∧
      ∃ bytes valsB,
        Encode .bits64 registryA (.struct "A" layoutA [.int .int32 1, .int .int32 2]) =
          .ok bytes ∧
        Decode .bits64 registryWide bytes = .ok (some (.struct "B" layoutWide valsB)) ∧
        valsB.length = layoutWide.length ∧
        (∀ n v, fieldValue n layoutA [.int .int32 1, .int .int32 2] = some v →
          fieldValue n layoutWide valsB = some v) ∧
        (∀ n e ty, layoutWide.Has n e ty → n ∉ layoutA.names →
          fieldValue n layoutWide valsB = some (zeroValue ty)) :=
  have hB : registryWide.Holds "B" layoutWide 50 := ⟨rfl, rfl, rfl⟩
  have hrec : RecordOf (Transfers .bits64 registryA registryWide) layoutA
      [.int .int32 1, .int .int32 2] :=
    recordOf_mono (transfers_of_simple .bits64 registryA registryWide) layoutA _
      (by simp [RecordOf, layoutA, Value.IsSimple, Value.IsScalar, IntKind.InRange,
        IntKind.size, Value.typeOf])
  have hnames : layoutA.names.Nodup := by decide
  have hsub : ∀ n e ty, layoutA.Has n e ty → layoutWide.Has n e ty := by
    intro n e ty h
    simp only [layoutA, FieldList.Has, or_false] at h
    simp only [layoutWide, FieldList.Has, or_false]
    rcases h with h | h
    · exact Or.inr (Or.inr h)
    · exact Or.inl h
  have hhash : (layoutWide.names.map nameHash).Nodup := by decide
  ⟨rfl, hB, hrec, hnames, hsub, hhash,
    C6_schema_evolution .bits64 registryA registryWide "A" "B" layoutA layoutWide
      [.int .int32 1, .int .int32 2] 50 rfl hB (by decide) (by decide) hrec hnames hsub hhash
      (by decide)⟩

/-- C6 as stated fails: a record type with the field `secret int32`, which is not
exported, is registered under id 50 on both sides, so the field of the source layout
occurs in the destination layout with the same name and type, and the name hashes differ
pairwise.  The value with `secret = 1` is encoded without any field, and the decoded value
holds 0 in the field. -/
theorem C6_counterexample :
    hiddenRegistry.Holds "P" hiddenFields 50 ∧ (hiddenFields.names.map nameHash).Nodup ∧
      Encode .bits64 hiddenRegistry (.struct "P" hiddenFields [.int .int32 1]) =
        .ok [50, 0, 0, 0] ∧
      Decode .bits64 hiddenRegistry [50, 0, 0, 0] =
        .ok (some (.struct "P" hiddenFields [.int .int32 0])) ∧
      fieldValue "secret" hiddenFields [.int .int32 1] = some (.int .int32 1) ∧
      fieldValue "secret" hiddenFields [.int .int32 0] ≠ some (.int .int32 1) :=
  ⟨⟨rfl, rfl, rfl⟩, by decide, rfl, rfl, rfl, by simp [fieldValue, hiddenFields]⟩

/-- C7, evaluated on the code: the encoding of a map value, nil or not, is the two bytes
of the tag 15, and `Decode` returns nil from them; so the map of the package's test,
`map[int32]map[int32]int32{5: {3: 6}}`, does not come back. -/
theorem C7_map_not_restored (p : Platform) (reg : Registry) (key elem : GoType)
    (entries : List (Value × Value)) :
    Encode p reg (.map key elem entries) = .ok [15, 0] ∧
      Encode p reg (.nilMap key elem) = .ok [15, 0] ∧
      Decode p reg [15, 0] = .ok none ∧
      Encode .bits64 initRegistry testMap = .ok [15, 0] ∧
      Decode .bits64 initRegistry [15, 0] ≠ .ok (some testMap) := by
  have hd : ∀ (q : Platform) (r : Registry), Decode q r [15, 0] = .ok none := by
    intro q r
    have hb : (BufferFromBytes [15, 0]).At (leBytes 2 15 ++ []) := Buffer.At.start _
    unfold Decode
    rw [decodeInternal_header q r _ _ [] 15 [] (by decide) hb]
    simp [decodeSwitch, TypeIdBool, TypeIdInt, TypeIdInt8, TypeIdInt16, TypeIdInt32,
      TypeIdInt64, TypeIdUint, TypeIdUint8, TypeIdUint16, TypeIdUint32, TypeIdUint64,
      TypeIdFloat32, TypeIdFloat64, TypeIdString, TypeIdArray, TypeIdSlice, TypeIdMap]
  have he : ∀ (q : Platform) (r : Registry) (k e : GoType) (es : List (Value × Value)),
      Encode q r (.map k e es) = .ok [15, 0] := by
    intro q r k e es
    rw [Encode_eq]
    simp only [encBytes, headerBytes, typeTag, TypeIdMap, if_true]
    exact congrArg Except.ok (by decide)
  refine ⟨he p reg key elem entries, ?_, hd p reg, he _ _ _ _ _, ?_⟩
  · rw [Encode_eq]
    simp only [encBytes, headerBytes, typeTag, TypeIdMap, if_true]
    exact congrArg Except.ok (by decide)
  · rw [hd]
    simp

/-- C8: the encoding of a value of a fixed-width scalar kind is the tag of the kind
(bool 1, int8 3, int16 4, int32 5, int64 6, uint8 8, uint16 9, uint32 10, uint64 11) in two
little-endian bytes followed by the value in its width, little-endian and in two's
complement, a bool being the byte 1 for true and 0 for false; no width selector is
written.  In particular `true` is encoded as 01 00 01 and the int32 -42 as
05 00 D6 FF FF FF. -/
theorem C8_fixed_width_layout (p : Platform) (reg : Registry) :
    (∀ b : Bool, Encode p reg (.bool b) = .ok (leBytes 2 1 ++ [if b then 1 else 0])) ∧
    (∀ v : Int, Encode p reg (.int .int8 v) =
      .ok (leBytes 2 3 ++ leBytes 1 (twosComplement 1 v))) ∧
    (∀ v : Int, Encode p reg (.int .int16 v) =
      .ok (leBytes 2 4 ++ leBytes 2 (twosComplement 2 v))) ∧
    (∀ v : Int, Encode p reg (.int .int32 v) =
      .ok (leBytes 2 5 ++ leBytes 4 (twosComplement 4 v))) ∧
    (∀ v : Int, Encode p reg (.int .int64 v) =
      .ok (leBytes 2 6 ++ leBytes 8 (twosComplement 8 v))) ∧
    (∀ v : Nat, Encode p reg (.uint .uint8 v) = .ok (leBytes 2 8 ++ leBytes 1 v)) ∧
    (∀ v : Nat, Encode p reg (.uint .uint16 v) = .ok (leBytes 2 9 ++ leBytes 2 v)) ∧
    (∀ v : Nat, Encode p reg (.uint .uint32 v) = .ok (leBytes 2 10 ++ leBytes 4 v)) ∧
    (∀ v : Nat, Encode p reg (.uint .uint64 v) = .ok (leBytes 2 11 ++ leBytes 8 v)) ∧
    Encode p reg (.bool true) = .ok [0x01, 0x00, 0x01] ∧
    Encode p reg (.int .int32 (-42)) = .ok [0x05, 0x00, 0xD6, 0xFF, 0xFF, 0xFF] := by
  have hb : ∀ b : Bool, Encode p reg (.bool b) = .ok (leBytes 2 1 ++ [if b then 1 else 0]) := by
    intro b
    rw [Encode_eq]
    cases b <;> simp [encBytes, headerBytes, typeTag, TypeIdBool, leBytes] <;> rfl
  have h32 : ∀ v : Int, Encode p reg (.int .int32 v) =
      .ok (leBytes 2 5 ++ leBytes 4 (twosComplement 4 v)) := by
    intro v
    rw [Encode_eq]
    simp [encBytes, headerBytes, typeTag, intBytes, IntKind.size, TypeIdInt32]
  have ht : Encode p reg (.bool true) = .ok [0x01, 0x00, 0x01] := by
    rw [hb true]; exact congrArg Except.ok (by decide)
  have hm : Encode p reg (.int .int32 (-42)) = .ok [0x05, 0x00, 0xD6, 0xFF, 0xFF, 0xFF] := by
    rw [h32 (-42)]; exact congrArg Except.ok (by decide)
  refine ⟨hb, ?_, ?_, h32, ?_, ?_, ?_, ?_, ?_, ht, hm⟩
  all_goals
    intro v
    rw [Encode_eq]
    simp [encBytes, headerBytes, typeTag, intBytes, uintBytes, IntKind.size, UintKind.size,
      TypeIdInt8, TypeIdInt16, TypeIdInt32, TypeIdInt64, TypeIdUint8, TypeIdUint16,
      TypeIdUint32, TypeIdUint64]

/-- C9, as amended: the encoding of a value of a registered record type is the id of the
type in two bytes, the field count in two bytes and then, for every exported field whose
value is not the zero value of its type, in declaration order, the four little-endian
bytes of the FNV-1a hash of the field name followed by the encoding of the value with its
header.  The count field holds the two low-order bytes of the number of fields so
written, which is that number when at most 65535 fields are written; a zero field
contributes nothing, so a record whose fields are all zero is encoded in the four bytes of
the id and of a zero count. -/
theorem C9_record_layout (p : Platform) (reg : Registry) (name : String)
    (fields : FieldList) (vals : List Value) (id : Nat)
    (hid : reg.typeToTypeIdMapping (.struct name fields) = some id) :
    (Encode p reg (.struct name fields vals) =
      match writtenFields p reg fields vals with
      | .error e => .error e
      | .ok entries => .ok (leBytes 2 id ++ (leBytes 2 entries.length ++ entries.flatten))) ∧
    (∀ entries, writtenFields p reg fields vals = .ok entries → entries.length ≤ 65535 →
      leNat (leBytes 2 entries.length) = entries.length) ∧
    (allZero vals = true →
      Encode p reg (.struct name fields vals) = .ok (leBytes 2 id ++ [0, 0])) := by
  refine ⟨Encode_record_eq p reg name fields vals id hid, fun entries _ hle => ?_,
    fun hz => ?_⟩
  · rw [leNat_leBytes]
    exact Nat.mod_eq_of_lt (by omega)
  · rw [Encode_record_eq p reg name fields vals id hid,
      writtenFields_allZero p reg fields vals hz]
    rfl

/-- C9 at concrete inputs: `Foo{Bar: 7}` and `Foo{Bar: 0}` with `Foo` registered under
id 50. -/
theorem C9_record_layout_witness :
    fooRegistry.typeToTypeIdMapping (.struct "Foo" fooFields) = some 50 ∧
      Encode .bits64 fooRegistry (Foo 7) =
        .ok [50, 0, 1, 0, 0xBA, 0x7D, 0xBC, 0xDB, 5, 0, 7, 0, 0, 0] ∧
      Encode .bits64 fooRegistry (Foo 0) = .ok [50, 0, 0, 0] :=
  have h := C9_record_layout .bits64 fooRegistry "Foo" fooFields [.int .int32 7] 50 rfl
  have h0 := C9_record_layout .bits64 fooRegistry "Foo" fooFields [.int .int32 0] 50 rfl
  ⟨rfl, h.1.trans rfl, h0.2.2 rfl⟩

/-- C9 as stated fails: in the record with 65536 exported bool fields, all `true`, of a
type registered under id 50, every one of the 65536 fields is written, and the field count
of the encoding is `00 00`. -/
theorem C9_counterexample :
    (manyRegistry 65536).typeToTypeIdMapping (.struct "Many" (manyFields 65536)) = some 50 ∧
      ∃ entries,
        writtenFields .bits64 (manyRegistry 65536) (manyFields 65536)
          (List.replicate 65536 (.bool true)) = .ok entries ∧
        entries.length = 65536 ∧
        Encode .bits64 (manyRegistry 65536) (Many 65536) =
          .ok ([50, 0] ++ ([0, 0] ++ entries.flatten)) := by
  obtain ⟨entries, h1, h2, -⟩ := writtenFields_many .bits64 (manyRegistry 65536) 65536
  refine ⟨manyRegistry_id 65536, entries, h1, h2, ?_⟩
  rw [Many, Encode_record_eq .bits64 _ "Many" _ _ 50 (manyRegistry_id 65536), h1]
  show Except.ok (leBytes 2 50 ++ (leBytes 2 entries.length ++ entries.flatten)) = _
  rw [h2]
  exact congrArg (fun x => Except.ok (x.1 ++ (x.2 ++ entries.flatten)))
    (show (leBytes 2 50, leBytes 2 65536) = ([50, 0], [0, 0]) by decide)

/-- C10: an array or slice written with a header is encoded as the container tag (14 for
an array, 16 for a slice), the element count in two bytes, the length of the list of
element type tags in two bytes, the tags of that list at two bytes each (the element type,
then the element type of every array, slice or map below it, down to the first type that
is none of these), and the elements in header-less form; the header-less form of an array
or slice is its element count followed by its elements in header-less form, so the tag
list occurs once.  An array of n int32 values takes 8 + 4n bytes. -/
theorem C10_container_layout (p : Platform) (reg : Registry) (elem : GoType)
    (items : List Value) :
    (Encode p reg (.array elem items) =
      match headerlessAll p reg items with
      | .error e => .error e
      | .ok body =>
        .ok (leBytes 2 14 ++ (leBytes 2 items.length ++
          (leBytes 2 (nestedTagList reg elem).length ++
            ((nestedTagList reg elem).flatten ++ body))))) ∧
    (Encode p reg (.slice elem items) =
      match headerlessAll p reg items with
      | .error e => .error e
      | .ok body =>
        .ok (leBytes 2 16 ++ (leBytes 2 items.length ++
          (leBytes 2 (nestedTagList reg elem).length ++
            ((nestedTagList reg elem).flatten ++ body))))) ∧
    (Encode p reg (.nilSlice elem) =
      .ok (leBytes 2 16 ++ (leBytes 2 0 ++
        (leBytes 2 (nestedTagList reg elem).length ++ (nestedTagList reg elem).flatten)))) ∧
    (nestedTagList reg elem).map List.length = List.replicate (elemTypes elem).length 2 ∧
    (headerless p reg (.array elem items) =
      match headerlessAll p reg items with
      | .error e => .error e
      | .ok body => .ok (leBytes 2 items.length ++ body)) ∧
    (headerless p reg (.slice elem items) =
      match headerlessAll p reg items with
      | .error e => .error e
      | .ok body => .ok (leBytes 2 items.length ++ body)) ∧
    (∀ vs : List Int, ∃ bytes,
      Encode p reg (.array (.int .int32) (vs.map (Value.int .int32))) = .ok bytes ∧
        bytes.length = 8 + 4 * vs.length) := by
  have hlen : (nestedTagList reg elem).length = (elemTypes elem).length := by
    simp [nestedTagList]
  have hflat : (nestedTagList reg elem).flatten = tagListBytes reg (elemTypes elem) := by
    rw [tagListBytes_eq]; rfl
  refine ⟨?_, ?_, ?_, ?_, rfl, rfl, ?_⟩
  · rw [Encode_eq, hlen, hflat]
    simp only [encBytes, encItems_headerless]
    cases headerlessAll p reg items <;>
      simp [headerBytes, lengthBytes, typeTag, TypeIdArray]
  · rw [Encode_eq, hlen, hflat]
    simp only [encBytes, encItems_headerless]
    cases headerlessAll p reg items <;>
      simp [headerBytes, lengthBytes, typeTag, TypeIdSlice]
  · rw [Encode_eq, hlen, hflat]
    simp [encBytes, headerBytes, lengthBytes, typeTag, TypeIdSlice]
  · unfold nestedTagList
    generalize elemTypes elem = ts
    induction ts with
    | nil => rfl
    | cons t rest ih =>
      simp only [List.map_cons, List.length_cons, List.replicate_succ, ih, tagBytes_eq,
        leBytes_length]
  · intro vs
    have hbody : ∃ body, encItems p reg (vs.map (Value.int .int32)) = .ok body ∧
        body.length = 4 * vs.length := by
      induction vs with
      | nil => exact ⟨[], rfl, rfl⟩
      | cons v rest ih =>
        obtain ⟨body, h1, h2⟩ := ih
        refine ⟨leBytes 4 (twosComplement 4 v) ++ body, ?_, ?_⟩
        · simp [encItems, encBytes, h1, headerBytes, intBytes, IntKind.size]
        · simp [leBytes_length, h2]; omega
    obtain ⟨body, h1, h2⟩ := hbody
    refine ⟨headerBytes reg true (.array (vs.map (Value.int .int32)).length (.int .int32)) ++
      (lengthBytes reg (.int .int32) (vs.map (Value.int .int32)).length true ++ body), ?_, ?_⟩
    · rw [Encode_eq]
      simp only [encBytes, h1]
    · simp [headerBytes, lengthBytes, leBytes_length, elemTypes, tagListBytes, h2]
      omega

/-- C11, as amended: for a width w of 1, 2, 4 or 8 and a signed number v of w bytes, the
stream of the tag 2, the byte w and v in w little-endian two's-complement bytes is decoded
to the platform `int` that the conversion `int(v)` gives; it equals v when w is not larger
than the word of the decoding platform, and whenever v lies in the range of its `int`.  The
same holds for an unsigned number below 2^(8w), the tag 7 and the platform `uint`. -/
theorem C11_width_selector (p : Platform) (reg : Registry) (w : Nat)
    (hw : w = 1 ∨ w = 2 ∨ w = 4 ∨ w = 8) :
    (∀ v : Int, -(2 : Int) ^ (8 * w - 1) ≤ v → v < (2 : Int) ^ (8 * w - 1) →
      Decode p reg (leBytes 2 2 ++ (leBytes 1 w ++ leBytes w (twosComplement w v))) =
          .ok (some (.int .int (wrapSigned p.intSize v))) ∧
        (w ≤ p.intSize ∨ IntKind.InRange p .int v → wrapSigned p.intSize v = v)) ∧
    (∀ u : Nat, u < 2 ^ (8 * w) →
      Decode p reg (leBytes 2 7 ++ (leBytes 1 w ++ leBytes w u)) =
          .ok (some (.uint .uint (wrapUnsigned p.intSize (u : Int)))) ∧
        (w ≤ p.intSize ∨ UintKind.InRange p .uint u → wrapUnsigned p.intSize (u : Int) = u)) := by
  have hp : 0 < p.intSize := by cases p <;> decide
  refine ⟨fun v h1 h2 => ⟨Decode_int_selector p reg w hw v h1 h2, fun h => ?_⟩,
    fun u hu => ⟨Decode_uint_selector p reg w hw u hu, fun h => ?_⟩⟩
  · have hr : IntKind.InRange p .int v := by
      rcases h with h | h
      · have hpow : (2 : Int) ^ (8 * w - 1) ≤ (2 : Int) ^ (8 * p.intSize - 1) :=
          pow_le_pow_right₀ (by norm_num) (by omega)
        exact ⟨by simp only [IntKind.size]; omega, by simp only [IntKind.size]; omega⟩
      · exact h
    exact wrapSigned_of_inRange _ v hp hr.1 hr.2
  · have hr : u < 2 ^ (8 * p.intSize) := by
      rcases h with h | h
      · exact lt_of_lt_of_le hu (Nat.pow_le_pow_right (by norm_num) (by omega))
      · exact h
    exact wrapUnsigned_of_lt _ u hr

/-- C11 at concrete inputs: the int -2 of a 16-bit producer and the uint 65535 of a 16-bit
producer, decoded on a 64-bit platform. -/
theorem C11_width_selector_witness :
    Decode .bits64 initRegistry [2, 0, 2, 0xFE, 0xFF] = .ok (some (.int .int (-2))) ∧
      Decode .bits64 initRegistry [7, 0, 2, 0xFF, 0xFF] = .ok (some (.uint .uint 65535)) := by
  have h := C11_width_selector .bits64 initRegistry 2 (by decide)
  have hs := h.1 (-2) (by decide) (by decide)
  have hu := h.2 65535 (by decide)
  have e1 : leBytes 2 2 ++ (leBytes 1 2 ++ leBytes 2 (twosComplement 2 (-2))) =
      [2, 0, 2, 0xFE, 0xFF] := by decide
  have e2 : leBytes 2 7 ++ (leBytes 1 2 ++ leBytes 2 65535) = [7, 0, 2, 0xFF, 0xFF] := by
    decide
  rw [e1, hs.2 (Or.inl (by decide))] at hs
  rw [e2, hu.2 (Or.inl (by decide))] at hu
  exact ⟨hs.1, hu.1⟩

/-- C11 as stated fails: on a 32-bit platform the stream of the tag 2, the width 8 and the
number 2147483648, which eight bytes represent, is decoded to the `int` -2147483648, and
the stream of the tag 7, the width 8 and 4294967296 to the `uint` 0. -/
theorem C11_counterexample :
    Decode .bits32 initRegistry
        (leBytes 2 2 ++ (leBytes 1 8 ++ leBytes 8 (twosComplement 8 2147483648))) =
        .ok (some (.int .int (-2147483648))) ∧
      Decode .bits32 initRegistry (leBytes 2 7 ++ (leBytes 1 8 ++ leBytes 8 4294967296)) =
        .ok (some (.uint .uint 0)) ∧
      Value.int .int (-2147483648) ≠ Value.int .int 2147483648 ∧
      Value.uint .uint 0 ≠ Value.uint .uint 4294967296 :=
  ⟨rfl, rfl, by simp, by simp⟩

/-- C12, as amended: a record is encoded under layout A, registered at the id t (a
`uint16` of 18 or more), with a field holding a non-zero int32 value v, and decoded when
t is registered to layout B, which declares the field of that name as int64 (exported, as
the name makes it).  Let all fields of A be exported, with names different from one
another, and hold zero or a value the decoder reads back from its encoding (such as a
bool, an integer or a string of at most 65535 bytes); let every other field of A be
declared in B with its own type, the name hashes of B differ pairwise and at most 65535
fields of the record be non-zero.  Then `Decode` returns a value of layout B whose field
of that name is the int64 of the same number v, negative numbers included; the other
shared fields hold what they held in A and the fields A lacks hold zero. -/
theorem C12_int32_field_into_int64 (p : Platform) (regA regB : Registry)
    (nameA nameB : String) (fieldsA fieldsB : FieldList) (valsA : List Value) (t : Nat)
    (name : String) (x : Int)
    (hA : regA.typeToTypeIdMapping (.struct nameA fieldsA) = some t)
    (hB : regB.Holds nameB fieldsB t) (ht : 18 ≤ t) (ht2 : t < 65536)
    (hrec : RecordOf (Transfers p regA regB) fieldsA valsA)
    (hnamesA : fieldsA.names.Nodup)
    (hothers : ∀ n e ty, fieldsA.Has n e ty → n ≠ name → fieldsB.Has n e ty)
    (hhash : (fieldsB.names.map nameHash).Nodup)
    (hcount : nonZeroCount valsA ≤ 65535)
    (hv : fieldValue name fieldsA valsA = some (.int .int32 x))
    (hx : IntKind.InRange p .int32 x) (hx0 : x ≠ 0)
    (hdst : fieldsB.Has name true (.int .int64)) :
    ∃ bytes valsB, Encode p regA (.struct nameA fieldsA valsA) = .ok bytes ∧
      Decode p regB bytes = .ok (some (.struct nameB fieldsB valsB)) ∧
      valsB.length = fieldsB.length ∧
      fieldValue name fieldsB valsB = some (.int .int64 x) ∧
      (∀ n w, n ≠ name → fieldValue n fieldsA valsA = some w →
        fieldValue n fieldsB valsB = some w) ∧
      (∀ n e ty, fieldsB.Has n e ty → n ∉ fieldsA.names →
        fieldValue n fieldsB valsB = some (zeroValue ty)) := by
  obtain ⟨i, hfind, _⟩ := find_of_has hdst (List.Nodup.of_map _ hhash)
  exact Decode_Encode_coerced p regA regB nameA nameB fieldsA fieldsB valsA t name
    (.int .int32 x) (.int .int64 x) hA hB ht ht2 hrec hnamesA hothers hhash hcount hv
    (by simpa [Value.IsZero] using hx0) (lands_int32_int64 p fieldsB name x i hfind hx)

/-- C12 at a concrete input: `A{X: -5, Y: 2}` with `X, Y int32`, decoded under the layout
`X int64, Y int32` registered at the same id 50. -/
theorem C12_int32_field_into_int64_witness :
    registryLong.Holds "B" layoutLong 50 ∧
      fieldValue "X" layoutA [.int .int32 (-5), .int .int32 2] = some (.int .int32 (-5)) ∧
      layoutLong.Has "X" true (.int .int64) ∧
      ∃ bytes valsB,
        Encode .bits64 registryA (.struct "A" layoutA [.int .int32 (-5), .int .int32 2]) =
          .ok bytes ∧
        Decode .bits64 registryLong bytes = .ok (some (.struct "B" layoutLong valsB)) ∧
        valsB.length = layoutLong.length ∧
        fieldValue "X" layoutLong valsB = some (.int .int64 (-5)) ∧
        (∀ n w, n ≠ "X" → fieldValue n layoutA [.int .int32 (-5), .int .int32 2] = some w →
          fieldValue n layoutLong valsB = some w) ∧
        (∀ n e ty, layoutLong.Has n e ty → n ∉ layoutA.names →
          fieldValue n layoutLong valsB = some (zeroValue ty)) :=
  have hB : registryLong.Holds "B" layoutLong 50 := ⟨rfl, rfl, rfl⟩
  have hdst : layoutLong.Has "X" true (.int .int64) := by simp [layoutLong, FieldList.Has]
  ⟨hB, rfl, hdst,
    C12_int32_field_into_int64 .bits64 registryA registryLong "A" "B" layoutA layoutLong
      [.int .int32 (-5), .int .int32 2] 50 "X" (-5) rfl hB (by decide) (by decide)
      (recordOf_mono (transfers_of_simple .bits64 registryA registryLong) layoutA _
        (by simp [RecordOf, layoutA, Value.IsSimple, Value.IsScalar, IntKind.InRange,
          IntKind.size, Value.typeOf]))
      (by decide)
      (by
        intro n e ty h hn
        simp only [layoutA, FieldList.Has, or_false] at h
        simp only [layoutLong, FieldList.Has, or_false]
        rcases h with h | h
        · exact absurd h.1.symm hn
        · exact Or.inr h)
      (by decide) (by decide) rfl
      (by simp [IntKind.InRange, IntKind.size]) (by decide) hdst⟩

/-- C12 as stated fails.  The record `A{S: s, X: -5}` with `S string, X int32` and a text
`s` of 65536 bytes is decoded under the layout `S string, X int64` registered at the same
id 50 to `B{S: "", X: 0}`: the length of the text is written as `00 00`, and the decoder
takes bytes of the text for the next field.  And the record `A{W: 1, X: -5}` with
`W, X int32` is decoded under the layout with the single field `X int64` to `B{X: 0}`: the
decoder does not consume the value of the field `W`, which the layout lacks. -/
theorem C12_counterexample :
    layoutNoteLong.Has "X" true (.int .int64) ∧
      (∃ bytes, Encode .bits64 registryNote
          (.struct "A" layoutNote [.string longText, .int .int32 (-5)]) = .ok bytes ∧
        Decode .bits64 registryNoteLong bytes =
          .ok (some (.struct "B" layoutNoteLong [.string [], .int .int64 0]))) ∧
      layoutOnlyLong.Has "X" true (.int .int64) ∧
      (∃ bytes, Encode .bits64 registryWX
          (.struct "A" layoutWX [.int .int32 1, .int .int32 (-5)]) = .ok bytes ∧
        Decode .bits64 registryOnlyLong bytes =
          .ok (some (.struct "B" layoutOnlyLong [.int .int64 0]))) ∧
      Value.int .int64 0 ≠ Value.int .int64 (-5) := by
  refine ⟨by simp [layoutNoteLong, FieldList.Has], ?_,
    by simp [layoutOnlyLong, FieldList.Has], ⟨_, rfl, rfl⟩, by simp⟩
  exact Decode_long_text_then_lost .bits64 registryNote registryNoteLong "A" "B" "S" "X" 50
    (.int .int32) (.int .int32 (-5)) _ 0x61616161 (List.replicate 65532 0x61) layoutNoteLong
    _ rfl rfl (by decide) (by decide) (by decide) (by decide) (by decide) (by decide)
    (by rw [List.length_append, leBytes_length, List.length_replicate]) rfl rfl rfl

/-- C13, as amended: a record is encoded under layout A, registered at the id t (a
`uint16` of 18 or more), with a field holding a slice of int32 values that is not empty
and has at most 65535 elements, and decoded when t is registered to layout B, which
declares the field of that name as a slice of int64 (exported, as the name makes it).  Let
all fields of A be exported, with names different from one another, and let every other
field of A hold zero or a value the decoder reads back from its encoding (such as a bool,
an integer or a string of at most 65535 bytes) and be declared in B with its own type;
let the name hashes of B differ pairwise and at most 65535 fields of the record be
non-zero.  Then `Decode` returns a value of layout B whose field of that name is a slice
of int64 of the same length, its i-th element the int64 of the same number as the i-th
encoded element; the other shared fields hold what they held in A and the fields A lacks
hold zero. -/
theorem C13_int32_slice_into_int64_slice (p : Platform) (regA regB : Registry)
    (nameA nameB : String) (fieldsA fieldsB : FieldList) (valsA : List Value) (t : Nat)
    (name : String) (xs : List Int)
    (hA : regA.typeToTypeIdMapping (.struct nameA fieldsA) = some t)
    (hB : regB.Holds nameB fieldsB t) (ht : 18 ≤ t) (ht2 : t < 65536)
    (hrec : RecordOf (fun w => w = .slice (.int .int32) (xs.map (Value.int .int32)) ∨
      Transfers p regA regB w) fieldsA valsA)
    (hnamesA : fieldsA.names.Nodup)
    (hothers : ∀ n e ty, fieldsA.Has n e ty → n ≠ name → fieldsB.Has n e ty)
    (hhash : (fieldsB.names.map nameHash).Nodup)
    (hcount : nonZeroCount valsA ≤ 65535)
    (hv : fieldValue name fieldsA valsA =
      some (.slice (.int .int32) (xs.map (Value.int .int32))))
    (hne : xs ≠ []) (hlen : xs.length ≤ 65535)
    (hx : ∀ x ∈ xs, IntKind.InRange p .int32 x)
    (hdst : fieldsB.Has name true (.slice (.int .int64))) :
    ∃ bytes valsB, Encode p regA (.struct nameA fieldsA valsA) = .ok bytes ∧
      Decode p regB bytes = .ok (some (.struct nameB fieldsB valsB)) ∧
      valsB.length = fieldsB.length ∧
      fieldValue name fieldsB valsB =
        some (.slice (.int .int64) (xs.map (Value.int .int64))) ∧
      (∀ n w, n ≠ name → fieldValue n fieldsA valsA = some w →
        fieldValue n fieldsB valsB = some w) ∧
      (∀ n e ty, fieldsB.Has n e ty → n ∉ fieldsA.names →
        fieldValue n fieldsB valsB = some (zeroValue ty)) := by
  obtain ⟨i, hfind, _⟩ := find_of_has hdst (List.Nodup.of_map _ hhash)
  have hslice := transfers_of_slice p regA regB (.int .int32) (xs.map (Value.int .int32))
    (int32_slice_isNested p xs hne hlen hx) (by decide)
  have hrec2 : RecordOf (Transfers p regA regB) fieldsA valsA :=
    recordOf_mono (fun w hw => by
      rcases hw with rfl | hw
      · exact hslice
      · exact hw) fieldsA valsA hrec
  exact Decode_Encode_coerced p regA regB nameA nameB fieldsA fieldsB valsA t name
    _ _ hA hB ht ht2 hrec2 hnamesA hothers hhash hcount hv rfl
    (lands_slice_int32_int64 p fieldsB name xs i hfind hne hx)

/-- C13 at a concrete input: `S{Xs: []int32{1, -2, 3}}`, decoded under the type with
`Xs []int64` registered at the same id 50. -/
theorem C13_int32_slice_into_int64_slice_witness :
    seqRegistry64.Holds "S" seqFields64 50 ∧
      seqFields64.Has "Xs" true (.slice (.int .int64)) ∧
      ∃ bytes valsB,
        Encode .bits64 seqRegistry32 (.struct "S" seqFields32
          [.slice (.int .int32) ([1, -2, 3].map (Value.int .int32))]) = .ok bytes ∧
        Decode .bits64 seqRegistry64 bytes = .ok (some (.struct "S" seqFields64 valsB)) ∧
        valsB.length = seqFields64.length ∧
        fieldValue "Xs" seqFields64 valsB =
          some (.slice (.int .int64) ([1, -2, 3].map (Value.int .int64))) ∧
        (∀ n w, n ≠ "Xs" → fieldValue n seqFields32
            [.slice (.int .int32) ([1, -2, 3].map (Value.int .int32))] = some w →
          fieldValue n seqFields64 valsB = some w) ∧
        (∀ n e ty, seqFields64.Has n e ty → n ∉ seqFields32.names →
          fieldValue n seqFields64 valsB = some (zeroValue ty)) :=
  have hB : seqRegistry64.Holds "S" seqFields64 50 := ⟨rfl, rfl, rfl⟩
  have hdst : seqFields64.Has "Xs" true (.slice (.int .int64)) := by
    simp [seqFields64, FieldList.Has]
  ⟨hB, hdst,
    C13_int32_slice_into_int64_slice .bits64 seqRegistry32 seqRegistry64 "S" "S"
      seqFields32 seqFields64 _ 50 "Xs" [1, -2, 3] rfl hB (by decide) (by decide)
      (by simp [RecordOf, seqFields32, Value.typeOf])
      (by decide)
      (by
        intro n e ty h hn
        simp only [seqFields32, FieldList.Has, or_false] at h
        exact absurd h.1.symm hn)
      (by decide) (by decide) rfl (by decide) (by decide)
      (by simp [IntKind.InRange, IntKind.size]) hdst⟩

/-- C13 as stated fails.  The record `S{Xs: xs}` with a slice `xs` of 65536 int32
elements, all 1, is decoded under the type with `Xs []int64` registered at the same id 50
to the record whose field `Xs` is nil, not a slice of 65536 elements: the element count is
written as `00 00`.  And the record `S{W: 1, Xs: []int32{1, -2, 3}}` with a field `W int32`
in front of the slice is decoded under the same type to the record whose field `Xs` is
nil: the decoder does not consume the value of the field `W`, which the type lacks. -/
theorem C13_counterexample :
    seqRegistry64.Holds "S" seqFields64 50 ∧
      seqFields64.Has "Xs" true (.slice (.int .int64)) ∧
      (∃ bytes, Encode .bits64 seqRegistry32 (.struct "S" seqFields32
          [.slice (.int .int32) (List.replicate 65536 (Value.int .int32 1))]) = .ok bytes ∧
        Decode .bits64 seqRegistry64 bytes =
          .ok (some (.struct "S" seqFields64 [.nilSlice (.int .int64)]))) ∧
      fieldValue "Xs" seqFields64 [.nilSlice (.int .int64)] ≠
        some (.slice (.int .int64) (List.replicate 65536 (Value.int .int64 1))) ∧
      (∃ bytes, Encode .bits64 registryWSeq (.struct "S" layoutWSeq
          [.int .int32 1, .slice (.int .int32) ([1, -2, 3].map (Value.int .int32))]) =
          .ok bytes ∧
        Decode .bits64 seqRegistry64 bytes =
          .ok (some (.struct "S" seqFields64 [.nilSlice (.int .int64)]))) := by
  obtain ⟨body, hbody⟩ := encItems_replicate_int32 .bits64 seqRegistry32 1 65536
  refine ⟨⟨rfl, rfl, rfl⟩, by simp [seqFields64, FieldList.Has], ?_, ?_, ⟨_, rfl, rfl⟩⟩
  · exact Decode_Encode_long_slice .bits64 seqRegistry32 seqRegistry64 "S" "S" "Xs" 50 _ body
      seqFields64 rfl rfl (by decide) (by decide) (by decide) (by decide)
      (List.length_replicate _ _) hbody
  · intro h
    have h2 : fieldValue "Xs" seqFields64 [.nilSlice (.int .int64)] =
        some (.nilSlice (.int .int64)) := rfl
    rw [h2] at h
    exact Value.noConfusion (Option.some.inj h)

/-- C14, as amended: `Decode` reports no error for a type id of 18 or more (an id is a
`uint16`) that is not in the registry.  A stream whose top-level tag is such an id is
decoded to nil, the result of the empty input; a record stream in which the value of the
only field entry has such a tag is decoded to the record with every field at its zero
value. -/
theorem C14_unknown_type_id (p : Platform) (reg : Registry) (id : Nat)
    (hid : 18 ≤ id) (hid2 : id < 65536) (hun : reg.typeIdToTypeMapping id = none) :
    (∀ rest, Decode p reg (leBytes 2 id ++ rest) = .ok none) ∧
    Decode p reg [] = .ok none ∧
    (∀ (t : Nat) (name : String) (fields : FieldList) (fname : String) (rest : List Byte),
      reg.Holds name fields t → 18 ≤ t → t < 65536 → fname ∈ fields.names → fname ≠ "" →
      (fields.names.map nameHash).Nodup →
      Decode p reg (leBytes 2 t ++ (leBytes 2 1 ++ (leBytes 4 (nameHash fname) ++
        (leBytes 2 id ++ rest)))) = .ok (some (zeroValue (.struct name fields)))) :=
  ⟨Decode_unknown_id p reg id hid hid2 hun, rfl,
    fun t name fields fname rest hreg ht ht2 hmem hne hhash =>
      Decode_unknown_id_in_field p reg id hid hid2 hun t name fields fname rest hreg ht ht2
        hmem hne hhash⟩

/-- C14 at a concrete input: the id 99 under the registry that holds `Foo` at id 50. -/
theorem C14_unknown_type_id_witness :
    fooRegistry.typeIdToTypeMapping 99 = none ∧
      Decode .bits64 fooRegistry [99, 0] = .ok none ∧
      Decode .bits64 fooRegistry [] = .ok none ∧
      Decode .bits64 fooRegistry [50, 0, 1, 0, 0xBA, 0x7D, 0xBC, 0xDB, 99, 0] =
        .ok (some (Foo 0)) := by
  have h := C14_unknown_type_id .bits64 fooRegistry 99 (by decide) (by decide) rfl
  have h1 := h.1 []
  have h3 := h.2.2 50 "Foo" fooFields "Bar" [] ⟨rfl, rfl, rfl⟩ (by decide) (by decide)
    (by decide) (by decide) (by decide)
  have e1 : leBytes 2 99 ++ [] = ([99, 0] : List Byte) := by decide
  have e3 : leBytes 2 50 ++ (leBytes 2 1 ++ (leBytes 4 (nameHash "Bar") ++
      (leBytes 2 99 ++ []))) = ([50, 0, 1, 0, 0xBA, 0x7D, 0xBC, 0xDB, 99, 0] : List Byte) := by
    decide
  rw [e1] at h1
  rw [e3] at h3
  exact ⟨rfl, h1, h.2.1, h3⟩

/-- C14 as stated fails: under the registry that holds only `Foo`, at id 50, the stream
of the unregistered id 99 is decoded to nil, which is also the result of the empty input,
and the record stream whose field `Bar` holds a value of id 99 is decoded to the value
`Foo{Bar: 0}`; neither outcome is an error. -/
theorem C14_counterexample :
    fooRegistry.typeIdToTypeMapping 99 = none ∧
      Decode .bits64 fooRegistry [99, 0] = .ok none ∧
      Decode .bits64 fooRegistry [99, 0] = Decode .bits64 fooRegistry [] ∧
      Decode .bits64 fooRegistry [50, 0, 1, 0, 0xBA, 0x7D, 0xBC, 0xDB, 99, 0] =
        .ok (some (Foo 0)) :=
  ⟨rfl, rfl, rfl, rfl⟩

/-- C15, as amended: `Decode` has no truncated-input error.  Where a prefix of an
encoding stops in front of a value, the call of `decodeInternal` for that value finds no
byte left and returns nil.  So for a record of a type with one field, exported and not
zero, registered under an id of 18 or more (an id is a `uint16`), the prefix of the
encoding that stops behind the hash of the field name, a proper prefix, is decoded to a
value, the record with its field at the zero value; and for an array or slice whose tag
list has at most 65535 tags, the prefix of the encoding that stops behind the tag list, a
proper prefix when the elements take any bytes, is decoded to nil, the result of the empty
input. -/
theorem C15_truncated_at_value_boundary (p : Platform) (reg : Registry) :
    (∀ (fuel : Nat) (b : Buffer) (tids : List TypeId) (tid : TypeId), b.LeftToRead = 0 →
      decodeInternal p reg (fuel + 1) b tids tid = .ok (none, b)) ∧
    (∀ (t : Nat) (name fname : String) (ty : GoType) (v : Value) (enc : List Byte),
      reg.Holds name (.cons fname true ty .nil) t → 18 ≤ t → t < 65536 → fname ≠ "" →
      v.IsZero = false → Encode p reg v = .ok enc →
      Encode p reg (.struct name (.cons fname true ty .nil) [v]) =
          .ok ((leBytes 2 t ++ (leBytes 2 1 ++ leBytes 4 (nameHash fname))) ++ enc) ∧
        enc ≠ [] ∧
        Decode p reg (leBytes 2 t ++ (leBytes 2 1 ++ leBytes 4 (nameHash fname))) =
          .ok (some (.struct name (.cons fname true ty .nil) [zeroValue ty]))) ∧
    (∀ (elem : GoType) (items : List Value) (body : List Byte),
      (elemTypes elem).length ≤ 65535 → headerlessAll p reg items = .ok body →
      Encode p reg (.array elem items) =
          .ok ((leBytes 2 14 ++ (leBytes 2 items.length ++
            (leBytes 2 (elemTypes elem).length ++ tagListBytes reg (elemTypes elem)))) ++
              body) ∧
        Decode p reg (leBytes 2 14 ++ (leBytes 2 items.length ++
          (leBytes 2 (elemTypes elem).length ++ tagListBytes reg (elemTypes elem)))) =
            .ok none ∧
        Encode p reg (.slice elem items) =
          .ok ((leBytes 2 16 ++ (leBytes 2 items.length ++
            (leBytes 2 (elemTypes elem).length ++ tagListBytes reg (elemTypes elem)))) ++
              body) ∧
        Decode p reg (leBytes 2 16 ++ (leBytes 2 items.length ++
          (leBytes 2 (elemTypes elem).length ++ tagListBytes reg (elemTypes elem)))) =
            .ok none) ∧
    Decode p reg [] = .ok none := by
  refine ⟨fun fuel b tids tid h => decodeInternal_exhausted p reg fuel b tids tid h, ?_, ?_,
    rfl⟩
  · intro t name fname ty v enc hreg ht ht2 hne hz henc
    refine ⟨?_, ?_, ?_⟩
    · rw [Encode_record_eq p reg name _ _ t hreg.1]
      simp [writtenFields, hz, henc]
    · rw [Encode_eq] at henc
      exact encBytes_header_ne_nil p reg false v enc henc
    · have h := Decode_record_hash_only p reg t name (.cons fname true ty .nil) fname hreg ht
        ht2 (by simp [FieldList.names]) hne (by simp [FieldList.names])
      rw [h, zeroValue_struct]
      rfl
  · intro elem items body hd hbody
    refine ⟨?_, Decode_container_header p reg 14 (Or.inl rfl) elem _ hd, ?_,
      Decode_container_header p reg 16 (Or.inr rfl) elem _ hd⟩
    · rw [Encode_eq]
      simp [encBytes, encItems_headerless, hbody, headerBytes, lengthBytes, typeTag,
        TypeIdArray]
    · rw [Encode_eq]
      simp [encBytes, encItems_headerless, hbody, headerBytes, lengthBytes, typeTag,
        TypeIdSlice]

/-- C15 at concrete inputs: `Foo{Bar: 7}` with `Foo` registered under id 50, cut behind
the hash of `Bar`, and the array `[2]int32{1, 2}`, cut behind its tag list. -/
theorem C15_truncated_at_value_boundary_witness :
    fooRegistry.Holds "Foo" fooFields 50 ∧
      Encode .bits64 fooRegistry (Foo 7) =
        .ok ([50, 0, 1, 0, 0xBA, 0x7D, 0xBC, 0xDB] ++ [5, 0, 7, 0, 0, 0]) ∧
      Decode .bits64 fooRegistry [50, 0, 1, 0, 0xBA, 0x7D, 0xBC, 0xDB] =
        .ok (some (Foo 0)) ∧
      Encode .bits64 fooRegistry (.array (.int .int32) [.int .int32 1, .int .int32 2]) =
        .ok ([14, 0, 2, 0, 1, 0, 5, 0] ++ [1, 0, 0, 0, 2, 0, 0, 0]) ∧
      Decode .bits64 fooRegistry [14, 0, 2, 0, 1, 0, 5, 0] = .ok none := by
  have h := C15_truncated_at_value_boundary .bits64 fooRegistry
  have hreg : fooRegistry.Holds "Foo" fooFields 50 := ⟨rfl, rfl, rfl⟩
  have h1 := h.2.1 50 "Foo" "Bar" (.int .int32) (.int .int32 7) [5, 0, 7, 0, 0, 0] hreg
    (by decide) (by decide) (by decide) rfl rfl
  have h2 := h.2.2.1 (.int .int32) [.int .int32 1, .int .int32 2] [1, 0, 0, 0, 2, 0, 0, 0]
    (by decide) rfl
  have e1 : leBytes 2 50 ++ (leBytes 2 1 ++ leBytes 4 (nameHash "Bar")) =
      ([50, 0, 1, 0, 0xBA, 0x7D, 0xBC, 0xDB] : List Byte) := by decide
  have e2 : leBytes 2 14 ++ (leBytes 2 [Value.int .int32 1, Value.int .int32 2].length ++
      (leBytes 2 (elemTypes (.int .int32)).length ++
        tagListBytes fooRegistry (elemTypes (.int .int32)))) =
      ([14, 0, 2, 0, 1, 0, 5, 0] : List Byte) := by decide
  rw [e1] at h1
  rw [e2] at h2
  exact ⟨hreg, h1.1, h1.2.2, h2.1, h2.2.1⟩

/-- C15 as stated fails: the first eight bytes of the encoding of `Foo{Bar: 7}`, up to
the hash of the field, are decoded to the value `Foo{Bar: 0}`; the first eight bytes of
the encoding of the array `[2]int32{1, 2}`, up to the tag list, are decoded to nil, the
result of the empty input; and its first twelve bytes, up to the first element, make the
decoder panic.  No read goes past the last byte of the buffer in any of the three runs. -/
theorem C15_counterexample :
    Encode .bits64 fooRegistry (Foo 7) =
        .ok ([50, 0, 1, 0, 0xBA, 0x7D, 0xBC, 0xDB] ++ [5, 0, 7, 0, 0, 0]) ∧
      Decode .bits64 fooRegistry [50, 0, 1, 0, 0xBA, 0x7D, 0xBC, 0xDB] =
        .ok (some (Foo 0)) ∧
      Encode .bits64 initRegistry (.array (.int .int32) [.int .int32 1, .int .int32 2]) =
        .ok ([14, 0, 2, 0, 1, 0, 5, 0] ++ [1, 0, 0, 0, 2, 0, 0, 0]) ∧
      Decode .bits64 initRegistry [14, 0, 2, 0, 1, 0, 5, 0] = .ok none ∧
      Decode .bits64 initRegistry [14, 0, 2, 0, 1, 0, 5, 0] =
        Decode .bits64 initRegistry [] ∧
      Decode .bits64 initRegistry [14, 0, 2, 0, 1, 0, 5, 0, 1, 0, 0, 0] = .error .panic :=
  ⟨rfl, rfl, rfl, rfl, rfl, rfl⟩

/-- C16, as amended: `Encode` reports no error for a record value whose type was never
registered; it writes the type id 0 where the id of a registered type would stand.  At
top level the encoding is the id 0, the field count and the written fields, four zero
bytes for a record whose fields are all zero; for a slice of such records the tag list
holds the id 0; and as the field of a registered record the value is written with the
id 0 behind the hash of the field name. -/
theorem C16_unregistered_record_type (p : Platform) (reg : Registry) (name : String)
    (fields : FieldList)
    (hun : reg.typeToTypeIdMapping (.struct name fields) = none) :
    (∀ vals, Encode p reg (.struct name fields vals) =
      match writtenFields p reg fields vals with
      | .error e => .error e
      | .ok entries =>
        .ok (leBytes 2 0 ++ (leBytes 2 entries.length ++ entries.flatten))) ∧
    (∀ vals, allZero vals = true →
      Encode p reg (.struct name fields vals) = .ok [0, 0, 0, 0]) ∧
    (∀ items, Encode p reg (.slice (.struct name fields) items) =
      match headerlessAll p reg items with
      | .error e => .error e
      | .ok body =>
        .ok (leBytes 2 16 ++ (leBytes 2 items.length ++
          (leBytes 2 1 ++ (leBytes 2 0 ++ body))))) ∧
    (∀ (outer fname : String) (id : Nat) (vals : List Value),
      reg.typeToTypeIdMapping
        (.struct outer (.cons fname true (.struct name fields) .nil)) = some id →
      allZero vals = false →
      Encode p reg (.struct outer (.cons fname true (.struct name fields) .nil)
        [.struct name fields vals]) =
        match writtenFields p reg fields vals with
        | .error e => .error e
        | .ok entries =>
          .ok (leBytes 2 id ++ (leBytes 2 1 ++ (leBytes 4 (nameHash fname) ++
            (leBytes 2 0 ++ (leBytes 2 entries.length ++ entries.flatten)))))) := by
  refine ⟨fun vals => Encode_unregistered_eq p reg name fields vals hun, fun vals hz => ?_,
    fun items => ?_, fun outer fname id vals hid hz => ?_⟩
  · rw [Encode_unregistered_eq p reg name fields vals hun,
      writtenFields_allZero p reg fields vals hz]
    rfl
  · rw [Encode_eq]
    simp only [encBytes, encItems_headerless]
    cases headerlessAll p reg items <;>
      simp [headerBytes, lengthBytes, typeTag, TypeIdSlice, elemTypes, tagListBytes, hun]
  · rw [Encode_record_eq p reg outer _ _ id hid]
    simp only [writtenFields, Value.IsZero, hz, Bool.not_false, Bool.and_self, if_true,
      Encode_unregistered_eq p reg name fields vals hun]
    cases writtenFields p reg fields vals <;> simp

/-- C16 at a concrete input: `Foo{Bar: 7}` under the registry of `init`, which does not
hold `Foo`. -/
theorem C16_unregistered_record_type_witness :
    initRegistry.typeToTypeIdMapping (.struct "Foo" fooFields) = none ∧
      Encode .bits64 initRegistry (Foo 7) =
        .ok [0, 0, 1, 0, 0xBA, 0x7D, 0xBC, 0xDB, 5, 0, 7, 0, 0, 0] ∧
      Encode .bits64 initRegistry (Foo 0) = .ok [0, 0, 0, 0] :=
  have h := C16_unregistered_record_type .bits64 initRegistry "Foo" fooFields rfl
  ⟨rfl, (h.1 [.int .int32 7]).trans rfl, h.2.1 [.int .int32 0] rfl⟩

/-- C16 as stated fails: under a registry that does not hold `Foo`, the encoder produces
bytes for `Foo{Bar: 7}` at top level, as the element of a slice and as the field of the
registered record `Box`; each time the id 0 stands for the type. -/
theorem C16_counterexample :
    initRegistry.typeToTypeIdMapping (.struct "Foo" fooFields) = none ∧
      boxRegistry.typeToTypeIdMapping (.struct "Foo" fooFields) = none ∧
      Encode .bits64 initRegistry (Foo 7) =
        .ok [0, 0, 1, 0, 0xBA, 0x7D, 0xBC, 0xDB, 5, 0, 7, 0, 0, 0] ∧
      Encode .bits64 initRegistry (.slice (.struct "Foo" fooFields) [Foo 7]) =
        .ok [16, 0, 1, 0, 1, 0, 0, 0, 1, 0, 0xBA, 0x7D, 0xBC, 0xDB, 5, 0, 7, 0, 0, 0] ∧
      Encode .bits64 boxRegistry (.struct "Box" boxFields [Foo 7]) =
        .ok [60, 0, 1, 0, 0x06, 0x80, 0x64, 0x1F,
          0, 0, 1, 0, 0xBA, 0x7D, 0xBC, 0xDB, 5, 0, 7, 0, 0, 0] :=
  ⟨rfl, rfl, rfl, rfl, rfl⟩

/-- C17, evaluated on the code: `RegisterType` stores a type under an id that is already
registered to another type; it reports nothing, and the registry afterwards maps both
types to the id and the id to the second type only.  After layout `A` and then layout `B`
have been registered under id 50, the id of the registered type `A`, looked up by id,
gives `B`. -/
theorem C17_duplicate_id_overwrites (reg : Registry) (v w : Value) (id : Nat) :
    (RegisterType (RegisterType reg v id) w id).typeToTypeIdMapping v.typeOf = some id ∧
      (RegisterType (RegisterType reg v id) w id).typeToTypeIdMapping w.typeOf = some id ∧
      (RegisterType (RegisterType reg v id) w id).typeIdToTypeMapping id = some w.typeOf ∧
      registryA.typeIdToTypeMapping 50 = some (.struct "A" layoutA) ∧
      registryAB.typeToTypeIdMapping (.struct "A" layoutA) = some 50 ∧
      registryAB.typeToTypeIdMapping (.struct "B" layoutB) = some 50 ∧
      registryAB.typeIdToTypeMapping 50 = some (.struct "B" layoutB) ∧
      GoType.struct "B" layoutB ≠ GoType.struct "A" layoutA := by
  have h1 : ∀ (r : Registry) (u : Value) (i : Nat),
      (RegisterType r u i).typeToTypeIdMapping =
        Function.update r.typeToTypeIdMapping u.typeOf (some i) := by
    intro r u i
    unfold RegisterType
    cases u.typeOf <;> rfl
  have h2 : ∀ (r : Registry) (u : Value) (i : Nat),
      (RegisterType r u i).typeIdToTypeMapping =
        Function.update r.typeIdToTypeMapping i (some u.typeOf) := by
    intro r u i
    unfold RegisterType
    cases u.typeOf <;> rfl
  refine ⟨?_, ?_, ?_, rfl, rfl, rfl, rfl, by decide⟩
  · rw [h1, h1]
    by_cases h : v.typeOf = w.typeOf
    · rw [h]; simp
    · rw [Function.update_noteq h]; simp
  · rw [h1]; simp
  · rw [h2]; simp

/-- C18, evaluated on the code: `RegisterType` accepts the record type with the fields
`costarring` and `liquid`, whose names have the same FNV-1a hash 1582148253.  The stored
name-to-hash map gives both names that hash, so it is not injective, and the stored
hash-to-name map gives the hash the name `liquid` only, so it is not the inverse. -/
theorem C18_hash_collision_accepted :
    nameHash "costarring" = 1582148253 ∧ nameHash "liquid" = 1582148253 ∧
      collidingRegistry.typeToTypeIdMapping (.struct "C" collidingFields) = some 50 ∧
      collidingRegistry.typeIdToTypeMapping 50 = some (.struct "C" collidingFields) ∧
      (collidingRegistry.typeIdNameHashMapping 50).map (fun m => m "costarring") =
        some (some 1582148253) ∧
      (collidingRegistry.typeIdNameHashMapping 50).map (fun m => m "liquid") =
        some (some 1582148253) ∧
      (collidingRegistry.typeIdHashNameMapping 50).map (fun m => m 1582148253) =
        some (some "liquid") ∧
      collidingRegistry.hashName 50 (nameHash "costarring") = "liquid" := by
  refine ⟨by decide, by decide, rfl, rfl, ?_, ?_, ?_, ?_⟩ <;> decide

/-- C19, as amended: a record is encoded under layout A, registered at the id t (a
`uint16` of 18 or more), with a field holding a non-zero value v, and decoded when t is
registered to layout B, which declares the field of that name with a type to which the
type of v is neither assignable nor convertible, the two not being both of array or slice
kind (a bool for an int32 field, a string for a bool field).  Let all fields of A, the
field of v included, be exported, with names different from one another, and hold zero or
a value the decoder reads back from its encoding (such as a bool, an integer or a string
of at most 65535 bytes); let every other field of A be declared in B with its own type,
the name hashes of B differ pairwise and at most 65535 fields of the record be non-zero.
Then `Decode` returns a value of layout B whose field of that name holds the zero value of
its type, while the other shared fields hold what they held in A, so the bytes of v have
been consumed, and the fields A lacks hold zero. -/
theorem C19_incompatible_field_dropped (p : Platform) (regA regB : Registry)
    (nameA nameB : String) (fieldsA fieldsB : FieldList) (valsA : List Value) (t : Nat)
    (name : String) (v : Value) (e : Bool) (ty : GoType)
    (hA : regA.typeToTypeIdMapping (.struct nameA fieldsA) = some t)
    (hB : regB.Holds nameB fieldsB t) (ht : 18 ≤ t) (ht2 : t < 65536)
    (hrec : RecordOf (Transfers p regA regB) fieldsA valsA)
    (hnamesA : fieldsA.names.Nodup)
    (hothers : ∀ n e ty, fieldsA.Has n e ty → n ≠ name → fieldsB.Has n e ty)
    (hhash : (fieldsB.names.map nameHash).Nodup)
    (hcount : nonZeroCount valsA ≤ 65535)
    (hv : fieldValue name fieldsA valsA = some v) (hz : v.IsZero = false)
    (hdst : fieldsB.Has name e ty)
    (h1 : assignableTo v.typeOf ty = false) (h2 : convertibleTo v.typeOf ty = false)
    (h3 : (v.typeOf.isArrayOrSlice && ty.isArrayOrSlice) = false) :
    ∃ bytes valsB, Encode p regA (.struct nameA fieldsA valsA) = .ok bytes ∧
      Decode p regB bytes = .ok (some (.struct nameB fieldsB valsB)) ∧
      valsB.length = fieldsB.length ∧
      fieldValue name fieldsB valsB = some (zeroValue ty) ∧
      (∀ n w, n ≠ name → fieldValue n fieldsA valsA = some w →
        fieldValue n fieldsB valsB = some w) ∧
      (∀ n e ty, fieldsB.Has n e ty → n ∉ fieldsA.names →
        fieldValue n fieldsB valsB = some (zeroValue ty)) := by
  obtain ⟨i, hfind, _⟩ := find_of_has hdst (List.Nodup.of_map _ hhash)
  exact Decode_Encode_coerced p regA regB nameA nameB fieldsA fieldsB valsA t name
    v (zeroValue ty) hA hB ht ht2 hrec hnamesA hothers hhash hcount hv hz
    (lands_dropped p fieldsB name v i e ty hfind h1 h2 h3)

/-- C19 at a concrete input: `A{X: true, Y: 2}` with `X bool, Y int32`, decoded under the
layout `X int32, Y int32` registered at the same id 50. -/
theorem C19_incompatible_field_dropped_witness :
    registryA.Holds "A" layoutA 50 ∧
      fieldValue "X" layoutFlag [.bool true, .int .int32 2] = some (.bool true) ∧
      layoutA.Has "X" true (.int .int32) ∧
      ∃ bytes valsB,
        Encode .bits64 registryFlag (.struct "A" layoutFlag [.bool true, .int .int32 2]) =
          .ok bytes ∧
        Decode .bits64 registryA bytes = .ok (some (.struct "A" layoutA valsB)) ∧
        valsB.length = layoutA.length ∧
        fieldValue "X" layoutA valsB = some (zeroValue (.int .int32)) ∧
        (∀ n w, n ≠ "X" → fieldValue n layoutFlag [.bool true, .int .int32 2] = some w →
          fieldValue n layoutA valsB = some w) ∧
        (∀ n e ty, layoutA.Has n e ty → n ∉ layoutFlag.names →
          fieldValue n layoutA valsB = some (zeroValue ty)) :=
  have hB : registryA.Holds "A" layoutA 50 := ⟨rfl, rfl, rfl⟩
  have hdst : layoutA.Has "X" true (.int .int32) := by simp [layoutA, FieldList.Has]
  ⟨hB, rfl, hdst,
    C19_incompatible_field_dropped .bits64 registryFlag registryA "A" "A" layoutFlag layoutA
      [.bool true, .int .int32 2] 50 "X" (.bool true) true (.int .int32) rfl hB (by decide)
      (by decide)
      (recordOf_mono (transfers_of_simple .bits64 registryFlag registryA) layoutFlag _
        (by simp [RecordOf, layoutFlag, Value.IsSimple, Value.IsScalar, IntKind.InRange,
          IntKind.size, Value.typeOf]))
      (by decide)
      (by
        intro n e ty h hn
        simp only [layoutFlag, FieldList.Has, or_false] at h
        simp only [layoutA, FieldList.Has, or_false]
        rcases h with h | h
        · exact absurd h.1.symm hn
        · exact Or.inr h)
      (by decide) (by decide) rfl rfl hdst (by decide) (by decide) (by decide)⟩

/-- C19 as stated fails: the record `A{X: s, Y: 2}` with `X string, Y int32` and a text
`s` of 65536 bytes is decoded under the layout `X bool, Y int32` registered at the same
id 50 to `A{X: false, Y: 0}`.  The text arriving for the bool field is dropped, but its
bytes are not consumed: its length is written as `00 00`, the decoder takes bytes of the
text for the next field, and the field `Y` is lost. -/
theorem C19_counterexample :
    layoutFlag.Has "X" true .bool ∧ layoutFlag.Has "Y" true (.int .int32) ∧
      assignableTo .string .bool = false ∧ convertibleTo .string .bool = false ∧
      (∃ bytes, Encode .bits64 registryText
          (.struct "A" layoutText [.string longText, .int .int32 2]) = .ok bytes ∧
        Decode .bits64 registryFlag bytes =
          .ok (some (.struct "A" layoutFlag [.bool false, .int .int32 0]))) ∧
      Value.int .int32 0 ≠ Value.int .int32 2 := by
  refine ⟨by simp [layoutFlag, FieldList.Has], by simp [layoutFlag, FieldList.Has],
    by decide, by decide, ?_, by simp⟩
  exact Decode_long_text_then_lost .bits64 registryText registryFlag "A" "A" "X" "Y" 50
    (.int .int32) (.int .int32 2) _ 0x61616161 (List.replicate 65532 0x61) layoutFlag
    _ rfl rfl (by decide) (by decide) (by decide) (by decide) (by decide) (by decide)
    (by rw [List.length_append, leBytes_length, List.length_replicate]) rfl rfl rfl

/-- C20: a slice of length zero, nil or not, and an array of length zero, of any element
type, is encoded as its tag, the count 0 and the tag list of its element type, and
`Decode` returns nil from the encoding, not an empty container; so the round trip does not
hold for an empty container. -/
theorem C20_empty_container_decodes_to_nil (p : Platform) (reg : Registry) (elem : GoType) :
    (∃ bytes, Encode p reg (.slice elem []) = .ok bytes ∧ Decode p reg bytes = .ok none ∧
      Decode p reg bytes ≠ .ok (some (.slice elem []))) ∧
    (∃ bytes, Encode p reg (.nilSlice elem) = .ok bytes ∧ Decode p reg bytes = .ok none ∧
      Decode p reg bytes ≠ .ok (some (.nilSlice elem))) ∧
    (∃ bytes, Encode p reg (.array elem []) = .ok bytes ∧ Decode p reg bytes = .ok none ∧
      Decode p reg bytes ≠ .ok (some (.array elem []))) := by
  have hs := Decode_no_items p reg TypeIdSlice (Or.inr rfl) elem
  have ha := Decode_no_items p reg TypeIdArray (Or.inl rfl) elem
  refine ⟨⟨_, ?_, hs, by rw [hs]; simp⟩, ⟨_, ?_, hs, by rw [hs]; simp⟩,
    ⟨_, ?_, ha, by rw [ha]; simp⟩⟩
  · rw [Encode_eq]
    simp [encBytes, encItems, headerBytes, lengthBytes, typeTag]
  · rw [Encode_eq]
    simp [encBytes, headerBytes, lengthBytes, typeTag]
  · rw [Encode_eq]
    simp [encBytes, encItems, headerBytes, lengthBytes, typeTag]

end Serializer
